import Mathlib

/-!
# The memcached hash index (`assoc.c`)

A shallow embedding of `assoc.c` (memcached 1.4.21) and a verification of its
specification.

Conventions of the embedding

* C integers are natural numbers reduced explicitly: `unsigned int` and
  `uint32_t` modulo `2 ^ 32`, `unsigned long` (`ub4`, LP64) modulo `2 ^ 64`,
  `int` is an `Int` obtained by `to_int`. `sizeof(void *)` is 8.
* An item pointer is `Option Nat`: `none` is `NULL`, `some a` is the address of
  an item record. The item records live in `State.mem`; the index only ever
  writes their `h_next` field.
* A bucket array pointer is `Option Nat` as well; the arrays themselves live in
  `State.heap`, where `none` means "not allocated" (never allocated, or freed).
* An operation returns `Except Fault _`: `Fault.undefined` is undefined
  behaviour of the C program (null or dangling dereference, index out of
  bounds); `Fault.fuel` means the loop bound handed to the model was too small.
* The hash function `hash(key, nkey)` lives in another file of memcached; it is
  a parameter `hash : List Nat → Nat` and its value is reduced modulo `2 ^ 32`
  (it returns `uint32_t`).
-/

namespace Assoc

/-! ## Machine arithmetic -/

/-- The macro `hashsize(n)`, that is `(ub4)1 << n` in 64-bit `unsigned long`.
The C shift is only defined for `n < 64`. -/
def hashsize (n : Nat) : Nat := (1 <<< n) % 2 ^ 64

/-- The macro `hashmask(n)`, that is `hashsize(n) - 1` in `unsigned long`. -/
def hashmask (n : Nat) : Nat := (hashsize n + 2 ^ 64 - 1) % 2 ^ 64

/-- The expression `x - 1` on an `unsigned int`. -/
def udec (x : Nat) : Nat := (x + 2 ^ 32 - 1) % 2 ^ 32

/-- The expression `x + 1` on an `unsigned int`. -/
def uinc (x : Nat) : Nat := (x + 1) % 2 ^ 32

/-- Conversion of an unsigned value to `int` (two's complement, 32 bits). -/
def to_int (v : Nat) : Int :=
  if v % 2 ^ 32 < 2 ^ 31 then ((v % 2 ^ 32 : Nat) : Int) else ((v % 2 ^ 32 : Nat) : Int) - 2 ^ 32

/-- Conversion of an `int` to `unsigned int`. -/
def to_uint (v : Int) : Nat := (v % 2 ^ 32).toNat

/-! ## Data model -/

/-- Modelled from the spec: the record `item`, declared in `memcached.h`, which
is not among the sources. The specification asks of it a key, compared by
length and bytes, and one link reserved for the chain; these are the fields the
code of `assoc.c` uses: the key bytes (`ITEM_key(it)`, `it->nkey` of them) and
the chain link `h_next`. -/
structure item where
  key : List Nat
  h_next : Option Nat

/-- The field `it->nkey`. -/
def item.nkey (it : item) : Nat := it.key.length

/-- A `calloc`ed array of `size` chain heads. -/
structure table where
  size : Nat
  slot : Nat → Option Nat

/-- Why an operation of the model has no result. -/
inductive Fault where
  | undefined
  | fuel
  deriving DecidableEq, Repr

/-- The global variables of `assoc.c`, the three statistics it maintains, and
the two memories it works on. `cond_signals` counts the calls of
`pthread_cond_signal(&maintenance_cond)`. -/
structure State where
  mem : Nat → item
  heap : Nat → Option table
  hashpower : Nat
  primary_hashtable : Option Nat
  old_hashtable : Option Nat
  hash_items : Nat
  expanding : Bool
  started_expanding : Bool
  expand_bucket : Nat
  do_run_maintenance_thread : Int
  hash_bulk_move : Int
  cond_signals : Nat
  stats_hash_power_level : Nat
  stats_hash_bytes : Nat
  stats_hash_is_expanding : Bool

/-- Modelled from the spec: the constant `HASHPOWER_DEFAULT`, defined in
`memcached.h`, which is not among the sources. The specification gives 16 as
the default power, and so do the comments of `assoc_init`. -/
def HASHPOWER_DEFAULT : Nat := 16

/-- The constant `DEFAULT_HASH_BULK_MOVE`. -/
def DEFAULT_HASH_BULK_MOVE : Int := 1

/-- The static initialisers of the globals, over a given item memory. -/
def initial_globals (mem : Nat → item) : State where
  mem := mem
  heap := fun _ => none
  hashpower := HASHPOWER_DEFAULT
  primary_hashtable := none
  old_hashtable := none
  hash_items := 0
  expanding := false
  started_expanding := false
  expand_bucket := 0
  do_run_maintenance_thread := 1
  hash_bulk_move := DEFAULT_HASH_BULK_MOVE
  cond_signals := 0
  stats_hash_power_level := 0
  stats_hash_bytes := 0
  stats_hash_is_expanding := false

/-! ## Memory accesses -/

/-- The read `t[i]` of a bucket array. -/
def load (s : State) (t : Option Nat) (i : Nat) : Except Fault (Option Nat) :=
  match t with
  | none => .error .undefined
  | some a =>
    match s.heap a with
    | none => .error .undefined
    | some T => if i < T.size then .ok (T.slot i) else .error .undefined

/-- The write `t[i] = v` of a bucket array. -/
def store (s : State) (t : Option Nat) (i : Nat) (v : Option Nat) : Except Fault State :=
  match t with
  | none => .error .undefined
  | some a =>
    match s.heap a with
    | none => .error .undefined
    | some T =>
      if i < T.size then
        let T1 : table := { T with slot := Function.update T.slot i v }
        .ok { s with heap := Function.update s.heap a (some T1) }
      else .error .undefined

/-- The write `it->h_next = v`. -/
def set_h_next (s : State) (it : Nat) (v : Option Nat) : State :=
  { s with mem := Function.update s.mem it { s.mem it with h_next := v } }

/-- The library function `calloc(nmemb, 8)`. `p` is the address the allocator
picks; the call fails (returns `NULL`) when `p` is `none`, when the byte count
overflows `size_t`, or when `p` is the address of a live block. -/
def calloc (heap : Nat → Option table) (p : Option Nat) (nmemb : Nat) :
    (Nat → Option table) × Option Nat :=
  match p with
  | none => (heap, none)
  | some a =>
    if nmemb * 8 < 2 ^ 64 ∧ (heap a).isNone then
      (Function.update heap a (some { size := nmemb, slot := fun _ => none }), some a)
    else (heap, none)

/-- The library function `free(t)`. -/
def free (heap : Nat → Option table) (t : Option Nat) : Nat → Option table :=
  match t with
  | none => heap
  | some a => Function.update heap a none

/-! ## The operations of `assoc.c` -/

/-- The function `assoc_init`. A failed allocation ends the process
(`exit(EXIT_FAILURE)`): there is no state afterwards. -/
def assoc_init (s : State) (hashtable_init : Int) (p : Option Nat) : Option State :=
  let hp := if hashtable_init ≠ 0 then to_uint hashtable_init else s.hashpower
  let r := calloc s.heap p (hashsize hp)
  match r.2 with
  | none => none
  | some a =>
    some { s with
      hashpower := hp
      heap := r.1
      primary_hashtable := some a
      stats_hash_power_level := hp
      stats_hash_bytes := (hashsize hp * 8) % 2 ^ 64 }

/-- The test `(nkey == it->nkey) && (memcmp(key, ITEM_key(it), nkey) == 0)`;
the caller's `key`, `nkey` is the list of its `nkey` bytes. -/
def key_matches (key : List Nat) (it : item) : Bool :=
  (key.length == it.nkey) && (key.take key.length == it.key.take key.length)

/-- The bucket selection shared by `assoc_find`, `_hashitem_before` and
`assoc_insert`: the array and the index of the chain for hash `hv`. -/
def select_bucket (s : State) (hv : Nat) : Option Nat × Nat :=
  if s.expanding ∧ (hv % 2 ^ 32 &&& hashmask (udec s.hashpower)) % 2 ^ 32 ≥ s.expand_bucket then
    (s.old_hashtable, (hv % 2 ^ 32 &&& hashmask (udec s.hashpower)) % 2 ^ 32)
  else
    (s.primary_hashtable, hv % 2 ^ 32 &&& hashmask s.hashpower)

/-- The `while (it)` loop of `assoc_find`. -/
def find_loop (s : State) (key : List Nat) : Nat → Option Nat → Except Fault (Option Nat)
  | _, none => .ok none
  | 0, some _ => .error .fuel
  | fuel + 1, some a =>
    if key_matches key (s.mem a) then .ok (some a)
    else find_loop s key fuel (s.mem a).h_next

/-- The function `assoc_find`. -/
def assoc_find (fuel : Nat) (s : State) (key : List Nat) (hv : Nat) :
    Except Fault (Option Nat) :=
  match load s (select_bucket s hv).1 (select_bucket s hv).2 with
  | .error e => .error e
  | .ok it => find_loop s key fuel it

/-- An lvalue of type `item *`: a slot of a bucket array, or the `h_next` field
of an item. -/
inductive link where
  | slot (t : Option Nat) (i : Nat)
  | field (a : Nat)

/-- The read `*pos`. -/
def link.deref (s : State) : link → Except Fault (Option Nat)
  | .slot t i => load s t i
  | .field a => .ok (s.mem a).h_next

/-- The write `*pos = v`. -/
def link.assign (s : State) (v : Option Nat) : link → Except Fault State
  | .slot t i => store s t i v
  | .field a => .ok (set_h_next s a v)

/-- The `while` loop of `_hashitem_before`. -/
def before_loop (s : State) (key : List Nat) : Nat → link → Except Fault link
  | 0, _ => .error .fuel
  | fuel + 1, pos =>
    match pos.deref s with
    | .error e => .error e
    | .ok none => .ok pos
    | .ok (some a) =>
      if !key_matches key (s.mem a) then before_loop s key fuel (.field a)
      else .ok pos

/-- The function `_hashitem_before`. -/
def _hashitem_before (fuel : Nat) (s : State) (key : List Nat) (hv : Nat) : Except Fault link :=
  before_loop s key fuel (.slot (select_bucket s hv).1 (select_bucket s hv).2)

/-- The function `assoc_start_expand`. -/
def assoc_start_expand (s : State) : State :=
  if s.started_expanding then s
  else { s with started_expanding := true, cond_signals := s.cond_signals + 1 }

/-- The function `assoc_insert`. -/
def assoc_insert (s : State) (it : Nat) (hv : Nat) : Except Fault State :=
  match load s (select_bucket s hv).1 (select_bucket s hv).2 with
  | .error e => .error e
  | .ok hd =>
    match store (set_h_next s it hd) (select_bucket s hv).1 (select_bucket s hv).2 (some it) with
    | .error e => .error e
    | .ok s1 =>
      let s2 := { s1 with hash_items := uinc s1.hash_items }
      if !s2.expanding ∧ s2.hash_items > (hashsize s2.hashpower * 3) % 2 ^ 64 / 2 then
        .ok (assoc_start_expand s2)
      else .ok s2

/-- The function `assoc_delete`, built without the `assert` (`NDEBUG`). -/
def assoc_delete (fuel : Nat) (s : State) (key : List Nat) (hv : Nat) : Except Fault State :=
  match _hashitem_before fuel s key hv with
  | .error e => .error e
  | .ok before =>
    match before.deref s with
    | .error e => .error e
    | .ok none => .ok s
    | .ok (some a) =>
      let s1 := { s with hash_items := udec s.hash_items }
      let nxt := (s1.mem a).h_next
      before.assign (set_h_next s1 a none) nxt

/-- The value of the condition `*before != 0` tested by `assoc_delete`; when it
is false the function reaches its `assert`. -/
def assoc_delete_found (fuel : Nat) (s : State) (key : List Nat) (hv : Nat) : Except Fault Bool :=
  match _hashitem_before fuel s key hv with
  | .error e => .error e
  | .ok before =>
    match before.deref s with
    | .error e => .error e
    | .ok r => .ok r.isSome

/-- The function `assoc_expand`; `p` is the address `calloc` picks. -/
def assoc_expand (s : State) (p : Option Nat) : State :=
  let s1 := { s with old_hashtable := s.primary_hashtable }
  let r := calloc s1.heap p (hashsize (uinc s1.hashpower))
  match r.2 with
  | some a =>
    { s1 with
      heap := r.1
      primary_hashtable := some a
      hashpower := uinc s1.hashpower
      expanding := true
      expand_bucket := 0
      stats_hash_power_level := uinc s1.hashpower
      stats_hash_bytes := (s1.stats_hash_bytes + (hashsize (uinc s1.hashpower) * 8) % 2 ^ 64) % 2 ^ 64
      stats_hash_is_expanding := true }
  | none => { s1 with primary_hashtable := s1.old_hashtable }

/-- The inner `for` loop of the maintenance thread: every item of the chain
starting at `it` is pushed on the primary chain its hash selects. -/
def move_chain (hash : List Nat → Nat) (s : State) : Nat → Option Nat → Except Fault State
  | _, none => .ok s
  | 0, some _ => .error .fuel
  | fuel + 1, some it =>
    let next := (s.mem it).h_next
    let bucket : Int := to_int (hash (s.mem it).key % 2 ^ 32 &&& hashmask s.hashpower)
    if bucket < 0 then .error .undefined
    else
      match load s s.primary_hashtable bucket.toNat with
      | .error e => .error e
      | .ok hd =>
        match store (set_h_next s it hd) s.primary_hashtable bucket.toNat (some it) with
        | .error e => .error e
        | .ok s1 => move_chain hash s1 fuel next

/-- One pass of the body of the outer `for` loop of the maintenance thread:
the migration of bucket `expand_bucket` of the old table. -/
def migrate_bucket (hash : List Nat → Nat) (fuel : Nat) (s : State) : Except Fault State :=
  match load s s.old_hashtable s.expand_bucket with
  | .error e => .error e
  | .ok hd =>
    match move_chain hash s fuel hd with
    | .error e => .error e
    | .ok s1 =>
      match store s1 s1.old_hashtable s1.expand_bucket none with
      | .error e => .error e
      | .ok s2 =>
        let s3 := { s2 with expand_bucket := uinc s2.expand_bucket }
        if s3.expand_bucket = hashsize (udec s3.hashpower) then
          .ok { s3 with
            expanding := false
            heap := free s3.heap s3.old_hashtable
            stats_hash_bytes :=
              (s3.stats_hash_bytes + 2 ^ 64 - (hashsize (udec s3.hashpower) * 8) % 2 ^ 64) % 2 ^ 64
            stats_hash_is_expanding := false }
        else .ok s3

/-- The loop `for (ii = 0; ii < hash_bulk_move && expanding; ++ii)`, with `n`
the number of values of `ii` still below `hash_bulk_move`. -/
def bulk_move_loop (hash : List Nat → Nat) (fuel : Nat) : Nat → State → Except Fault State
  | 0, s => .ok s
  | n + 1, s =>
    if s.expanding then
      match migrate_bucket hash fuel s with
      | .error e => .error e
      | .ok s1 => bulk_move_loop hash fuel n s1
    else .ok s

/-- One batch of the maintenance thread: the outer `for` loop from `ii = 0`. -/
def bulk_move (hash : List Nat → Nat) (fuel : Nat) (s : State) : Except Fault State :=
  bulk_move_loop hash fuel s.hash_bulk_move.toNat s

/-! ## Chains and layouts (specification vocabulary) -/

/-- The list `l` is the sequence of item addresses met when walking `h_next`
from the pointer `h` until `NULL`. -/
def IsChain (mem : Nat → item) : Option Nat → List Nat → Prop
  | h, [] => h = none
  | h, a :: l => h = some a ∧ IsChain mem (mem a).h_next l

/-- The array `t` has at least `n` readable slots and slot `i < n` is the head
of the chain `c i`. -/
def Heads (s : State) (t : Option Nat) (n : Nat) (c : Nat → List Nat) : Prop :=
  ∀ i, i < n → ∃ h, load s t i = .ok h ∧ IsChain s.mem h (c i)

/-- The chain of an item whose key hashes to `h` is a chain of the old table:
a resize is in progress and the old bucket of `h` is not yet migrated. -/
def in_old (s : State) (h : Nat) : Prop :=
  s.expanding = true ∧ s.expand_bucket ≤ h % 2 ^ 32 % 2 ^ (s.hashpower - 1)

instance (s : State) (h : Nat) : Decidable (in_old s h) := by
  unfold in_old; infer_instance

/-- The index invariants. `I` lists the indexed items, `cp i` is the chain of
bucket `i` of the primary table and `co j` the chain of bucket `j` of the old
table. Every bucket is the head of a null-terminated chain, an indexed item is
on the chain that its key's hash selects and on no other, distinct indexed
items have distinct keys, and `hash_items` counts the indexed items. -/
structure Inv (hash : List Nat → Nat) (s : State) (I : List Nat) (cp co : Nat → List Nat) :
    Prop where
  power_le : s.hashpower ≤ 60
  count : s.hash_items = I.length % 2 ^ 32
  nodup : I.Nodup
  keys : ∀ a ∈ I, ∀ b ∈ I, (s.mem a).key = (s.mem b).key → a = b
  prim : Heads s s.primary_hashtable (2 ^ s.hashpower) cp
  old : s.expanding = true → Heads s s.old_hashtable (2 ^ (s.hashpower - 1)) co
  sep : s.expanding = true → s.old_hashtable ≠ s.primary_hashtable
  power_pos : s.expanding = true → 0 < s.hashpower
  frontier : s.expanding = true → s.expand_bucket < 2 ^ (s.hashpower - 1)
  mem_p : ∀ i a, a ∈ cp i ↔
    a ∈ I ∧ ¬ in_old s (hash (s.mem a).key) ∧ i = hash (s.mem a).key % 2 ^ 32 % 2 ^ s.hashpower
  mem_o : ∀ j a, a ∈ co j ↔
    a ∈ I ∧ in_old s (hash (s.mem a).key) ∧ j = hash (s.mem a).key % 2 ^ 32 % 2 ^ (s.hashpower - 1)

/-- The two states agree on everything the layout of the index depends on: the
two memories, the power, the two array pointers and the resize position. -/
structure SameLayout (s s' : State) : Prop where
  mem : s'.mem = s.mem
  heap : s'.heap = s.heap
  hashpower : s'.hashpower = s.hashpower
  primary_hashtable : s'.primary_hashtable = s.primary_hashtable
  old_hashtable : s'.old_hashtable = s.old_hashtable
  expanding : s'.expanding = s.expanding
  expand_bucket : s'.expand_bucket = s.expand_bucket

/-- The two states agree on every global variable other than `hash_items` (the
two memories apart). -/
structure SameGlobals (s s' : State) : Prop where
  hashpower : s'.hashpower = s.hashpower
  primary_hashtable : s'.primary_hashtable = s.primary_hashtable
  old_hashtable : s'.old_hashtable = s.old_hashtable
  expanding : s'.expanding = s.expanding
  started_expanding : s'.started_expanding = s.started_expanding
  expand_bucket : s'.expand_bucket = s.expand_bucket
  do_run_maintenance_thread : s'.do_run_maintenance_thread = s.do_run_maintenance_thread
  hash_bulk_move : s'.hash_bulk_move = s.hash_bulk_move
  cond_signals : s'.cond_signals = s.cond_signals
  stats_hash_power_level : s'.stats_hash_power_level = s.stats_hash_power_level
  stats_hash_bytes : s'.stats_hash_bytes = s.stats_hash_bytes
  stats_hash_is_expanding : s'.stats_hash_is_expanding = s.stats_hash_is_expanding

/-- The chains of an array after the items of `l` were pushed, in the order of
`l`, each on the head of the bucket `nb` gives it. -/
def push_all (nb : Nat → Nat) (c : Nat → List Nat) (l : List Nat) : Nat → List Nat :=
  l.foldl (fun c a => Function.update c (nb a) (a :: c (nb a))) c

/-! ## Runs of the index -/

/-- The outcome of a computation of the model that takes a loop bound: `r` is
its result for every large enough bound, `none` standing for undefined
behaviour. -/
def Outcome (f : Nat → Except Fault State) (r : Option State) : Prop :=
  ∃ N, ∀ fuel, N ≤ fuel → f fuel ≠ .error .fuel ∧ (f fuel).toOption = r

/-- The states reached from `assoc_init` by valid operations, with the list of
the items indexed so far, in runs where the power never exceeds `maxp`:
* `assoc_insert` of an item whose key no indexed item has, with the hash of its
  key;
* `assoc_delete` of the key of an indexed item, with the hash of that key;
* `assoc_expand` outside a resize, whether `calloc` succeeds or fails;
* one pass of the migration loop during a resize.
The state is `none` once an operation had undefined behaviour. -/
inductive Reach (hash : List Nat → Nat) (maxp : Nat) : Option State → List Nat → Prop
  | init (mem : Nat → item) (hashtable_init : Int) (p : Option Nat) (s : State) :
      (if hashtable_init ≠ 0 then to_uint hashtable_init else HASHPOWER_DEFAULT) ≤ maxp →
      (if hashtable_init ≠ 0 then to_uint hashtable_init else HASHPOWER_DEFAULT) < 64 →
      assoc_init (initial_globals mem) hashtable_init p = some s →
      Reach hash maxp (some s) []
  | insert (s : State) (I : List Nat) (it hv : Nat) :
      Reach hash maxp (some s) I →
      (∀ a ∈ I, (s.mem a).key ≠ (s.mem it).key) →
      hv = hash (s.mem it).key % 2 ^ 32 →
      Reach hash maxp (assoc_insert s it hv).toOption (it :: I)
  | delete (s : State) (I : List Nat) (x hv : Nat) (r : Option State) :
      Reach hash maxp (some s) I →
      x ∈ I →
      hv = hash (s.mem x).key % 2 ^ 32 →
      Outcome (fun fuel => assoc_delete fuel s (s.mem x).key hv) r →
      Reach hash maxp r (I.erase x)
  | expand (s : State) (I : List Nat) (p : Option Nat) :
      Reach hash maxp (some s) I →
      s.expanding = false →
      (assoc_expand s p).hashpower ≤ maxp →
      Reach hash maxp (some (assoc_expand s p)) I
  | migrate (s : State) (I : List Nat) (r : Option State) :
      Reach hash maxp (some s) I →
      s.expanding = true →
      Outcome (fun fuel => migrate_bucket hash fuel s) r →
      Reach hash maxp r I

/-- The states reached from `assoc_init` by the same valid operations, with the
list of the items indexed so far, in runs of any power where every pass of the
migration loop is made at a power of at most `maxm`: nothing bounds the power
at `assoc_init`, at `assoc_expand`, at `assoc_insert` or at `assoc_delete`.
The state is `none` once an operation had undefined behaviour. -/
inductive Reachable (hash : List Nat → Nat) (maxm : Nat) : Option State → List Nat → Prop
  | init (mem : Nat → item) (hashtable_init : Int) (p : Option Nat) (s : State) :
      (if hashtable_init ≠ 0 then to_uint hashtable_init else HASHPOWER_DEFAULT) < 64 →
      assoc_init (initial_globals mem) hashtable_init p = some s →
      Reachable hash maxm (some s) []
  | insert (s : State) (I : List Nat) (it hv : Nat) :
      Reachable hash maxm (some s) I →
      (∀ a ∈ I, (s.mem a).key ≠ (s.mem it).key) →
      hv = hash (s.mem it).key % 2 ^ 32 →
      Reachable hash maxm (assoc_insert s it hv).toOption (it :: I)
  | delete (s : State) (I : List Nat) (x hv : Nat) (r : Option State) :
      Reachable hash maxm (some s) I →
      x ∈ I →
      hv = hash (s.mem x).key % 2 ^ 32 →
      Outcome (fun fuel => assoc_delete fuel s (s.mem x).key hv) r →
      Reachable hash maxm r (I.erase x)
  | expand (s : State) (I : List Nat) (p : Option Nat) :
      Reachable hash maxm (some s) I →
      s.expanding = false →
      Reachable hash maxm (some (assoc_expand s p)) I
  | migrate (s : State) (I : List Nat) (r : Option State) :
      Reachable hash maxm (some s) I →
      s.expanding = true →
      s.hashpower ≤ maxm →
      Outcome (fun fuel => migrate_bucket hash fuel s) r →
      Reachable hash maxm r I

/-! ## Concrete data for the examples -/

/-- An item memory: the item at address `a` has the eight-byte key that is `a`
written as a big-endian 64-bit number; no item is linked. -/
def ex_mem : Nat → item := fun a =>
  { key := [a / 2 ^ 56 % 256, a / 2 ^ 48 % 256, a / 2 ^ 40 % 256, a / 2 ^ 32 % 256,
      a / 2 ^ 24 % 256, a / 2 ^ 16 % 256, a / 2 ^ 8 % 256, a % 256],
    h_next := none }

/-- A hash function: the key read as a big-endian number, reduced to 32 bits. -/
def ex_hash : List Nat → Nat := fun k => k.foldl (fun h b => (h * 256 + b) % 2 ^ 32) 0

/-- The state after `assoc_init(p)` over `ex_mem`, the table allocated at
address 1. -/
def ex_init (p : Int) : State :=
  (assoc_init (initial_globals ex_mem) p (some 1)).getD (initial_globals ex_mem)

/-- The state after one more `assoc_insert` of item `a` with the hash of its
key. -/
def ex_insert (s : State) (a : Nat) : State :=
  match assoc_insert s a (ex_hash (s.mem a).key % 2 ^ 32) with
  | .ok s' => s'
  | .error _ => s

/-- The state after `assoc_init(31)`, the insertion of the item at address
`2 ^ 31`, whose key hashes to `0x80000000`, and a successful `assoc_expand` to
power 32. -/
def ex_big : State := assoc_expand (ex_insert (ex_init 31) (2 ^ 31)) (some 2)

/-- The state after `assoc_init(2)` and the insertion of the items at the
addresses `0`, ..., `n - 1`, in this order, each with the hash of its key. -/
def ex_fill : Nat → State
  | 0 => ex_init 2
  | n + 1 => ex_insert (ex_fill n) n

/-- All the items met when walking the chains of the buckets `0`, ..., `n - 1`,
one chain after the other. -/
def chain_items (n : Nat) (c : Nat → List Nat) : List Nat := (List.range n).flatMap c

/-- A well-formed index state: the power is at most 60, the primary array is
allocated with `1 << hashpower` slots and, during a resize, the old array is
another allocated array, of `1 << (hashpower - 1)` slots, and `expand_bucket`
is within its range; `hash_items` is a value of its type `unsigned int`.
Nothing is asked of the chains. -/
structure Allocated (s : State) : Prop where
  power_le : s.hashpower ≤ 60
  items_lt : s.hash_items < 2 ^ 32
  prim : ∃ a T, s.primary_hashtable = some a ∧ s.heap a = some T ∧ T.size = 2 ^ s.hashpower
  power_pos : s.expanding = true → 0 < s.hashpower
  frontier : s.expanding = true → s.expand_bucket < 2 ^ (s.hashpower - 1)
  old : s.expanding = true →
    ∃ a T, s.old_hashtable = some a ∧ s.heap a = some T ∧ T.size = 2 ^ (s.hashpower - 1)
  sep : s.expanding = true → s.old_hashtable ≠ s.primary_hashtable

/-- The state after `assoc_init(2)`, the insertion of the items 0, 4 and 1, and
a successful `assoc_expand` to power 3: a resize has just started. -/
def ex_resizing : State :=
  assoc_expand (ex_insert (ex_insert (ex_insert (ex_init 2) 0) 4) 1) (some 2)

/-- The state after one more bucket-migration step. -/
def ex_migrate (s : State) : State :=
  match migrate_bucket ex_hash 8 s with
  | .ok s' => s'
  | .error _ => s

/-- The literal scenario of the specification at the start of its resize: a
table of power 2, the items whose keys hash to `0x0, 0x1, 0x4, 0x5, 0x8, 0x9,
0xC` inserted with these hashes, and a successful `assoc_expand`. -/
def ex_scenario_start : State :=
  assoc_expand ([0, 1, 4, 5, 8, 9, 12].foldl ex_insert (ex_init 2)) (some 2)

/-- The literal scenario after the migration of its four old buckets. -/
def ex_scenario : State :=
  ex_migrate (ex_migrate (ex_migrate (ex_migrate ex_scenario_start)))

/-- A resize run to completion after item 1, whose key hashes to 1, was
inserted with the hash value 0. -/
def ex_mishashed : Except Fault State :=
  match assoc_insert (ex_init 2) 1 0 with
  | .ok s => bulk_move_loop ex_hash 8 4 (assoc_expand s (some 2))
  | .error e => .error e

/-- The states reached from `assoc_init` by calls of `assoc_insert`,
`assoc_delete` and `assoc_expand` (with any arguments and any answer of
`calloc`) and by bucket-migration steps, all of them defined. -/
inductive Run (hash : List Nat → Nat) : State → Prop
  | init (mem : Nat → item) (hashtable_init : Int) (p : Option Nat) (s : State) :
      assoc_init (initial_globals mem) hashtable_init p = some s → Run hash s
  | insert (s s' : State) (it hv : Nat) :
      Run hash s → assoc_insert s it hv = .ok s' → Run hash s'
  | delete (s s' : State) (fuel : Nat) (key : List Nat) (hv : Nat) :
      Run hash s → assoc_delete fuel s key hv = .ok s' → Run hash s'
  | expand (s : State) (p : Option Nat) : Run hash s → Run hash (assoc_expand s p)
  | migrate (s s' : State) (fuel : Nat) :
      Run hash s → s.expanding = true → migrate_bucket hash fuel s = .ok s' → Run hash s'

/-- Consecutive calls of `assoc_insert`, one for each pair of an item and a
hash value. -/
def insert_run (s : State) : List (Nat × Nat) → Except Fault State
  | [] => .ok s
  | x :: xs =>
    match assoc_insert s x.1 x.2 with
    | .ok s' => insert_run s' xs
    | .error e => .error e

/-- The items at the addresses `0`, ..., `n - 1`, each with the hash of its
key. -/
def ex_items (n : Nat) : List (Nat × Nat) := (List.range n).map (fun a => (a, a % 2 ^ 32))

/-! ## The maintenance thread -/

/-- Where `assoc_maintenance_thread` stands after a stretch of execution:
blocked in `pthread_cond_wait`, or returned from its `while` loop. -/
inductive Worker where
  | waiting
  | returned
  deriving DecidableEq, Repr

/-- The function `assoc_maintenance_thread` from the test of its `while` loop
until it blocks in `pthread_cond_wait` or returns; `n` bounds the number of
passes through the loop. The locks and the slab rebalancer are not part of the
model. -/
def maintenance_loop (hash : List Nat → Nat) (fuel : Nat) :
    Nat → State → Except Fault (State × Worker)
  | 0, _ => .error .fuel
  | n + 1, s =>
    if s.do_run_maintenance_thread ≠ 0 then
      match bulk_move hash fuel s with
      | .error e => .error e
      | .ok s1 =>
        if !s1.expanding then .ok ({ s1 with started_expanding := false }, .waiting)
        else maintenance_loop hash fuel n s1
    else .ok (s, .returned)

/-- The function `assoc_maintenance_thread` from the return of
`pthread_cond_wait`: the call of `assoc_expand` that follows the wait, then the
loop; `p` is the address `calloc` picks. -/
def maintenance_wakeup (hash : List Nat → Nat) (fuel n : Nat) (s : State) (p : Option Nat) :
    Except Fault (State × Worker) :=
  maintenance_loop hash fuel n (assoc_expand s p)

/-- The function `stop_assoc_maintenance_thread` up to its `pthread_join`. -/
def stop_assoc_maintenance_thread (s : State) : State :=
  { s with do_run_maintenance_thread := 0, cond_signals := s.cond_signals + 1 }

/-- The loop `for (ii = 0; ii < hash_bulk_move && expanding; ++ii)` run `k`
times in a row, with `hash_bulk_move` equal to `B` and nothing in between. -/
def batches (hash : List Nat → Nat) (fuel B : Nat) : Nat → State → Except Fault State
  | 0, s => .ok s
  | k + 1, s =>
    match bulk_move_loop hash fuel B s with
    | .error e => .error e
    | .ok s1 => batches hash fuel B k s1

/-- The state after `assoc_init(32)` and a successful `assoc_expand` to power
33: an empty index at the start of a resize. -/
def ex_wide_start : State := assoc_expand (ex_init 32) (some 2)

/-- Every bucket array allocated in `s` is still allocated in `s'`, with the
same number of slots. -/
def KeepsArrays (s s' : State) : Prop :=
  ∀ a T, s.heap a = some T → ∃ T', s'.heap a = some T' ∧ T'.size = T.size

/-- During a resize, every bucket of the old array below `expand_bucket` is
empty. -/
def MigratedEmpty (s : State) : Prop :=
  s.expanding = true → ∀ j, j < s.expand_bucket → load s s.old_hashtable j = .ok none

/-! ## Start of the maintenance thread -/

/-- The function `start_assoc_maintenance_thread` up to its `pthread_create`.
`env` is `none` when `getenv("MEMCACHED_HASH_BULK_MOVE")` returns `NULL`, and
`some v` when it returns a string on which `atoi` returns `v`. -/
def start_assoc_maintenance_thread (s : State) (env : Option Int) : State :=
  match env with
  | none => s
  | some v =>
    let s1 := { s with hash_bulk_move := v }
    if s1.hash_bulk_move = 0 then { s1 with hash_bulk_move := DEFAULT_HASH_BULK_MOVE } else s1

/-- The state after `assoc_init(31)`, a successful `assoc_expand` to power 32
and then the insertion of the item at address `2 ^ 31`, whose key hashes to
`0x80000000`: the item is inserted during the resize. -/
def ex_late : State := ex_insert (assoc_expand (ex_init 31) (some 2)) (2 ^ 31)

/-- The state after `assoc_init(2)`, `start_assoc_maintenance_thread` with
`MEMCACHED_HASH_BULK_MOVE=-1`, the insertion of the items 0, 4 and 1, and a
successful `assoc_expand`. -/
def ex_negative : State :=
  assoc_expand
    (ex_insert (ex_insert (ex_insert
      (start_assoc_maintenance_thread (ex_init 2) (some (-1))) 0) 4) 1) (some 2)

/-! ## Basic facts: machine arithmetic -/

theorem hashsize_eq {n : Nat} (h : n < 64) : hashsize n = 2 ^ n := by
  unfold hashsize
  rw [Nat.one_shiftLeft]
  exact Nat.mod_eq_of_lt (Nat.pow_lt_pow_right (by decide) h)

theorem hashmask_eq {n : Nat} (h : n < 64) : hashmask n = 2 ^ n - 1 := by
  unfold hashmask
  rw [hashsize_eq h]
  have h1 : 2 ^ n < 2 ^ 64 := Nat.pow_lt_pow_right (by decide) h
  have h2 : 0 < 2 ^ n := Nat.pos_pow_of_pos n (by decide)
  omega

theorem land_hashmask {n : Nat} (h : n < 64) (x : Nat) : x &&& hashmask n = x % 2 ^ n := by
  rw [hashmask_eq h, Nat.and_pow_two_sub_one_eq_mod]

theorem udec_succ {n : Nat} (h : n + 1 < 2 ^ 32) : udec (n + 1) = n := by
  unfold udec; omega

theorem udec_pos {n : Nat} (h0 : 0 < n) (h : n < 2 ^ 32) : udec n = n - 1 := by
  unfold udec; omega

theorem uinc_lt {n : Nat} (h : n + 1 < 2 ^ 32) : uinc n = n + 1 := by
  unfold uinc; omega

theorem key_matches_iff (key : List Nat) (it : item) : key_matches key it = true ↔ key = it.key := by
  unfold key_matches item.nkey
  constructor
  · intro h
    simp only [Bool.and_eq_true, beq_iff_eq] at h
    obtain ⟨h1, h2⟩ := h
    rw [List.take_length, h1, List.take_length] at h2
    exact h2
  · rintro rfl
    simp

/-! ## Basic facts: memory -/

theorem load_set_h_next (s : State) (a : Nat) (v : Option Nat) (t : Option Nat) (i : Nat) :
    load (set_h_next s a v) t i = load s t i := rfl

theorem store_ok_of_load {s : State} {t : Option Nat} {i : Nat} {h : Option Nat}
    (hl : load s t i = .ok h) (v : Option Nat) : ∃ s', store s t i v = .ok s' := by
  unfold load at hl
  unfold store
  cases t with
  | none => simp at hl
  | some a =>
    cases hT : s.heap a with
    | none => simp [hT] at hl
    | some T =>
      simp only [hT] at hl ⊢
      by_cases hi : i < T.size
      · simp [hi]
      · simp [hi] at hl

theorem store_mem {s s' : State} {t : Option Nat} {i : Nat} {v : Option Nat}
    (hs : store s t i v = .ok s') : s'.mem = s.mem := by
  unfold store at hs
  cases t with
  | none => simp at hs
  | some a =>
    cases hT : s.heap a with
    | none => simp [hT] at hs
    | some T =>
      simp only [hT] at hs
      by_cases hi : i < T.size
      · simp only [hi, if_true, Except.ok.injEq] at hs
        rw [← hs]
      · simp [hi] at hs

theorem load_store_same {s s' : State} {t : Option Nat} {i : Nat} {v : Option Nat}
    (hs : store s t i v = .ok s') : load s' t i = .ok v := by
  unfold store at hs
  cases t with
  | none => simp at hs
  | some a =>
    cases hT : s.heap a with
    | none => simp [hT] at hs
    | some T =>
      simp only [hT] at hs
      by_cases hi : i < T.size
      · simp only [hi, if_true, Except.ok.injEq] at hs
        rw [← hs]
        simp [load, hi]
      · simp [hi] at hs

theorem load_store_other {s s' : State} {t : Option Nat} {i : Nat} {v : Option Nat}
    (hs : store s t i v = .ok s') (t' : Option Nat) (j : Nat) (hne : t' ≠ t ∨ j ≠ i) :
    load s' t' j = load s t' j := by
  unfold store at hs
  cases t with
  | none => simp at hs
  | some a =>
    cases hT : s.heap a with
    | none => simp [hT] at hs
    | some T =>
      simp only [hT] at hs
      by_cases hi : i < T.size
      · simp only [hi, if_true, Except.ok.injEq] at hs
        rw [← hs]
        unfold load
        cases t' with
        | none => rfl
        | some b =>
          by_cases hab : b = a
          · subst hab
            have hji : j ≠ i := by
              rcases hne with h | h
              · exact absurd rfl h
              · exact h
            simp [hT, Function.update_noteq hji]
          · simp [Function.update_noteq hab]
      · simp [hi] at hs

/-! ## Basic facts: chains -/

theorem IsChain.nil_iff (mem : Nat → item) (h : Option Nat) : IsChain mem h [] ↔ h = none := Iff.rfl

theorem IsChain.cons_iff (mem : Nat → item) (h : Option Nat) (a : Nat) (l : List Nat) :
    IsChain mem h (a :: l) ↔ h = some a ∧ IsChain mem (mem a).h_next l := Iff.rfl

theorem IsChain.unique {mem : Nat → item} {h : Option Nat} {l l' : List Nat}
    (h1 : IsChain mem h l) (h2 : IsChain mem h l') : l = l' := by
  induction l generalizing h l' with
  | nil =>
    cases l' with
    | nil => rfl
    | cons b l' =>
      rw [IsChain.nil_iff] at h1
      rw [IsChain.cons_iff, h1] at h2
      simp at h2
  | cons a l ih =>
    cases l' with
    | nil =>
      rw [IsChain.nil_iff] at h2
      rw [IsChain.cons_iff, h2] at h1
      simp at h1
    | cons b l' =>
      rw [IsChain.cons_iff] at h1 h2
      obtain ⟨e1, c1⟩ := h1
      obtain ⟨e2, c2⟩ := h2
      rw [e1] at e2
      cases e2
      rw [ih c1 c2]

theorem IsChain.suffix {mem : Nat → item} {h : Option Nat} {l1 l2 : List Nat}
    (hc : IsChain mem h (l1 ++ l2)) : ∃ h', IsChain mem h' l2 := by
  induction l1 generalizing h with
  | nil => exact ⟨h, hc⟩
  | cons a l ih =>
    rw [List.cons_append, IsChain.cons_iff] at hc
    exact ih hc.2

theorem IsChain.after {mem : Nat → item} {h : Option Nat} {l1 l2 : List Nat} {a : Nat}
    (hc : IsChain mem h (l1 ++ a :: l2)) : IsChain mem (mem a).h_next l2 := by
  induction l1 generalizing h with
  | nil => exact hc.2
  | cons b l ih =>
    rw [List.cons_append, IsChain.cons_iff] at hc
    exact ih hc.2

theorem IsChain.not_mem_tail {mem : Nat → item} {a : Nat} {l : List Nat}
    (hc : IsChain mem (mem a).h_next l) : a ∉ l := by
  intro ha
  obtain ⟨l1, l2, rfl⟩ := List.append_of_mem ha
  have h2 := IsChain.unique hc (IsChain.after hc)
  have h3 := congrArg List.length h2
  simp at h3
  omega

theorem IsChain.nodup {mem : Nat → item} {h : Option Nat} {l : List Nat}
    (hc : IsChain mem h l) : l.Nodup := by
  induction l generalizing h with
  | nil => exact List.nodup_nil
  | cons a l ih =>
    rw [IsChain.cons_iff] at hc
    exact List.nodup_cons.mpr ⟨IsChain.not_mem_tail hc.2, ih hc.2⟩

theorem IsChain.frame {mem : Nat → item} {h : Option Nat} {l : List Nat} {a : Nat}
    (ha : a ∉ l) (x : item) : IsChain (Function.update mem a x) h l ↔ IsChain mem h l := by
  induction l generalizing h with
  | nil => exact Iff.rfl
  | cons b l ih =>
    rw [IsChain.cons_iff, IsChain.cons_iff]
    have hb : b ≠ a := fun e => ha (e ▸ List.mem_cons_self _ _)
    have hl : a ∉ l := fun e => ha (List.mem_cons_of_mem _ e)
    rw [Function.update_noteq hb, ih hl]

theorem IsChain.frame_set_h_next {s : State} {h : Option Nat} {l : List Nat} {a : Nat}
    (ha : a ∉ l) (v : Option Nat) : IsChain (set_h_next s a v).mem h l ↔ IsChain s.mem h l :=
  IsChain.frame ha _

theorem set_h_next_key (s : State) (a : Nat) (v : Option Nat) (b : Nat) :
    ((set_h_next s a v).mem b).key = (s.mem b).key := by
  unfold Assoc.set_h_next
  by_cases h : b = a
  · subst h; simp
  · simp [Function.update_noteq h]

theorem set_h_next_same (s : State) (a : Nat) (v : Option Nat) :
    ((set_h_next s a v).mem a).h_next = v := by
  simp [Assoc.set_h_next]

theorem find_loop_chain {s : State} {key : List Nat} {h : Option Nat} {l : List Nat}
    (hc : IsChain s.mem h l) (fuel : Nat) (hf : l.length ≤ fuel) :
    find_loop s key fuel h = .ok (l.find? (fun a => key_matches key (s.mem a))) := by
  induction l generalizing h fuel with
  | nil =>
    rw [IsChain.nil_iff] at hc
    subst hc
    cases fuel <;> rfl
  | cons a l ih =>
    rw [IsChain.cons_iff] at hc
    obtain ⟨rfl, hc⟩ := hc
    cases fuel with
    | zero => simp at hf
    | succ fuel =>
      simp only [find_loop, List.find?_cons]
      by_cases hk : key_matches key (s.mem a) = true
      · simp [hk]
      · simp only [hk]
        exact ih hc fuel (by simpa using hf)

/-! ## Bucket selection -/

theorem mod_mod_32 (h : Nat) : h % 2 ^ 32 % 2 ^ 32 = h % 2 ^ 32 := Nat.mod_mod _ _

theorem old_index_eq {p : Nat} (hp : p ≤ 60) (h0 : 0 < p) (hv : Nat) :
    (hv % 2 ^ 32 &&& hashmask (udec p)) % 2 ^ 32 = hv % 2 ^ 32 % 2 ^ (p - 1) := by
  rw [udec_pos h0 (by omega), land_hashmask (by omega)]
  apply Nat.mod_eq_of_lt
  exact lt_of_le_of_lt (Nat.mod_le _ _) (Nat.mod_lt _ (by decide))

theorem select_bucket_old {s : State} (hp : s.hashpower ≤ 60) (h0 : 0 < s.hashpower) {hv : Nat}
    (h : in_old s hv) :
    select_bucket s hv = (s.old_hashtable, hv % 2 ^ 32 % 2 ^ (s.hashpower - 1)) := by
  unfold select_bucket
  rw [old_index_eq hp h0]
  rw [if_pos]
  exact ⟨h.1, h.2⟩

theorem select_bucket_primary {s : State} (hp : s.hashpower ≤ 60)
    (h0 : s.expanding = true → 0 < s.hashpower) {hv : Nat} (h : ¬ in_old s hv) :
    select_bucket s hv = (s.primary_hashtable, hv % 2 ^ 32 % 2 ^ s.hashpower) := by
  unfold select_bucket
  rw [if_neg, land_hashmask (show s.hashpower < 64 by omega)]
  rintro ⟨he, hb⟩
  rw [old_index_eq hp (h0 he)] at hb
  exact h ⟨he, hb⟩

theorem two_pow_pred_lt {p : Nat} (h0 : 0 < p) : 2 ^ (p - 1) < 2 ^ p :=
  Nat.pow_lt_pow_right (by decide) (by omega)

/-- Under the invariants, the chain selected for a hash is a well-formed chain whose members are
exactly the indexed items whose key's hash selects the same chain. -/
theorem Inv.selected {hash : List Nat → Nat} {s : State} {I : List Nat} {cp co : Nat → List Nat}
    (inv : Inv hash s I cp co) (hv : Nat) :
    ∃ h l, load s (select_bucket s hv).1 (select_bucket s hv).2 = .ok h ∧ IsChain s.mem h l ∧
      l = (if in_old s hv then co (hv % 2 ^ 32 % 2 ^ (s.hashpower - 1))
            else cp (hv % 2 ^ 32 % 2 ^ s.hashpower)) := by
  by_cases h : in_old s hv
  · rw [select_bucket_old inv.power_le (inv.power_pos h.1) h, if_pos h]
    obtain ⟨hd, h1, h2⟩ := inv.old h.1 (hv % 2 ^ 32 % 2 ^ (s.hashpower - 1))
      (Nat.mod_lt _ (Nat.pos_pow_of_pos _ (by decide)))
    exact ⟨hd, _, h1, h2, rfl⟩
  · rw [select_bucket_primary inv.power_le inv.power_pos h, if_neg h]
    obtain ⟨hd, h1, h2⟩ := inv.prim (hv % 2 ^ 32 % 2 ^ s.hashpower)
      (Nat.mod_lt _ (Nat.pos_pow_of_pos _ (by decide)))
    exact ⟨hd, _, h1, h2, rfl⟩

theorem in_old_mod (s : State) (h : Nat) : in_old s (h % 2 ^ 32) ↔ in_old s h := by
  unfold in_old; rw [mod_mod_32]

/-- Membership in the chain selected for the hash of a key. -/
theorem Inv.mem_selected {hash : List Nat → Nat} {s : State} {I : List Nat}
    {cp co : Nat → List Nat} (inv : Inv hash s I cp co) (key : List Nat) (a : Nat) :
    a ∈ (if in_old s (hash key % 2 ^ 32) then co (hash key % 2 ^ 32 % 2 ^ 32 % 2 ^ (s.hashpower - 1))
            else cp (hash key % 2 ^ 32 % 2 ^ 32 % 2 ^ s.hashpower)) →
    a ∈ I := by
  intro h
  split at h
  · exact ((inv.mem_o _ _).mp h).1
  · exact ((inv.mem_p _ _).mp h).1

theorem Inv.mem_selected_of_key {hash : List Nat → Nat} {s : State} {I : List Nat}
    {cp co : Nat → List Nat} (inv : Inv hash s I cp co) {x : Nat} (hx : x ∈ I) :
    x ∈ (if in_old s (hash (s.mem x).key % 2 ^ 32)
          then co (hash (s.mem x).key % 2 ^ 32 % 2 ^ 32 % 2 ^ (s.hashpower - 1))
          else cp (hash (s.mem x).key % 2 ^ 32 % 2 ^ 32 % 2 ^ s.hashpower)) := by
  rw [mod_mod_32]
  by_cases h : in_old s (hash (s.mem x).key)
  · rw [if_pos ((in_old_mod s _).mpr h)]
    exact (inv.mem_o _ _).mpr ⟨hx, h, rfl⟩
  · rw [if_neg (fun h' => h ((in_old_mod s _).mp h'))]
    exact (inv.mem_p _ _).mpr ⟨hx, h, rfl⟩

theorem Inv.chain_length_le {hash : List Nat → Nat} {s : State} {I : List Nat}
    {cp co : Nat → List Nat} (inv : Inv hash s I cp co) {h : Option Nat} {l : List Nat}
    (hc : IsChain s.mem h l) (hsub : ∀ a ∈ l, a ∈ I) : l.length ≤ I.length := by
  have := inv.nodup
  exact (List.subperm_of_subset (IsChain.nodup hc) hsub).length_le

/-- Under the invariants `assoc_find` returns the indexed item with the given key. -/
theorem Inv.find_indexed {hash : List Nat → Nat} {s : State} {I : List Nat}
    {cp co : Nat → List Nat} (inv : Inv hash s I cp co) {x : Nat} (hx : x ∈ I) (fuel : Nat)
    (hf : I.length ≤ fuel) :
    assoc_find fuel s (s.mem x).key (hash (s.mem x).key % 2 ^ 32) = .ok (some x) := by
  obtain ⟨h, l, hl, hc, rfl⟩ := inv.selected (hash (s.mem x).key % 2 ^ 32)
  have hsub := fun a => inv.mem_selected (s.mem x).key a
  have hxl := inv.mem_selected_of_key hx
  unfold assoc_find
  rw [hl]
  simp only
  rw [find_loop_chain hc fuel (le_trans (inv.chain_length_le hc hsub) hf)]
  congr 1
  cases hfd : List.find? (fun a => key_matches (s.mem x).key (s.mem a)) _ with
  | none =>
    rw [List.find?_eq_none] at hfd
    exact absurd ((key_matches_iff _ _).mpr rfl) (hfd x hxl)
  | some y =>
    have hy := List.find?_some hfd
    rw [key_matches_iff] at hy
    have hyl := List.mem_of_find?_eq_some hfd
    rw [inv.keys y (hsub y hyl) x hx hy.symm]

theorem SameLayout.same (s : State) : SameLayout s s := ⟨rfl, rfl, rfl, rfl, rfl, rfl, rfl⟩

theorem SameLayout.load_eq {s s' : State} (h : SameLayout s s') (t : Option Nat) (i : Nat) :
    load s' t i = load s t i := by
  unfold Assoc.load; rw [h.heap]

theorem SameLayout.heads {s s' : State} (h : SameLayout s s') {t : Option Nat} {n : Nat}
    {c : Nat → List Nat} (H : Heads s t n c) : Heads s' t n c := by
  intro i hi
  obtain ⟨hd, h1, h2⟩ := H i hi
  exact ⟨hd, by rw [h.load_eq, h1], by rw [h.mem]; exact h2⟩

theorem SameLayout.in_old_iff {s s' : State} (h : SameLayout s s') (hv : Nat) :
    in_old s' hv ↔ in_old s hv := by
  unfold Assoc.in_old; rw [h.expanding, h.expand_bucket, h.hashpower]

theorem Inv.congr_layout {hash : List Nat → Nat} {s s' : State} {I : List Nat} {cp co : Nat → List Nat}
    (inv : Inv hash s I cp co) (h : SameLayout s s') (hc : s'.hash_items = s.hash_items) :
    Inv hash s' I cp co where
  power_le := by rw [h.hashpower]; exact inv.power_le
  count := by rw [hc]; exact inv.count
  nodup := inv.nodup
  keys := by rw [h.mem]; exact inv.keys
  prim := by rw [h.hashpower, h.primary_hashtable]; exact h.heads inv.prim
  old := by rw [h.hashpower, h.old_hashtable, h.expanding]; exact fun e => h.heads (inv.old e)
  sep := by rw [h.old_hashtable, h.primary_hashtable, h.expanding]; exact inv.sep
  power_pos := by rw [h.hashpower, h.expanding]; exact inv.power_pos
  frontier := by rw [h.hashpower, h.expanding, h.expand_bucket]; exact inv.frontier
  mem_p := by
    intro i a
    rw [h.in_old_iff, h.mem, h.hashpower]
    exact inv.mem_p i a
  mem_o := by
    intro i a
    rw [h.in_old_iff, h.mem, h.hashpower]
    exact inv.mem_o i a

theorem IsChain.congr_mem {mem mem' : Nat → item} {h : Option Nat} {l : List Nat}
    (hm : ∀ a ∈ l, mem' a = mem a) : IsChain mem' h l ↔ IsChain mem h l := by
  induction l generalizing h with
  | nil => exact Iff.rfl
  | cons b l ih =>
    rw [IsChain.cons_iff, IsChain.cons_iff, hm b (List.mem_cons_self _ _),
      ih (fun a ha => hm a (List.mem_cons_of_mem _ ha))]

theorem store_spec {s s' : State} {t : Option Nat} {i : Nat} {v : Option Nat}
    (hs : store s t i v = .ok s') :
    ∃ a T, t = some a ∧ s.heap a = some T ∧ i < T.size ∧
      s' = { s with
        heap := Function.update s.heap a (some { T with slot := Function.update T.slot i v }) } := by
  unfold store at hs
  cases t with
  | none => simp at hs
  | some a =>
    cases hT : s.heap a with
    | none => simp [hT] at hs
    | some T =>
      simp only [hT] at hs
      by_cases hi : i < T.size
      · simp only [hi, if_true, Except.ok.injEq] at hs
        exact ⟨a, T, rfl, hT, hi, hs.symm⟩
      · simp [hi] at hs

/-- Pushing an item that is on no chain of the array onto bucket `i`. -/
theorem push_heads {s s2 : State} {t : Option Nat} {i a n : Nat} {hd : Option Nat}
    {c : Nat → List Nat} (hl : load s t i = .ok hd)
    (hs : store (set_h_next s a hd) t i (some a) = .ok s2)
    (H : Heads s t n c) (ha : ∀ k, k < n → a ∉ c k) :
    Heads s2 t n (Function.update c i (a :: c i)) := by
  intro k hk
  have hmem : s2.mem = (set_h_next s a hd).mem := store_mem hs
  by_cases hki : k = i
  · subst hki
    refine ⟨some a, load_store_same hs, ?_⟩
    rw [Function.update_same, IsChain.cons_iff, hmem, set_h_next_same]
    refine ⟨rfl, ?_⟩
    obtain ⟨h', h1, h2⟩ := H k hk
    rw [hl] at h1
    cases h1
    exact (IsChain.frame_set_h_next (ha k hk) _).mpr h2
  · obtain ⟨h', h1, h2⟩ := H k hk
    refine ⟨h', ?_, ?_⟩
    · rw [load_store_other hs t k (Or.inr hki), load_set_h_next, h1]
    · rw [Function.update_noteq hki, hmem]
      exact (IsChain.frame_set_h_next (ha k hk) _).mpr h2

/-- Pushing an item onto a bucket of one array leaves the chains of another array alone. -/
theorem push_heads_other {s s2 : State} {t t' : Option Nat} {i a m : Nat} {hd : Option Nat}
    {c' : Nat → List Nat} (hs : store (set_h_next s a hd) t i (some a) = .ok s2)
    (hne : t' ≠ t) (H : Heads s t' m c') (ha : ∀ k, k < m → a ∉ c' k) :
    Heads s2 t' m c' := by
  intro k hk
  have hmem : s2.mem = (set_h_next s a hd).mem := store_mem hs
  obtain ⟨h', h1, h2⟩ := H k hk
  refine ⟨h', ?_, ?_⟩
  · rw [load_store_other hs t' k (Or.inl hne), load_set_h_next, h1]
  · rw [hmem]
    exact (IsChain.frame_set_h_next (ha k hk) _).mpr h2

theorem store_fields {s s' : State} {t : Option Nat} {i : Nat} {v : Option Nat}
    (hs : store s t i v = .ok s') :
    s'.mem = s.mem ∧ s'.hashpower = s.hashpower ∧ s'.primary_hashtable = s.primary_hashtable ∧
    s'.old_hashtable = s.old_hashtable ∧ s'.hash_items = s.hash_items ∧
    s'.expanding = s.expanding ∧ s'.started_expanding = s.started_expanding ∧
    s'.expand_bucket = s.expand_bucket ∧
    s'.do_run_maintenance_thread = s.do_run_maintenance_thread ∧
    s'.hash_bulk_move = s.hash_bulk_move ∧ s'.cond_signals = s.cond_signals ∧
    s'.stats_hash_power_level = s.stats_hash_power_level ∧
    s'.stats_hash_bytes = s.stats_hash_bytes ∧
    s'.stats_hash_is_expanding = s.stats_hash_is_expanding := by
  obtain ⟨a, T, -, -, -, rfl⟩ := store_spec hs
  simp

/-! ## `assoc_insert` -/

theorem assoc_start_expand_layout (s : State) :
    SameLayout s (assoc_start_expand s) ∧ (assoc_start_expand s).hash_items = s.hash_items := by
  unfold assoc_start_expand
  split
  · exact ⟨SameLayout.same s, rfl⟩
  · exact ⟨⟨rfl, rfl, rfl, rfl, rfl, rfl, rfl⟩, rfl⟩

/-- The result of `assoc_insert` once the head of the selected bucket is read and the item is
stored: the layout is that of the stored state and `hash_items` is incremented. -/
theorem assoc_insert_eq {s s2 : State} {it hv : Nat} {hd : Option Nat}
    (hl : load s (select_bucket s hv).1 (select_bucket s hv).2 = .ok hd)
    (hs : store (set_h_next s it hd) (select_bucket s hv).1 (select_bucket s hv).2 (some it)
      = .ok s2) :
    ∃ s', assoc_insert s it hv = .ok s' ∧ SameLayout s2 s' ∧ s'.hash_items = uinc s.hash_items := by
  have hf := store_fields hs
  unfold assoc_insert
  rw [hl]
  simp only
  rw [hs]
  simp only
  split
  · refine ⟨_, rfl, ?_, ?_⟩
    · have := (assoc_start_expand_layout { s2 with hash_items := uinc s2.hash_items }).1
      exact ⟨this.mem, this.heap, this.hashpower, this.primary_hashtable, this.old_hashtable,
        this.expanding, this.expand_bucket⟩
    · rw [(assoc_start_expand_layout { s2 with hash_items := uinc s2.hash_items }).2]
      show uinc s2.hash_items = _
      rw [hf.2.2.2.2.1]; rfl
  · refine ⟨_, rfl, ⟨rfl, rfl, rfl, rfl, rfl, rfl, rfl⟩, ?_⟩
    show uinc s2.hash_items = _
    rw [hf.2.2.2.2.1]; rfl

theorem uinc_mod (n : Nat) : uinc (n % 2 ^ 32) = (n + 1) % 2 ^ 32 := by
  unfold uinc; omega

/-- A valid `assoc_insert` preserves the index invariants. -/
theorem Inv.insert {hash : List Nat → Nat} {s : State} {I : List Nat} {cp co : Nat → List Nat}
    (inv : Inv hash s I cp co) {it hv : Nat}
    (hfresh : ∀ a ∈ I, (s.mem a).key ≠ (s.mem it).key)
    (hhv : hv = hash (s.mem it).key % 2 ^ 32) :
    ∃ s' cp' co', assoc_insert s it hv = .ok s' ∧ Inv hash s' (it :: I) cp' co' := by
  have hnotI : it ∉ I := fun h => hfresh it h rfl
  have hnp : ∀ k, it ∉ cp k := fun k hk => hnotI ((inv.mem_p k it).mp hk).1
  have hno : ∀ k, it ∉ co k := fun k hk => hnotI ((inv.mem_o k it).mp hk).1
  have hpw : 0 < 2 ^ s.hashpower := Nat.pos_pow_of_pos _ (by decide)
  have hpw' : 0 < 2 ^ (s.hashpower - 1) := Nat.pos_pow_of_pos _ (by decide)
  by_cases hio : in_old s hv
  · -- the item goes to the old table
    have he := hio.1
    have hsel := select_bucket_old inv.power_le (inv.power_pos he) hio
    obtain ⟨hd, hl, hc⟩ := inv.old he (hv % 2 ^ 32 % 2 ^ (s.hashpower - 1)) (Nat.mod_lt _ hpw')
    obtain ⟨s2, hs⟩ := store_ok_of_load
      (show load (set_h_next s it hd) s.old_hashtable (hv % 2 ^ 32 % 2 ^ (s.hashpower - 1)) = .ok hd
        from hl) (some it)
    have hf := store_fields hs
    obtain ⟨s', hres, hlay, hcnt⟩ := @assoc_insert_eq s _ it hv _
      (by rw [hsel]; exact hl) (by rw [hsel]; exact hs)
    have hkey : ∀ a, (s'.mem a).key = (s.mem a).key := by
      intro a; rw [hlay.mem, hf.1, set_h_next_key]
    have hio' : ∀ h, in_old s' h ↔ in_old s h := by
      intro h
      unfold in_old
      rw [hlay.expanding, hlay.expand_bucket, hlay.hashpower, hf.2.2.2.2.2.1,
        hf.2.2.2.2.2.2.2.1, hf.2.1]
      rfl
    have hpow : s'.hashpower = s.hashpower := by rw [hlay.hashpower, hf.2.1]; rfl
    refine ⟨s', cp, Function.update co (hv % 2 ^ 32 % 2 ^ (s.hashpower - 1))
      (it :: co (hv % 2 ^ 32 % 2 ^ (s.hashpower - 1))), hres, ?_⟩
    refine
      { power_le := by rw [hpow]; exact inv.power_le
        count := by rw [hcnt, inv.count, uinc_mod, List.length_cons]
        nodup := List.nodup_cons.mpr ⟨hnotI, inv.nodup⟩
        keys := ?_
        prim := ?_
        old := ?_
        sep := ?_
        power_pos := ?_
        frontier := ?_
        mem_p := ?_
        mem_o := ?_ }
    · intro a ha b hb hab
      rw [hkey, hkey] at hab
      rcases List.mem_cons.mp ha with ha' | ha' <;> rcases List.mem_cons.mp hb with hb' | hb'
      · rw [ha', hb']
      · rw [ha'] at hab; exact absurd hab.symm (hfresh b hb')
      · rw [hb'] at hab; exact absurd hab (hfresh a ha')
      · exact inv.keys a ha' b hb' hab
    · rw [hpow, hlay.primary_hashtable, hf.2.2.1]
      exact hlay.heads (push_heads_other hs (Ne.symm (inv.sep he)) inv.prim (fun k _ => hnp k))
    · intro _
      rw [hpow, hlay.old_hashtable, hf.2.2.2.1]
      exact hlay.heads (push_heads hl hs (inv.old he) (fun k _ => hno k))
    · intro _
      rw [hlay.old_hashtable, hf.2.2.2.1, hlay.primary_hashtable, hf.2.2.1]
      exact inv.sep he
    · intro _; rw [hpow]; exact inv.power_pos he
    · intro _
      rw [hpow, hlay.expand_bucket, hf.2.2.2.2.2.2.2.1]
      exact inv.frontier he
    · intro i a
      rw [hio', hkey, hpow, inv.mem_p i a, List.mem_cons]
      constructor
      · rintro ⟨h1, h2, h3⟩; exact ⟨Or.inr h1, h2, h3⟩
      · rintro ⟨h1 | h1, h2, h3⟩
        · subst h1
          exact absurd ((in_old_mod s _).mp (hhv ▸ hio)) h2
        · exact ⟨h1, h2, h3⟩
    · intro j a
      rw [hio', hkey, hpow, List.mem_cons]
      by_cases hj : j = hv % 2 ^ 32 % 2 ^ (s.hashpower - 1)
      · subst hj
        rw [Function.update_same, List.mem_cons, inv.mem_o]
        constructor
        · rintro (h1 | ⟨h1, h2, h3⟩)
          · subst h1
            refine ⟨Or.inl rfl, (in_old_mod s _).mp (hhv ▸ hio), ?_⟩
            rw [hhv, mod_mod_32]
          · exact ⟨Or.inr h1, h2, h3⟩
        · rintro ⟨h1 | h1, h2, h3⟩
          · exact Or.inl h1
          · exact Or.inr ⟨h1, h2, h3⟩
      · rw [Function.update_noteq hj, inv.mem_o]
        constructor
        · rintro ⟨h1, h2, h3⟩; exact ⟨Or.inr h1, h2, h3⟩
        · rintro ⟨h1 | h1, h2, h3⟩
          · subst h1
            exfalso; apply hj; rw [h3, hhv, mod_mod_32]
          · exact ⟨h1, h2, h3⟩
  · -- the item goes to the primary table
    have hsel := select_bucket_primary inv.power_le inv.power_pos hio
    obtain ⟨hd, hl, hc⟩ := inv.prim (hv % 2 ^ 32 % 2 ^ s.hashpower) (Nat.mod_lt _ hpw)
    obtain ⟨s2, hs⟩ := store_ok_of_load
      (show load (set_h_next s it hd) s.primary_hashtable (hv % 2 ^ 32 % 2 ^ s.hashpower) = .ok hd
        from hl) (some it)
    have hf := store_fields hs
    obtain ⟨s', hres, hlay, hcnt⟩ := @assoc_insert_eq s _ it hv _
      (by rw [hsel]; exact hl) (by rw [hsel]; exact hs)
    have hkey : ∀ a, (s'.mem a).key = (s.mem a).key := by
      intro a; rw [hlay.mem, hf.1, set_h_next_key]
    have hio' : ∀ h, in_old s' h ↔ in_old s h := by
      intro h
      unfold in_old
      rw [hlay.expanding, hlay.expand_bucket, hlay.hashpower, hf.2.2.2.2.2.1,
        hf.2.2.2.2.2.2.2.1, hf.2.1]
      rfl
    have hpow : s'.hashpower = s.hashpower := by rw [hlay.hashpower, hf.2.1]; rfl
    have hexp : s'.expanding = s.expanding := by rw [hlay.expanding, hf.2.2.2.2.2.1]; rfl
    refine ⟨s', Function.update cp (hv % 2 ^ 32 % 2 ^ s.hashpower)
      (it :: cp (hv % 2 ^ 32 % 2 ^ s.hashpower)), co, hres, ?_⟩
    refine
      { power_le := by rw [hpow]; exact inv.power_le
        count := by rw [hcnt, inv.count, uinc_mod, List.length_cons]
        nodup := List.nodup_cons.mpr ⟨hnotI, inv.nodup⟩
        keys := ?_
        prim := ?_
        old := ?_
        sep := ?_
        power_pos := ?_
        frontier := ?_
        mem_p := ?_
        mem_o := ?_ }
    · intro a ha b hb hab
      rw [hkey, hkey] at hab
      rcases List.mem_cons.mp ha with ha' | ha' <;> rcases List.mem_cons.mp hb with hb' | hb'
      · rw [ha', hb']
      · rw [ha'] at hab; exact absurd hab.symm (hfresh b hb')
      · rw [hb'] at hab; exact absurd hab (hfresh a ha')
      · exact inv.keys a ha' b hb' hab
    · rw [hpow, hlay.primary_hashtable, hf.2.2.1]
      exact hlay.heads (push_heads hl hs inv.prim (fun k _ => hnp k))
    · intro he
      rw [hexp] at he
      rw [hpow, hlay.old_hashtable, hf.2.2.2.1]
      exact hlay.heads (push_heads_other hs (inv.sep he) (inv.old he) (fun k _ => hno k))
    · intro he
      rw [hexp] at he
      rw [hlay.old_hashtable, hf.2.2.2.1, hlay.primary_hashtable, hf.2.2.1]
      exact inv.sep he
    · intro he; rw [hexp] at he; rw [hpow]; exact inv.power_pos he
    · intro he
      rw [hexp] at he
      rw [hpow, hlay.expand_bucket, hf.2.2.2.2.2.2.2.1]
      exact inv.frontier he
    · intro i a
      rw [hio', hkey, hpow, List.mem_cons]
      by_cases hi : i = hv % 2 ^ 32 % 2 ^ s.hashpower
      · subst hi
        rw [Function.update_same, List.mem_cons, inv.mem_p]
        constructor
        · rintro (h1 | ⟨h1, h2, h3⟩)
          · subst h1
            refine ⟨Or.inl rfl, fun h => hio (hhv ▸ (in_old_mod s _).mpr h), ?_⟩
            rw [hhv, mod_mod_32]
          · exact ⟨Or.inr h1, h2, h3⟩
        · rintro ⟨h1 | h1, h2, h3⟩
          · exact Or.inl h1
          · exact Or.inr ⟨h1, h2, h3⟩
      · rw [Function.update_noteq hi, inv.mem_p]
        constructor
        · rintro ⟨h1, h2, h3⟩; exact ⟨Or.inr h1, h2, h3⟩
        · rintro ⟨h1 | h1, h2, h3⟩
          · subst h1
            exfalso; apply hi; rw [h3, hhv, mod_mod_32]
          · exact ⟨h1, h2, h3⟩
    · intro j a
      rw [hio', hkey, hpow, inv.mem_o j a, List.mem_cons]
      constructor
      · rintro ⟨h1, h2, h3⟩; exact ⟨Or.inr h1, h2, h3⟩
      · rintro ⟨h1 | h1, h2, h3⟩
        · subst h1
          exact absurd (hhv ▸ (in_old_mod s _).mpr h2) hio
        · exact ⟨h1, h2, h3⟩

/-! ## `_hashitem_before` and `assoc_delete` -/

theorem SameGlobals.same_globals (s : State) : SameGlobals s s :=
  ⟨rfl, rfl, rfl, rfl, rfl, rfl, rfl, rfl, rfl, rfl, rfl, rfl⟩

theorem SameGlobals.trans {s1 s2 s3 : State} (h1 : SameGlobals s1 s2) (h2 : SameGlobals s2 s3) :
    SameGlobals s1 s3 :=
  ⟨h2.1.trans h1.1, h2.2.trans h1.2, h2.3.trans h1.3, h2.4.trans h1.4, h2.5.trans h1.5,
    h2.6.trans h1.6, h2.7.trans h1.7, h2.8.trans h1.8, h2.9.trans h1.9, h2.10.trans h1.10,
    h2.11.trans h1.11, h2.12.trans h1.12⟩

theorem store_globals {s s' : State} {t : Option Nat} {i : Nat} {v : Option Nat}
    (hs : store s t i v = .ok s') : SameGlobals s s' := by
  obtain ⟨a, T, -, -, -, rfl⟩ := store_spec hs
  exact ⟨rfl, rfl, rfl, rfl, rfl, rfl, rfl, rfl, rfl, rfl, rfl, rfl⟩

theorem set_h_next_globals (s : State) (a : Nat) (v : Option Nat) :
    SameGlobals s (set_h_next s a v) :=
  ⟨rfl, rfl, rfl, rfl, rfl, rfl, rfl, rfl, rfl, rfl, rfl, rfl⟩

theorem set_h_next_other (s : State) (a : Nat) (v : Option Nat) {b : Nat} (h : b ≠ a) :
    (set_h_next s a v).mem b = s.mem b := by
  simp [Assoc.set_h_next, Function.update_noteq h]

theorem set_h_next_heap (s : State) (a : Nat) (v : Option Nat) :
    (set_h_next s a v).heap = s.heap := rfl

theorem set_h_next_hash_items (s : State) (a : Nat) (v : Option Nat) :
    (set_h_next s a v).hash_items = s.hash_items := rfl

/-- The loop of `_hashitem_before` on a chain that holds a matching item: it stops at the link
that points to the first one. -/
theorem before_loop_found {s : State} {key : List Nat} {x : Nat} {l2 : List Nat}
    (hx : key_matches key (s.mem x) = true) (l1 : List Nat) :
    ∀ (pos : link) (h : Option Nat) (fuel : Nat), pos.deref s = .ok h →
      IsChain s.mem h (l1 ++ x :: l2) → (∀ a ∈ l1, key_matches key (s.mem a) = false) →
      l1.length < fuel →
      ∃ pos', before_loop s key fuel pos = .ok pos' ∧ pos'.deref s = .ok (some x) ∧
        ((l1 = [] ∧ pos' = pos) ∨ ∃ l1' p, l1 = l1' ++ [p] ∧ pos' = .field p) := by
  induction l1 with
  | nil =>
    intro pos h fuel hd hc _ hf
    rw [List.nil_append, IsChain.cons_iff] at hc
    obtain ⟨rfl, -⟩ := hc
    cases fuel with
    | zero => simp at hf
    | succ fuel =>
      refine ⟨pos, ?_, hd, Or.inl ⟨rfl, rfl⟩⟩
      simp only [before_loop, hd, hx]
      rfl
  | cons b l1 ih =>
    intro pos h fuel hd hc hn hf
    rw [List.cons_append, IsChain.cons_iff] at hc
    obtain ⟨rfl, hc⟩ := hc
    cases fuel with
    | zero => simp at hf
    | succ fuel =>
      have hb : key_matches key (s.mem b) = false := hn b (List.mem_cons_self _ _)
      obtain ⟨pos', h1, h2, h3⟩ := ih (.field b) (s.mem b).h_next fuel rfl hc
        (fun a ha => hn a (List.mem_cons_of_mem _ ha)) (by simpa using hf)
      refine ⟨pos', ?_, h2, Or.inr ?_⟩
      · simp only [before_loop, hd, hb]
        exact h1
      · rcases h3 with ⟨rfl, rfl⟩ | ⟨l1', p, rfl, rfl⟩
        · exact ⟨[], b, rfl, rfl⟩
        · exact ⟨b :: l1', p, rfl, rfl⟩

/-- The loop of `_hashitem_before` on a chain without a matching item: it stops at the link
that holds the terminating `NULL`. -/
theorem before_loop_absent {s : State} {key : List Nat} (l : List Nat) :
    ∀ (pos : link) (h : Option Nat) (fuel : Nat), pos.deref s = .ok h →
      IsChain s.mem h l → (∀ a ∈ l, key_matches key (s.mem a) = false) →
      l.length < fuel →
      ∃ pos', before_loop s key fuel pos = .ok pos' ∧ pos'.deref s = .ok none := by
  induction l with
  | nil =>
    intro pos h fuel hd hc _ hf
    rw [IsChain.nil_iff] at hc
    subst hc
    cases fuel with
    | zero => simp at hf
    | succ fuel =>
      refine ⟨pos, ?_, hd⟩
      simp only [before_loop, hd]
  | cons b l ih =>
    intro pos h fuel hd hc hn hf
    rw [IsChain.cons_iff] at hc
    obtain ⟨rfl, hc⟩ := hc
    cases fuel with
    | zero => simp at hf
    | succ fuel =>
      have hb : key_matches key (s.mem b) = false := hn b (List.mem_cons_self _ _)
      obtain ⟨pos', h1, h2⟩ := ih (.field b) (s.mem b).h_next fuel rfl hc
        (fun a ha => hn a (List.mem_cons_of_mem _ ha)) (by simpa using hf)
      refine ⟨pos', ?_, h2⟩
      simp only [before_loop, hd, hb]
      exact h1

/-- Removing `x` from the middle of a chain by redirecting the link of its predecessor `p`. -/
theorem IsChain.splice {mem mem' : Nat → item} {x p : Nat} {l2 : List Nat}
    (hm : ∀ a, a ≠ x → a ≠ p → mem' a = mem a) (hp : (mem' p).h_next = (mem x).h_next)
    (l1 : List Nat) :
    ∀ h, IsChain mem h (l1 ++ p :: x :: l2) → IsChain mem' h (l1 ++ p :: l2) := by
  induction l1 with
  | nil =>
    intro h hc
    have hnd := IsChain.nodup hc
    rw [List.nil_append] at hc hnd ⊢
    rw [IsChain.cons_iff] at hc ⊢
    refine ⟨hc.1, ?_⟩
    rw [hp]
    have hc2 := hc.2.2
    rw [List.nodup_cons, List.nodup_cons] at hnd
    refine (IsChain.congr_mem ?_).mpr hc2
    intro a ha
    apply hm
    · rintro rfl; exact hnd.2.1 ha
    · rintro rfl; exact hnd.1 (List.mem_cons_of_mem _ ha)
  | cons b l1 ih =>
    intro h hc
    have hnd := IsChain.nodup hc
    rw [List.cons_append, IsChain.cons_iff] at hc
    rw [List.cons_append, IsChain.cons_iff]
    refine ⟨hc.1, ?_⟩
    rw [List.cons_append, List.nodup_cons] at hnd
    have hb : mem' b = mem b := by
      apply hm
      · rintro rfl; exact hnd.1 (by simp)
      · rintro rfl; exact hnd.1 (by simp)
    rw [hb]
    exact ih _ hc.2

/-- The effect of `assoc_delete` when the selected chain holds a matching item `x` after the
non-matching items `l1`: `x` is unlinked and its `h_next` cleared, nothing else moves. -/
theorem assoc_delete_spec {s : State} {key : List Nat} {hv : Nat} {h : Option Nat}
    {l1 l2 : List Nat} {x : Nat} {fuel : Nat}
    (hl : load s (select_bucket s hv).1 (select_bucket s hv).2 = .ok h)
    (hc : IsChain s.mem h (l1 ++ x :: l2))
    (hn : ∀ a ∈ l1, key_matches key (s.mem a) = false)
    (hx : key_matches key (s.mem x) = true)
    (hf : l1.length < fuel) :
    ∃ s' h', assoc_delete fuel s key hv = .ok s' ∧
      load s' (select_bucket s hv).1 (select_bucket s hv).2 = .ok h' ∧
      IsChain s'.mem h' (l1 ++ l2) ∧
      (∀ t' j, (t' ≠ (select_bucket s hv).1 ∨ j ≠ (select_bucket s hv).2) →
        load s' t' j = load s t' j) ∧
      (∀ a, a ∉ l1 ++ x :: l2 → s'.mem a = s.mem a) ∧
      (∀ a, (s'.mem a).key = (s.mem a).key) ∧
      (s'.mem x).h_next = none ∧
      s'.hash_items = udec s.hash_items ∧ SameGlobals s s' := by
  have hnd := IsChain.nodup hc
  obtain ⟨pos', hb, hd, hcase⟩ := before_loop_found hx l1
    (.slot (select_bucket s hv).1 (select_bucket s hv).2) h fuel hl hc hn hf
  have hafter := IsChain.after hc
  unfold assoc_delete _hashitem_before
  rw [hb]
  simp only
  rw [hd]
  simp only
  rcases hcase with ⟨rfl, rfl⟩ | ⟨l1', p, rfl, rfl⟩
  · -- the item is the head of the bucket
    obtain ⟨s', hs⟩ := store_ok_of_load
      (show load (set_h_next { s with hash_items := udec s.hash_items } x none)
        (select_bucket s hv).1 (select_bucket s hv).2 = .ok h from hl) (s.mem x).h_next
    have hmem := store_mem hs
    have hfld := store_fields hs
    rw [List.nil_append, List.nodup_cons] at hnd
    refine ⟨s', (s.mem x).h_next, hs, load_store_same hs, ?_, ?_, ?_, ?_, ?_, ?_, ?_⟩
    · rw [List.nil_append, hmem]
      exact (@IsChain.frame_set_h_next { s with hash_items := udec s.hash_items } _ _ _ hnd.1 none).mpr
        hafter
    · intro t' j hne
      rw [load_store_other hs t' j hne]
      rfl
    · intro a ha
      rw [hmem]
      exact set_h_next_other _ _ _ (fun e => ha (e ▸ by simp))
    · intro a
      rw [hmem]
      exact set_h_next_key _ _ _ _
    · rw [hmem]
      exact set_h_next_same _ _ _
    · rw [hfld.2.2.2.2.1]; rfl
    · have hg := store_globals hs
      exact ⟨hg.1, hg.2, hg.3, hg.4, hg.5, hg.6, hg.7, hg.8, hg.9, hg.10, hg.11, hg.12⟩
  · -- the item has a predecessor `p` on the chain
    have hxp : x ≠ p := by
      rintro rfl
      rw [List.append_assoc, List.nodup_append] at hnd
      have := hnd.2.1
      simp at this
    refine ⟨_, h, rfl, hl, ?_, ?_, ?_, ?_, ?_, rfl, ?_⟩
    · rw [List.append_assoc, List.singleton_append]
      rw [List.append_assoc, List.singleton_append] at hc
      refine @IsChain.splice _ _ x p _ ?_ ?_ l1' h hc
      · intro a hax hap
        show (set_h_next (set_h_next { s with hash_items := udec s.hash_items } x none) p
          (s.mem x).h_next).mem a = s.mem a
        rw [set_h_next_other _ _ _ hap, set_h_next_other _ _ _ hax]
      · exact set_h_next_same _ _ _
    · intro t' j _
      rfl
    · intro a ha
      have hax : a ≠ x := fun e => ha (e ▸ by simp)
      have hap : a ≠ p := fun e => ha (e ▸ by simp)
      show (set_h_next (set_h_next { s with hash_items := udec s.hash_items } x none) p
          (s.mem x).h_next).mem a = s.mem a
      rw [set_h_next_other _ _ _ hap, set_h_next_other _ _ _ hax]
    · intro a
      show ((set_h_next (set_h_next { s with hash_items := udec s.hash_items } x none) p
          (s.mem x).h_next).mem a).key = (s.mem a).key
      rw [set_h_next_key, set_h_next_key]
    · show ((set_h_next (set_h_next { s with hash_items := udec s.hash_items } x none) p
          (s.mem x).h_next).mem x).h_next = none
      rw [set_h_next_other _ _ _ hxp, set_h_next_same]
    · exact ⟨rfl, rfl, rfl, rfl, rfl, rfl, rfl, rfl, rfl, rfl, rfl, rfl⟩

theorem Inv.nodup_p {hash : List Nat → Nat} {s : State} {I : List Nat} {cp co : Nat → List Nat}
    (inv : Inv hash s I cp co) (i : Nat) : (cp i).Nodup := by
  by_cases hi : i < 2 ^ s.hashpower
  · obtain ⟨h, -, hc⟩ := inv.prim i hi
    exact IsChain.nodup hc
  · have : cp i = [] := by
      rw [List.eq_nil_iff_forall_not_mem]
      intro a ha
      have := ((inv.mem_p i a).mp ha).2.2
      exact hi (this ▸ Nat.mod_lt _ (Nat.pos_pow_of_pos _ (by decide)))
    rw [this]
    exact List.nodup_nil

theorem Inv.nodup_o {hash : List Nat → Nat} {s : State} {I : List Nat} {cp co : Nat → List Nat}
    (inv : Inv hash s I cp co) (j : Nat) : (co j).Nodup := by
  by_cases hj : s.expanding = true ∧ j < 2 ^ (s.hashpower - 1)
  · obtain ⟨h, -, hc⟩ := inv.old hj.1 j hj.2
    exact IsChain.nodup hc
  · have : co j = [] := by
      rw [List.eq_nil_iff_forall_not_mem]
      intro a ha
      have h1 := ((inv.mem_o j a).mp ha).2
      exact hj ⟨h1.1.1, h1.2 ▸ Nat.mod_lt _ (Nat.pos_pow_of_pos _ (by decide))⟩
    rw [this]
    exact List.nodup_nil

/-- The chains of an array after `assoc_delete` has unlinked `x` from the selected chain. -/
theorem heads_after_delete {s s' : State} {t : Option Nat} {n : Nat} {c : Nat → List Nat}
    {sel : Option Nat × Nat} {h' : Option Nat} {l1 l2 : List Nat} {x : Nat}
    (H : Heads s t n c)
    (hload : load s' sel.1 sel.2 = .ok h') (hchain : IsChain s'.mem h' (l1 ++ l2))
    (hx : x ∉ l1)
    (hother : ∀ t' j, (t' ≠ sel.1 ∨ j ≠ sel.2) → load s' t' j = load s t' j)
    (hmem : ∀ a, a ∉ l1 ++ x :: l2 → s'.mem a = s.mem a)
    (hsel : ∀ k, k < n → t = sel.1 → k = sel.2 → c k = l1 ++ x :: l2)
    (hdis : ∀ k, k < n → (t ≠ sel.1 ∨ k ≠ sel.2) → ∀ a ∈ c k, a ∉ l1 ++ x :: l2) :
    Heads s' t n (fun k => (c k).erase x) := by
  intro k hk
  by_cases hs : t = sel.1 ∧ k = sel.2
  · refine ⟨h', by rw [hs.1, hs.2]; exact hload, ?_⟩
    show IsChain s'.mem h' ((c k).erase x)
    rw [hsel k hk hs.1 hs.2, List.erase_append_right _ hx, List.erase_cons_head]
    exact hchain
  · have hne : t ≠ sel.1 ∨ k ≠ sel.2 := by
      by_cases h1 : t = sel.1
      · exact Or.inr (fun h2 => hs ⟨h1, h2⟩)
      · exact Or.inl h1
    obtain ⟨hd, h1, h2⟩ := H k hk
    refine ⟨hd, by rw [hother t k hne, h1], ?_⟩
    show IsChain s'.mem hd ((c k).erase x)
    have hxk : x ∉ c k := fun hxc => hdis k hk hne x hxc (by simp)
    rw [List.erase_of_not_mem hxk]
    exact (IsChain.congr_mem (fun a ha => hmem a (hdis k hk hne a ha))).mpr h2

theorem udec_mod {n : Nat} (h : 0 < n) : udec (n % 2 ^ 32) = (n - 1) % 2 ^ 32 := by
  unfold udec; omega

/-- A valid `assoc_delete` preserves the index invariants. -/
theorem Inv.delete {hash : List Nat → Nat} {s : State} {I : List Nat} {cp co : Nat → List Nat}
    (inv : Inv hash s I cp co) {x : Nat} (hxI : x ∈ I) {hv : Nat}
    (hhv : hv = hash (s.mem x).key % 2 ^ 32) {fuel : Nat} (hf : I.length ≤ fuel) :
    ∃ s', assoc_delete fuel s (s.mem x).key hv = .ok s' ∧
      Inv hash s' (I.erase x) (fun k => (cp k).erase x) (fun k => (co k).erase x) := by
  subst hhv
  obtain ⟨h, l, hl, hc, hleq⟩ := inv.selected (hash (s.mem x).key % 2 ^ 32)
  have hsub : ∀ a ∈ l, a ∈ I := fun a ha => inv.mem_selected (s.mem x).key a (hleq ▸ ha)
  have hxl : x ∈ l := hleq ▸ inv.mem_selected_of_key hxI
  have hlen := inv.chain_length_le hc hsub
  obtain ⟨l1, l2, hsplit⟩ := List.append_of_mem hxl
  have hnd := IsChain.nodup hc
  rw [hsplit] at hc hnd hlen
  have hxl1 : x ∉ l1 := by
    intro hx
    rw [List.nodup_append] at hnd
    exact hnd.2.2 hx (by simp)
  have hn : ∀ a ∈ l1, key_matches (s.mem x).key (s.mem a) = false := by
    intro a ha
    rw [Bool.eq_false_iff]
    intro hm
    rw [key_matches_iff] at hm
    have := inv.keys a (hsub a (hsplit ▸ List.mem_append_left _ ha)) x hxI hm.symm
    exact hxl1 (this ▸ ha)
  obtain ⟨s', h', hres, hload, hchain, hother, hmem, hkey, -, hcnt, hg⟩ :=
    @assoc_delete_spec s _ _ h l1 l2 x fuel hl hc hn ((key_matches_iff _ _).mpr rfl)
      (by simp at hlen; omega)
  have hio' : ∀ hh, in_old s' hh ↔ in_old s hh := by
    intro hh
    unfold in_old
    rw [hg.expanding, hg.expand_bucket, hg.hashpower]
  have hmemI : ∀ a, a ∈ I.erase x ↔ a ≠ x ∧ a ∈ I := fun a => inv.nodup.mem_erase_iff
  refine ⟨s', hres, ?_⟩
  refine
    { power_le := by rw [hg.hashpower]; exact inv.power_le
      count := by
        rw [hcnt, inv.count, udec_mod (List.length_pos_of_mem hxI), List.length_erase_of_mem hxI]
      nodup := inv.nodup.erase x
      keys := ?_
      prim := ?_
      old := ?_
      sep := by rw [hg.expanding, hg.old_hashtable, hg.primary_hashtable]; exact inv.sep
      power_pos := by rw [hg.expanding, hg.hashpower]; exact inv.power_pos
      frontier := by rw [hg.expanding, hg.hashpower, hg.expand_bucket]; exact inv.frontier
      mem_p := ?_
      mem_o := ?_ }
  · intro a ha b hb hab
    rw [hkey, hkey] at hab
    exact inv.keys a ((hmemI a).mp ha).2 b ((hmemI b).mp hb).2 hab
  · rw [hg.hashpower, hg.primary_hashtable]
    refine heads_after_delete inv.prim hload hchain hxl1 hother hmem ?_ ?_
    · intro k _ ht hk
      by_cases hio : in_old s (hash (s.mem x).key % 2 ^ 32)
      · rw [select_bucket_old inv.power_le (inv.power_pos hio.1) hio] at ht
        exact absurd ht.symm (inv.sep hio.1)
      · rw [select_bucket_primary inv.power_le inv.power_pos hio] at hk
        rw [if_neg hio] at hleq
        rw [hk, ← hleq, hsplit]
    · intro k _ hne a ha hal
      rw [← hsplit, hleq] at hal
      have h1 := (inv.mem_p k a).mp ha
      by_cases hio : in_old s (hash (s.mem x).key % 2 ^ 32)
      · rw [if_pos hio] at hal
        exact h1.2.1 ((inv.mem_o _ a).mp hal).2.1
      · rw [if_neg hio] at hal
        rw [select_bucket_primary inv.power_le inv.power_pos hio] at hne
        have h2 := (inv.mem_p _ a).mp hal
        rcases hne with hne | hne
        · exact hne rfl
        · exact hne (h1.2.2.trans h2.2.2.symm)
  · intro he
    rw [hg.expanding] at he
    rw [hg.hashpower, hg.old_hashtable]
    refine heads_after_delete (inv.old he) hload hchain hxl1 hother hmem ?_ ?_
    · intro k _ ht hk
      by_cases hio : in_old s (hash (s.mem x).key % 2 ^ 32)
      · rw [select_bucket_old inv.power_le (inv.power_pos hio.1) hio] at hk
        rw [if_pos hio] at hleq
        rw [hk, ← hleq, hsplit]
      · rw [select_bucket_primary inv.power_le inv.power_pos hio] at ht
        exact absurd ht (inv.sep he)
    · intro k _ hne a ha hal
      rw [← hsplit, hleq] at hal
      have h1 := (inv.mem_o k a).mp ha
      by_cases hio : in_old s (hash (s.mem x).key % 2 ^ 32)
      · rw [if_pos hio] at hal
        rw [select_bucket_old inv.power_le (inv.power_pos hio.1) hio] at hne
        have h2 := (inv.mem_o _ a).mp hal
        rcases hne with hne | hne
        · exact hne rfl
        · exact hne (h1.2.2.trans h2.2.2.symm)
      · rw [if_neg hio] at hal
        exact ((inv.mem_p _ a).mp hal).2.1 h1.2.1
  · intro i a
    rw [hio', hkey, hg.hashpower, hmemI, (inv.nodup_p i).mem_erase_iff, inv.mem_p]
    tauto
  · intro j a
    rw [hio', hkey, hg.hashpower, hmemI, (inv.nodup_o j).mem_erase_iff, inv.mem_o]
    tauto

/-! ## `assoc_init` and `assoc_expand` -/

theorem calloc_spec (heap : Nat → Option table) (p : Option Nat) (n : Nat) :
    calloc heap p n = (heap, none) ∨
    ∃ a, p = some a ∧ n * 8 < 2 ^ 64 ∧ heap a = none ∧
      calloc heap p n =
        (Function.update heap a (some { size := n, slot := fun _ => none }), some a) := by
  unfold calloc
  cases p with
  | none => exact Or.inl rfl
  | some a =>
    by_cases h : n * 8 < 2 ^ 64 ∧ (heap a).isNone = true
    · right
      refine ⟨a, rfl, h.1, ?_, ?_⟩
      · exact Option.isNone_iff_eq_none.mp h.2
      · simp only [h, and_self, if_true]
    · left
      simp only [h, if_false]

theorem load_ok {s : State} {t : Option Nat} {i : Nat} {h : Option Nat}
    (hl : load s t i = .ok h) :
    ∃ a T, t = some a ∧ s.heap a = some T ∧ i < T.size ∧ T.slot i = h := by
  unfold load at hl
  cases t with
  | none => simp at hl
  | some a =>
    cases hT : s.heap a with
    | none => simp [hT] at hl
    | some T =>
      simp only [hT] at hl
      by_cases hi : i < T.size
      · simp only [hi, if_true, Except.ok.injEq] at hl
        exact ⟨a, T, rfl, hT, hi, hl⟩
      · simp [hi] at hl

theorem load_update_other {s s' : State} {a b : Nat} {v : Option table}
    (hheap : s'.heap = Function.update s.heap a v) (hne : b ≠ a) (i : Nat) :
    load s' (some b) i = load s (some b) i := by
  unfold load
  simp only [hheap, Function.update_noteq hne]

theorem load_fresh {s' : State} {heap : Nat → Option table} {a n : Nat}
    (hheap : s'.heap = Function.update heap a (some { size := n, slot := fun _ => none }))
    {i : Nat} (hi : i < n) : load s' (some a) i = .ok none := by
  unfold load
  simp [hheap, hi]

theorem pow_bound {p : Nat} (h64 : p < 64) (h : hashsize p * 8 < 2 ^ 64) : p ≤ 60 := by
  rw [hashsize_eq h64] at h
  by_contra hc
  have h61 : 61 ≤ p := by omega
  have : 2 ^ 61 ≤ 2 ^ p := Nat.pow_le_pow_right (by decide) h61
  omega

/-- The state built by `assoc_init` satisfies the index invariants with no item indexed. -/
theorem Inv.init (hash : List Nat → Nat) {mem : Nat → item} {hashtable_init : Int}
    {p : Option Nat} {s : State}
    (h64 : (if hashtable_init ≠ 0 then to_uint hashtable_init else HASHPOWER_DEFAULT) < 64)
    (hi : assoc_init (initial_globals mem) hashtable_init p = some s) :
    Inv hash s [] (fun _ => []) (fun _ => []) := by
  unfold assoc_init at hi
  simp only at hi
  rcases calloc_spec (initial_globals mem).heap p
    (hashsize (if hashtable_init ≠ 0 then to_uint hashtable_init
      else (initial_globals mem).hashpower)) with hc | ⟨a, -, hsz, -, hc⟩
  · rw [hc] at hi
    simp at hi
  · rw [hc] at hi
    simp only [Option.some.injEq] at hi
    subst hi
    have hp := pow_bound h64 hsz
    refine
      { power_le := hp
        count := rfl
        nodup := List.nodup_nil
        keys := by intro a ha; simp at ha
        prim := ?_
        old := by intro h; cases h
        sep := by intro h; cases h
        power_pos := by intro h; cases h
        frontier := by intro h; cases h
        mem_p := by intro i a; simp
        mem_o := by intro i a; simp }
    intro i hi
    refine ⟨none, ?_, rfl⟩
    apply load_fresh rfl
    have h64' : (if hashtable_init ≠ 0 then to_uint hashtable_init
      else (initial_globals mem).hashpower) < 64 := h64
    rw [hashsize_eq h64']
    exact hi

theorem assoc_expand_fail {s : State} {p : Option Nat}
    (hc : calloc s.heap p (hashsize (uinc s.hashpower)) = (s.heap, none)) :
    assoc_expand s p = { s with old_hashtable := s.primary_hashtable } := by
  unfold assoc_expand
  simp only [hc]

theorem assoc_expand_ok {s : State} {p : Option Nat} {heap' : Nat → Option table} {a : Nat}
    (hc : calloc s.heap p (hashsize (uinc s.hashpower)) = (heap', some a)) :
    assoc_expand s p =
      { s with
        old_hashtable := s.primary_hashtable
        heap := heap'
        primary_hashtable := some a
        hashpower := uinc s.hashpower
        expanding := true
        expand_bucket := 0
        stats_hash_power_level := uinc s.hashpower
        stats_hash_bytes :=
          (s.stats_hash_bytes + (hashsize (uinc s.hashpower) * 8) % 2 ^ 64) % 2 ^ 64
        stats_hash_is_expanding := true } := by
  unfold assoc_expand
  simp only [hc]

/-- A call of `assoc_expand` outside a resize preserves the index invariants, whether the
allocation succeeds or fails. -/
theorem Inv.expand {hash : List Nat → Nat} {s : State} {I : List Nat} {cp co : Nat → List Nat}
    (inv : Inv hash s I cp co) (he : s.expanding = false) (p : Option Nat) :
    (assoc_expand s p = { s with old_hashtable := s.primary_hashtable } ∧
      Inv hash (assoc_expand s p) I cp co) ∨
    ((assoc_expand s p).expanding = true ∧ (assoc_expand s p).hashpower = s.hashpower + 1 ∧
      (assoc_expand s p).expand_bucket = 0 ∧
      Inv hash (assoc_expand s p) I (fun _ => []) cp) := by
  have hio : ∀ h, ¬ in_old s h := fun h hh => by
    have := hh.1
    rw [he] at this
    cases this
  rcases calloc_spec s.heap p (hashsize (uinc s.hashpower)) with hc | ⟨a, -, hsz, hfree, hc⟩
  · left
    rw [assoc_expand_fail hc]
    refine ⟨rfl, ?_⟩
    refine
      { power_le := inv.power_le
        count := inv.count
        nodup := inv.nodup
        keys := inv.keys
        prim := inv.prim
        old := by intro h; rw [he] at h; cases h
        sep := by intro h; rw [he] at h; cases h
        power_pos := inv.power_pos
        frontier := inv.frontier
        mem_p := inv.mem_p
        mem_o := inv.mem_o }
  · right
    rw [assoc_expand_ok hc]
    have hu : uinc s.hashpower = s.hashpower + 1 := uinc_lt (by have := inv.power_le; omega)
    have hp1 : s.hashpower + 1 ≤ 60 := by
      rw [hu] at hsz
      exact pow_bound (by have := inv.power_le; omega) hsz
    obtain ⟨h0, hl0, -⟩ := inv.prim 0 (Nat.pos_pow_of_pos _ (by decide))
    obtain ⟨b, T, hb, hT, -, -⟩ := load_ok hl0
    have hba : b ≠ a := by
      rintro rfl
      rw [hfree] at hT
      cases hT
    refine ⟨rfl, hu, rfl, ?_⟩
    refine
      { power_le := by show uinc s.hashpower ≤ 60; rw [hu]; exact hp1
        count := inv.count
        nodup := inv.nodup
        keys := inv.keys
        prim := ?_
        old := ?_
        sep := ?_
        power_pos := by intro _; show 0 < uinc s.hashpower; rw [hu]; omega
        frontier := by intro _; exact Nat.pos_pow_of_pos _ (by decide)
        mem_p := ?_
        mem_o := ?_ }
    · intro i hi
      refine ⟨none, ?_, rfl⟩
      apply load_fresh rfl
      rw [hashsize_eq (by rw [hu]; omega)]
      exact hi
    · intro _ i hi
      change i < 2 ^ (uinc s.hashpower - 1) at hi
      rw [hu, Nat.add_sub_cancel] at hi
      obtain ⟨hd, h1, h2⟩ := inv.prim i hi
      refine ⟨hd, ?_, h2⟩
      show load _ s.primary_hashtable i = _
      rw [hb] at h1 ⊢
      rw [← h1]
      exact load_update_other rfl hba i
    · intro _
      show s.primary_hashtable ≠ some a
      rw [hb]
      intro h
      cases h
      exact hba rfl
    · intro i x
      simp only [List.not_mem_nil, false_iff, not_and]
      intro _ hn
      exact absurd ⟨rfl, Nat.zero_le _⟩ hn
    · intro j x
      rw [inv.mem_p j x]
      show _ ↔ _ ∧ _ ∧ j = _ % 2 ^ (uinc s.hashpower - 1)
      rw [hu, Nat.add_sub_cancel]
      constructor
      · rintro ⟨h1, -, h3⟩
        exact ⟨h1, ⟨rfl, Nat.zero_le _⟩, h3⟩
      · rintro ⟨h1, -, h3⟩
        exact ⟨h1, hio _, h3⟩

/-! ## Migration of one bucket -/

theorem to_int_small {x : Nat} (h : x < 2 ^ 31) : to_int x = (x : Int) := by
  unfold to_int
  have h1 : x % 2 ^ 32 = x := Nat.mod_eq_of_lt (by omega)
  rw [h1, if_pos h]

theorem push_all_nil (nb : Nat → Nat) (c : Nat → List Nat) : push_all nb c [] = c := rfl

theorem push_all_cons (nb : Nat → Nat) (c : Nat → List Nat) (a : Nat) (l : List Nat) :
    push_all nb c (a :: l) = push_all nb (Function.update c (nb a) (a :: c (nb a))) l := rfl

theorem mem_push_all (nb : Nat → Nat) (l : List Nat) :
    ∀ (c : Nat → List Nat) (i x : Nat), x ∈ push_all nb c l i ↔ x ∈ c i ∨ (x ∈ l ∧ nb x = i) := by
  induction l with
  | nil => intro c i x; simp [push_all_nil]
  | cons a l ih =>
    intro c i x
    rw [push_all_cons, ih]
    by_cases hi : i = nb a
    · subst hi
      rw [Function.update_same, List.mem_cons, List.mem_cons]
      constructor
      · rintro ((h | h) | h)
        · exact Or.inr ⟨Or.inl h, by rw [h]⟩
        · exact Or.inl h
        · exact Or.inr ⟨Or.inr h.1, h.2⟩
      · rintro (h | ⟨h | h, h2⟩)
        · exact Or.inl (Or.inr h)
        · exact Or.inl (Or.inl h)
        · exact Or.inr ⟨h, h2⟩
    · rw [Function.update_noteq hi, List.mem_cons]
      constructor
      · rintro (h | h)
        · exact Or.inl h
        · exact Or.inr ⟨Or.inr h.1, h.2⟩
      · rintro (h | ⟨h | h, h2⟩)
        · exact Or.inl h
        · exact absurd (h ▸ h2).symm hi
        · exact Or.inr ⟨h, h2⟩

/-- The inner loop of the migration on a chain `r` whose items are on no chain of the primary
table: every item is pushed on the primary bucket that the hash of its key selects. -/
theorem move_chain_spec (hash : List Nat → Nat) (key : Nat → List Nat) (p : Nat) (hp : p ≤ 31)
    (r : List Nat) :
    ∀ (s : State) (cp : Nat → List Nat) (it : Option Nat) (fuel : Nat),
      s.hashpower = p → (∀ a, (s.mem a).key = key a) →
      Heads s s.primary_hashtable (2 ^ p) cp → IsChain s.mem it r →
      (∀ a ∈ r, ∀ k, a ∉ cp k) → r.length ≤ fuel →
      ∃ s', move_chain hash s fuel it = .ok s' ∧
        Heads s' s'.primary_hashtable (2 ^ p)
          (push_all (fun a => hash (key a) % 2 ^ 32 % 2 ^ p) cp r) ∧
        (∀ t' j, t' ≠ s.primary_hashtable → load s' t' j = load s t' j) ∧
        (∀ a, a ∉ r → s'.mem a = s.mem a) ∧ (∀ a, (s'.mem a).key = key a) ∧
        s'.hash_items = s.hash_items ∧ SameGlobals s s' := by
  induction r with
  | nil =>
    intro s cp it fuel _ hkey H hc _ _
    rw [IsChain.nil_iff] at hc
    subst hc
    refine ⟨s, ?_, H, fun _ _ _ => rfl, fun _ _ => rfl, hkey, rfl, SameGlobals.same_globals s⟩
    cases fuel <;> rfl
  | cons a r ih =>
    intro s cp it fuel hpow hkey H hc hdis hf
    rw [IsChain.cons_iff] at hc
    obtain ⟨rfl, hc⟩ := hc
    cases fuel with
    | zero => simp at hf
    | succ fuel =>
      have har : a ∉ r := IsChain.not_mem_tail hc
      have hlt : hash (key a) % 2 ^ 32 % 2 ^ p < 2 ^ p :=
        Nat.mod_lt _ (Nat.pos_pow_of_pos _ (by decide))
      have h31 : hash (key a) % 2 ^ 32 % 2 ^ p < 2 ^ 31 :=
        lt_of_lt_of_le hlt (Nat.pow_le_pow_right (by decide) hp)
      obtain ⟨hd, hl, hch⟩ := H _ hlt
      obtain ⟨s1, hs⟩ := store_ok_of_load
        (show load (set_h_next s a hd) s.primary_hashtable (hash (key a) % 2 ^ 32 % 2 ^ p) = .ok hd
          from hl) (some a)
      have hg1 : SameGlobals s s1 :=
        SameGlobals.trans (set_h_next_globals s a hd) (store_globals hs)
      have hmem1 := store_mem hs
      have hH1 := push_heads hl hs H (fun k _ => hdis a (List.mem_cons_self _ _) k)
      have hc1 : IsChain s1.mem (s.mem a).h_next r := by
        rw [hmem1]
        exact (IsChain.frame_set_h_next har _).mpr hc
      have hkey1 : ∀ b, (s1.mem b).key = key b := by
        intro b; rw [hmem1, set_h_next_key, hkey]
      have hprim1 : s1.primary_hashtable = s.primary_hashtable := hg1.primary_hashtable
      have hdis1 : ∀ b ∈ r, ∀ k, b ∉ Function.update cp (hash (key a) % 2 ^ 32 % 2 ^ p)
          (a :: cp (hash (key a) % 2 ^ 32 % 2 ^ p)) k := by
        intro b hb k hbk
        have hba : b ≠ a := fun e => har (e ▸ hb)
        by_cases hk : k = hash (key a) % 2 ^ 32 % 2 ^ p
        · subst hk
          rw [Function.update_same, List.mem_cons] at hbk
          rcases hbk with hbk | hbk
          · exact hba hbk
          · exact hdis b (List.mem_cons_of_mem _ hb) _ hbk
        · rw [Function.update_noteq hk] at hbk
          exact hdis b (List.mem_cons_of_mem _ hb) _ hbk
      obtain ⟨s', hres, hH', hload', hmem', hkey', hcnt', hg'⟩ :=
        ih s1 _ (s.mem a).h_next fuel (hg1.hashpower.trans hpow) hkey1
          (by rw [hprim1]; exact hH1) hc1 hdis1 (by simpa using hf)
      refine ⟨s', ?_, ?_, ?_, ?_, hkey', ?_, SameGlobals.trans hg1 hg'⟩
      · simp only [move_chain]
        rw [hpow, hkey, land_hashmask (by omega), to_int_small h31]
        simp only [Int.toNat_ofNat]
        rw [if_neg (by omega), hl]
        simp only
        rw [hs]
        exact hres
      · rw [push_all_cons]
        exact hH'
      · intro t' j hne
        rw [hload' t' j (by rw [hprim1]; exact hne),
          load_store_other hs t' j (Or.inl hne), load_set_h_next]
      · intro b hb
        have hba : b ≠ a := fun e => hb (e ▸ List.mem_cons_self _ _)
        rw [hmem' b (fun h => hb (List.mem_cons_of_mem _ h)), hmem1, set_h_next_other _ _ _ hba]
      · rw [hcnt']
        exact (store_fields hs).2.2.2.2.1

theorem load_free_other {s s' : State} {t t' : Option Nat} (hheap : s'.heap = free s.heap t)
    (hne : t' ≠ t) (j : Nat) : load s' t' j = load s t' j := by
  unfold load
  cases t' with
  | none => rfl
  | some b =>
    cases t with
    | none => simp only [hheap, free]
    | some a =>
      have hba : b ≠ a := fun e => hne (by rw [e])
      simp only [hheap, free, Function.update_noteq hba]

theorem Heads.of_loads {s s' : State} {t t' : Option Nat} {n : Nat} {c : Nat → List Nat}
    (H : Heads s t n c) (hload : ∀ j, j < n → load s' t' j = load s t j)
    (hmem : ∀ j, j < n → ∀ a ∈ c j, s'.mem a = s.mem a) : Heads s' t' n c := by
  intro j hj
  obtain ⟨hd, h1, h2⟩ := H j hj
  exact ⟨hd, by rw [hload j hj, h1], (IsChain.congr_mem (hmem j hj)).mpr h2⟩

/-- The invariants after the migration of bucket `expand_bucket`, from what the step does to
the two tables. -/
theorem Inv.migrated {hash : List Nat → Nat} {s s' : State} {I : List Nat}
    {cp co cp' : Nat → List Nat} (inv : Inv hash s I cp co) (he : s.expanding = true)
    (hkey : ∀ a, (s'.mem a).key = (s.mem a).key)
    (hpow : s'.hashpower = s.hashpower) (hcnt : s'.hash_items = s.hash_items)
    (heb : s'.expand_bucket = s.expand_bucket + 1)
    (hprim : Heads s' s'.primary_hashtable (2 ^ s.hashpower) cp')
    (hmemp : ∀ i x, x ∈ cp' i ↔
      x ∈ cp i ∨ (x ∈ co s.expand_bucket ∧ hash (s.mem x).key % 2 ^ 32 % 2 ^ s.hashpower = i))
    (hexp : s'.expanding = true → s.expand_bucket + 1 < 2 ^ (s.hashpower - 1) ∧
      s'.old_hashtable ≠ s'.primary_hashtable ∧
      Heads s' s'.old_hashtable (2 ^ (s.hashpower - 1)) (Function.update co s.expand_bucket []))
    (hdone : s'.expanding = false → s.expand_bucket + 1 = 2 ^ (s.hashpower - 1)) :
    Inv hash s' I cp' (Function.update co s.expand_bucket []) := by
  have hio : ∀ h, in_old s h ↔ s.expand_bucket ≤ h % 2 ^ 32 % 2 ^ (s.hashpower - 1) := by
    intro h; unfold in_old; rw [he]; simp
  have hio' : ∀ h, in_old s' h ↔ s.expand_bucket + 1 ≤ h % 2 ^ 32 % 2 ^ (s.hashpower - 1) := by
    intro h
    unfold in_old
    rw [heb, hpow]
    cases hx : s'.expanding with
    | true => simp
    | false =>
      have := hdone hx
      have hlt : h % 2 ^ 32 % 2 ^ (s.hashpower - 1) < 2 ^ (s.hashpower - 1) :=
        Nat.mod_lt _ (Nat.pos_pow_of_pos _ (by decide))
      simp only [Bool.false_eq_true, false_and, false_iff, not_le]
      omega
  refine
    { power_le := by rw [hpow]; exact inv.power_le
      count := by rw [hcnt]; exact inv.count
      nodup := inv.nodup
      keys := by
        intro a ha b hb hab
        rw [hkey, hkey] at hab
        exact inv.keys a ha b hb hab
      prim := by rw [hpow]; exact hprim
      old := by intro h; rw [hpow]; exact (hexp h).2.2
      sep := fun h => (hexp h).2.1
      power_pos := by intro _; rw [hpow]; exact inv.power_pos he
      frontier := by intro h; rw [hpow, heb]; exact (hexp h).1
      mem_p := ?_
      mem_o := ?_ }
  · intro i x
    rw [hio', hkey, hpow, hmemp, inv.mem_p, inv.mem_o, hio]
    constructor
    · rintro (⟨h1, h2, h3⟩ | ⟨⟨h1, h2, h3⟩, h4⟩)
      · exact ⟨h1, by omega, h3⟩
      · exact ⟨h1, by omega, h4.symm⟩
    · rintro ⟨h1, h2, h3⟩
      by_cases h : s.expand_bucket ≤ hash (s.mem x).key % 2 ^ 32 % 2 ^ (s.hashpower - 1)
      · exact Or.inr ⟨⟨h1, h, by omega⟩, h3.symm⟩
      · exact Or.inl ⟨h1, h, h3⟩
  · intro j x
    rw [hio', hkey, hpow]
    by_cases hj : j = s.expand_bucket
    · subst hj
      rw [Function.update_same]
      simp only [List.not_mem_nil, false_iff, not_and]
      intro _ h2 h3
      omega
    · rw [Function.update_noteq hj, inv.mem_o, hio]
      constructor
      · rintro ⟨h1, h2, h3⟩
        exact ⟨h1, by omega, h3⟩
      · rintro ⟨h1, h2, h3⟩
        exact ⟨h1, by omega, h3⟩

/-- One migration step preserves the index invariants, for a power of at most 31. -/
theorem Inv.migrate {hash : List Nat → Nat} {s : State} {I : List Nat} {cp co : Nat → List Nat}
    (inv : Inv hash s I cp co) (he : s.expanding = true) (hp : s.hashpower ≤ 31)
    {fuel : Nat} (hf : I.length ≤ fuel) :
    ∃ s', migrate_bucket hash fuel s = .ok s' ∧
      Inv hash s' I
        (push_all (fun a => hash (s.mem a).key % 2 ^ 32 % 2 ^ s.hashpower) cp (co s.expand_bucket))
        (Function.update co s.expand_bucket []) ∧
      s'.hashpower = s.hashpower ∧ s'.expand_bucket = s.expand_bucket + 1 ∧
      (s'.expanding = true ↔ s.expand_bucket + 1 ≠ 2 ^ (s.hashpower - 1)) := by
  have hb := inv.frontier he
  have h0 := inv.power_pos he
  obtain ⟨hd, hl, hc⟩ := inv.old he s.expand_bucket hb
  have hdis : ∀ a ∈ co s.expand_bucket, ∀ k, a ∉ cp k := by
    intro a ha k hk
    exact ((inv.mem_p k a).mp hk).2.1 ((inv.mem_o _ a).mp ha).2.1
  have hlen : (co s.expand_bucket).length ≤ I.length :=
    inv.chain_length_le hc (fun a ha => ((inv.mem_o _ a).mp ha).1)
  obtain ⟨s1, hmv, hH1, hload1, hmem1, hkey1, hcnt1, hg1⟩ :=
    move_chain_spec hash (fun a => (s.mem a).key) s.hashpower hp (co s.expand_bucket) s cp hd fuel
      rfl (fun _ => rfl) inv.prim hc hdis (le_trans hlen hf)
  have hold1 : load s1 s1.old_hashtable s1.expand_bucket = .ok hd := by
    rw [hg1.old_hashtable, hg1.expand_bucket, hload1 _ _ (inv.sep he), hl]
  obtain ⟨s2, hs2⟩ := store_ok_of_load hold1 none
  have hg2 := store_globals hs2
  have hf2 := store_fields hs2
  have hmem2 := store_mem hs2
  have hpow2 : s2.hashpower = s.hashpower := hg2.hashpower.trans hg1.hashpower
  have heb2 : s2.expand_bucket = s.expand_bucket := hg2.expand_bucket.trans hg1.expand_bucket
  have hprim2 : s2.primary_hashtable = s.primary_hashtable :=
    hg2.primary_hashtable.trans hg1.primary_hashtable
  have hold2 : s2.old_hashtable = s.old_hashtable := hg2.old_hashtable.trans hg1.old_hashtable
  have hexp2 : s2.expanding = true := (hg2.expanding.trans hg1.expanding).trans he
  have hpw30 : 2 ^ (s.hashpower - 1) ≤ 2 ^ 30 := Nat.pow_le_pow_right (by decide) (by omega)
  have hu : uinc s2.expand_bucket = s.expand_bucket + 1 := by
    rw [heb2]; exact uinc_lt (by omega)
  have hsz : hashsize (udec s2.hashpower) = 2 ^ (s.hashpower - 1) := by
    rw [hpow2, udec_pos h0 (by omega), hashsize_eq (by omega)]
  have hkey2 : ∀ a, (s2.mem a).key = (s.mem a).key := by
    intro a; rw [hmem2]; exact hkey1 a
  have hP2 : Heads s2 s2.primary_hashtable (2 ^ s.hashpower)
      (push_all (fun a => hash (s.mem a).key % 2 ^ 32 % 2 ^ s.hashpower) cp
        (co s.expand_bucket)) := by
    refine Heads.of_loads hH1 ?_ ?_
    · intro j _
      rw [hg2.primary_hashtable]
      apply load_store_other hs2
      left
      rw [hg1.primary_hashtable, hg1.old_hashtable]
      exact Ne.symm (inv.sep he)
    · intro j _ a _
      rw [hmem2]
  have hO2 : Heads s2 s2.old_hashtable (2 ^ (s.hashpower - 1))
      (Function.update co s.expand_bucket []) := by
    intro j hj
    by_cases hjb : j = s.expand_bucket
    · subst hjb
      refine ⟨none, ?_, ?_⟩
      · rw [hg2.old_hashtable]
        rw [← hg1.expand_bucket]
        exact load_store_same hs2
      · rw [Function.update_same]
        exact (IsChain.nil_iff _ _).mpr rfl
    · obtain ⟨h', h1, h2⟩ := inv.old he j hj
      refine ⟨h', ?_, ?_⟩
      · rw [hg2.old_hashtable, load_store_other hs2 _ j (Or.inr (by rw [hg1.expand_bucket]; exact hjb)),
          hg1.old_hashtable, hload1 _ _ (inv.sep he), h1]
      · rw [Function.update_noteq hjb, hmem2]
        refine (IsChain.congr_mem ?_).mpr h2
        intro a ha
        apply hmem1
        intro hab
        exact hjb (((inv.mem_o j a).mp ha).2.2.trans ((inv.mem_o _ a).mp hab).2.2.symm)
  have hmemp := fun i x => mem_push_all (fun a => hash (s.mem a).key % 2 ^ 32 % 2 ^ s.hashpower)
    (co s.expand_bucket) cp i x
  have hstep : migrate_bucket hash fuel s =
      (if uinc s2.expand_bucket = hashsize (udec s2.hashpower) then
        .ok { s2 with
          expand_bucket := uinc s2.expand_bucket
          expanding := false
          heap := free s2.heap s2.old_hashtable
          stats_hash_bytes :=
            (s2.stats_hash_bytes + 2 ^ 64 - (hashsize (udec s2.hashpower) * 8) % 2 ^ 64) % 2 ^ 64
          stats_hash_is_expanding := false }
      else .ok { s2 with expand_bucket := uinc s2.expand_bucket }) := by
    unfold migrate_bucket
    rw [hl]
    simp only
    rw [hmv]
    simp only
    rw [hs2]
  rw [hstep, hu, hsz]
  by_cases hdone : s.expand_bucket + 1 = 2 ^ (s.hashpower - 1)
  · rw [if_pos hdone]
    refine ⟨_, rfl, ?_, hpow2, rfl, ?_⟩
    · refine Inv.migrated inv he hkey2 hpow2 (hf2.2.2.2.2.1.trans hcnt1) rfl ?_ hmemp ?_ ?_
      · refine Heads.of_loads hP2 ?_ (fun _ _ _ _ => rfl)
        intro j _
        apply load_free_other rfl
        rw [hprim2, hold2]
        exact Ne.symm (inv.sep he)
      · intro h; cases h
      · intro _; exact hdone
    · simp [hdone]
  · rw [if_neg hdone]
    refine ⟨_, rfl, ?_, hpow2, rfl, ?_⟩
    · refine Inv.migrated inv he hkey2 hpow2 (hf2.2.2.2.2.1.trans hcnt1) rfl ?_ hmemp ?_ ?_
      · exact Heads.of_loads hP2 (fun _ _ => rfl) (fun _ _ _ _ => rfl)
      · intro _
        refine ⟨by omega, ?_, ?_⟩
        · show s2.old_hashtable ≠ s2.primary_hashtable
          rw [hprim2, hold2]; exact inv.sep he
        · exact Heads.of_loads hO2 (fun _ _ => rfl) (fun _ _ _ _ => rfl)
      · intro h
        exact absurd (show s2.expanding = false from h) (by rw [hexp2]; simp)
    · simp [hdone, hexp2]

/-! ## Reachable states -/

theorem assoc_insert_frame {s s' : State} {it hv : Nat} (h : assoc_insert s it hv = .ok s') :
    s'.hashpower = s.hashpower ∧ s'.primary_hashtable = s.primary_hashtable ∧
    s'.old_hashtable = s.old_hashtable ∧ s'.expanding = s.expanding ∧
    s'.expand_bucket = s.expand_bucket ∧ s'.hash_items = uinc s.hash_items ∧
    s'.do_run_maintenance_thread = s.do_run_maintenance_thread ∧
    s'.hash_bulk_move = s.hash_bulk_move := by
  unfold assoc_insert at h
  cases hl : load s (select_bucket s hv).1 (select_bucket s hv).2 with
  | error e => rw [hl] at h; cases h
  | ok hd =>
    rw [hl] at h
    simp only at h
    cases hs : store (set_h_next s it hd) (select_bucket s hv).1 (select_bucket s hv).2 (some it) with
    | error e => rw [hs] at h; cases h
    | ok s2 =>
      rw [hs] at h
      simp only at h
      have hg := store_globals hs
      have hf := store_fields hs
      split at h
      · cases h
        unfold assoc_start_expand
        split
        · exact ⟨hg.1, hg.2, hg.3, hg.4, hg.6, (show uinc s2.hash_items = _ by rw [hf.2.2.2.2.1]; rfl), hg.7, hg.8⟩
        · exact ⟨hg.1, hg.2, hg.3, hg.4, hg.6, (show uinc s2.hash_items = _ by rw [hf.2.2.2.2.1]; rfl), hg.7, hg.8⟩
      · cases h
        exact ⟨hg.1, hg.2, hg.3, hg.4, hg.6, (show uinc s2.hash_items = _ by rw [hf.2.2.2.2.1]; rfl), hg.7, hg.8⟩

theorem assoc_delete_frame {s s' : State} {fuel : Nat} {key : List Nat} {hv : Nat}
    (h : assoc_delete fuel s key hv = .ok s') : SameGlobals s s' := by
  unfold assoc_delete at h
  cases hb : _hashitem_before fuel s key hv with
  | error e => rw [hb] at h; cases h
  | ok before =>
    rw [hb] at h
    simp only at h
    cases hd : before.deref s with
    | error e => rw [hd] at h; cases h
    | ok v =>
      rw [hd] at h
      cases v with
      | none =>
        cases h
        exact SameGlobals.same_globals _
      | some a =>
        simp only at h
        cases before with
        | slot t i =>
          have hg := store_globals h
          exact ⟨hg.1, hg.2, hg.3, hg.4, hg.5, hg.6, hg.7, hg.8, hg.9, hg.10, hg.11, hg.12⟩
        | field b =>
          cases h
          exact ⟨rfl, rfl, rfl, rfl, rfl, rfl, rfl, rfl, rfl, rfl, rfl, rfl⟩

/-- Every run in which the power stays at most 31 is defined and ends in a state that satisfies
the index invariants. -/
theorem Reach.inv {hash : List Nat → Nat} {r : Option State} {I : List Nat}
    (h : Reach hash 31 r I) :
    ∃ s cp co, r = some s ∧ Inv hash s I cp co ∧ s.hashpower ≤ 31 := by
  induction h with
  | init mem hashtable_init p s hmax h64 hinit =>
    refine ⟨s, _, _, rfl, Inv.init hash h64 hinit, ?_⟩
    unfold assoc_init at hinit
    simp only at hinit
    split at hinit
    · cases hinit
    · cases hinit
      exact hmax
  | insert s I it hv _ hfresh hhv ih =>
    obtain ⟨s0, cp, co, hs0, inv, hp⟩ := ih
    cases hs0
    obtain ⟨s', cp', co', hres, inv'⟩ := inv.insert hfresh hhv
    refine ⟨s', cp', co', by rw [hres]; rfl, inv', ?_⟩
    rw [(assoc_insert_frame hres).1]
    exact hp
  | delete s I x hv r _ hx hhv hout ih =>
    obtain ⟨s0, cp, co, hs0, inv, hp⟩ := ih
    cases hs0
    obtain ⟨N, hN⟩ := hout
    obtain ⟨s', hres, inv'⟩ := inv.delete hx hhv (le_max_right N I.length)
    have := (hN _ (le_max_left N I.length)).2
    simp only [hres] at this
    refine ⟨s', _, _, this.symm, inv', ?_⟩
    rw [(assoc_delete_frame hres).hashpower]
    exact hp
  | expand s I p _ he hmax ih =>
    obtain ⟨s0, cp, co, hs0, inv, hp⟩ := ih
    cases hs0
    rcases inv.expand he p with ⟨-, inv'⟩ | ⟨-, -, -, inv'⟩
    · exact ⟨_, _, _, rfl, inv', hmax⟩
    · exact ⟨_, _, _, rfl, inv', hmax⟩
  | migrate s I r _ he hout ih =>
    obtain ⟨s0, cp, co, hs0, inv, hp⟩ := ih
    cases hs0
    obtain ⟨N, hN⟩ := hout
    obtain ⟨s', hres, inv', hpow, -, -⟩ := inv.migrate he hp (le_max_right N I.length)
    have := (hN _ (le_max_left N I.length)).2
    simp only [hres] at this
    exact ⟨s', _, _, this.symm, inv', by rw [hpow]; exact hp⟩

/-- Every run whose migration steps are made at a power of at most 31 is defined and ends in a
state that satisfies the index invariants, whatever the power at the other steps. -/
theorem Reachable.invariants {hash : List Nat → Nat} {r : Option State} {I : List Nat}
    (h : Reachable hash 31 r I) :
    ∃ s cp co, r = some s ∧ Inv hash s I cp co := by
  induction h with
  | init mem hashtable_init p s h64 hinit =>
    exact ⟨s, _, _, rfl, Inv.init hash h64 hinit⟩
  | insert s I it hv _ hfresh hhv ih =>
    obtain ⟨s0, cp, co, hs0, inv⟩ := ih
    cases hs0
    obtain ⟨s', cp', co', hres, inv'⟩ := inv.insert hfresh hhv
    exact ⟨s', cp', co', by rw [hres]; rfl, inv'⟩
  | delete s I x hv r _ hx hhv hout ih =>
    obtain ⟨s0, cp, co, hs0, inv⟩ := ih
    cases hs0
    obtain ⟨N, hN⟩ := hout
    obtain ⟨s', hres, inv'⟩ := inv.delete hx hhv (le_max_right N I.length)
    have := (hN _ (le_max_left N I.length)).2
    simp only [hres] at this
    exact ⟨s', _, _, this.symm, inv'⟩
  | expand s I p _ he ih =>
    obtain ⟨s0, cp, co, hs0, inv⟩ := ih
    cases hs0
    rcases inv.expand he p with ⟨-, inv'⟩ | ⟨-, -, -, inv'⟩
    · exact ⟨_, _, _, rfl, inv'⟩
    · exact ⟨_, _, _, rfl, inv'⟩
  | migrate s I r _ he hp hout ih =>
    obtain ⟨s0, cp, co, hs0, inv⟩ := ih
    cases hs0
    obtain ⟨N, hN⟩ := hout
    obtain ⟨s', hres, inv', -, -, -⟩ := inv.migrate he hp (le_max_right N I.length)
    have := (hN _ (le_max_left N I.length)).2
    simp only [hres] at this
    exact ⟨s', _, _, this.symm, inv'⟩

/-- A run in which the power never exceeds 31 is a run whose migration steps are made at a
power of at most 31. -/
theorem Reach.reachable {hash : List Nat → Nat} {r : Option State} {I : List Nat}
    (h : Reach hash 31 r I) : Reachable hash 31 r I := by
  induction h with
  | init mem hashtable_init p s hmax h64 hinit =>
    exact Reachable.init mem hashtable_init p s h64 hinit
  | insert s I it hv _ hfresh hhv ih =>
    exact Reachable.insert s I it hv ih hfresh hhv
  | delete s I x hv r _ hx hhv hout ih =>
    exact Reachable.delete s I x hv r ih hx hhv hout
  | expand s I p _ he hmax ih =>
    exact Reachable.expand s I p ih he
  | migrate s I r hprev he hout ih =>
    obtain ⟨s0, -, -, hs0, -, hp⟩ := hprev.inv
    cases hs0
    exact Reachable.migrate s I r ih he hp hout

/-! ## C1: correctness of `assoc_find` -/

theorem ex_init_reach (maxp : Nat) (h2 : 2 ≤ maxp) : Reach ex_hash maxp (some (ex_init 2)) [] :=
  Reach.init ex_mem 2 (some 1) (ex_init 2) h2 (by decide) rfl

theorem ex_wide_insert_reachable :
    Reachable ex_hash 31 (assoc_insert (assoc_expand (ex_init 40) (some 2)) 5 5).toOption [5] :=
  Reachable.insert (assoc_expand (ex_init 40) (some 2)) [] 5 5
    (Reachable.expand (ex_init 40) [] (some 2)
      (Reachable.init ex_mem 40 (some 1) (ex_init 40) (by decide) rfl) rfl)
    (by simp) rfl

theorem load_of_alloc {s : State} {t : Option Nat} {a : Nat} {T : table} {i : Nat}
    (ht : t = some a) (hT : s.heap a = some T) (hi : i < T.size) :
    load s t i = .ok (T.slot i) := by
  unfold load
  rw [ht]
  simp only [hT, hi, if_true]

theorem Allocated.load_selected {s : State} (hs : Allocated s) (hv : Nat) :
    ∃ hd, load s (select_bucket s hv).1 (select_bucket s hv).2 = .ok hd := by
  by_cases hio : in_old s hv
  · rw [select_bucket_old hs.power_le (hs.power_pos hio.1) hio]
    obtain ⟨a, T, h1, h2, h3⟩ := hs.old hio.1
    exact ⟨_, load_of_alloc h1 h2 (by rw [h3]; exact Nat.mod_lt _ (Nat.pos_pow_of_pos _ (by decide)))⟩
  · rw [select_bucket_primary hs.power_le hs.power_pos hio]
    obtain ⟨a, T, h1, h2, h3⟩ := hs.prim
    exact ⟨_, load_of_alloc h1 h2 (by rw [h3]; exact Nat.mod_lt _ (Nat.pos_pow_of_pos _ (by decide)))⟩

theorem select_bucket_congr {s s' : State} (h1 : s'.hashpower = s.hashpower)
    (h2 : s'.primary_hashtable = s.primary_hashtable) (h3 : s'.old_hashtable = s.old_hashtable)
    (h4 : s'.expanding = s.expanding) (h5 : s'.expand_bucket = s.expand_bucket) (hv : Nat) :
    select_bucket s' hv = select_bucket s hv := by
  unfold select_bucket
  rw [h1, h2, h3, h4, h5]

/-- The first step of `assoc_insert` in a well-formed state: the selected bucket is read,
the item linked in front of it and stored as the new head. -/
theorem Allocated.insert_ok {s : State} (hs : Allocated s) (x hv : Nat) :
    ∃ hd s2 s', load s (select_bucket s hv).1 (select_bucket s hv).2 = .ok hd ∧
      store (set_h_next s x hd) (select_bucket s hv).1 (select_bucket s hv).2 (some x) = .ok s2 ∧
      assoc_insert s x hv = .ok s' ∧ SameLayout s2 s' ∧ s'.hash_items = uinc s.hash_items := by
  obtain ⟨hd, hl⟩ := hs.load_selected hv
  obtain ⟨s2, hst⟩ := store_ok_of_load
    (show load (set_h_next s x hd) (select_bucket s hv).1 (select_bucket s hv).2 = .ok hd from hl)
    (some x)
  obtain ⟨s', h1, h2, h3⟩ := assoc_insert_eq hl hst
  exact ⟨hd, s2, s', hl, hst, h1, h2, h3⟩

/-- C2: in every well-formed index state (resizing or not), for every item `x` and every hash
`hv`, `assoc_insert(x, hv)` succeeds and the `assoc_find` of the key of `x` with `hv` that
follows returns `x` itself. -/
theorem insert_then_find (s : State) (hs : Allocated s) (x hv : Nat) :
    ∃ s', assoc_insert s x hv = .ok s' ∧
      ∀ fuel, assoc_find (fuel + 1) s' (s'.mem x).key hv = .ok (some x) := by
  obtain ⟨hd, s2, s', hl, hst, hres, hlay, -⟩ := hs.insert_ok x hv
  refine ⟨s', hres, fun fuel => ?_⟩
  have hf := assoc_insert_frame hres
  have hsel := select_bucket_congr hf.1 hf.2.1 hf.2.2.1 hf.2.2.2.1 hf.2.2.2.2.1 hv
  unfold assoc_find
  rw [hsel, hlay.load_eq, load_store_same hst]
  simp only [find_loop]
  rw [if_pos ((key_matches_iff _ _).mpr rfl)]

theorem ex_init_allocated : Allocated (ex_init 2) where
  power_le := by decide
  items_lt := by decide
  prim := ⟨1, _, rfl, rfl, rfl⟩
  power_pos := fun h => absurd h (by decide)
  frontier := fun h => absurd h (by decide)
  old := fun h => absurd h (by decide)
  sep := fun h => absurd h (by decide)

/-- Witness for C2: the state after `assoc_init(2)`, item 7, hash `0xC`. -/
theorem insert_then_find_witness :
    Allocated (ex_init 2) ∧
    ∃ s', assoc_insert (ex_init 2) 7 12 = .ok s' ∧
      ∀ fuel, assoc_find (fuel + 1) s' (s'.mem 7).key 12 = .ok (some 7) :=
  ⟨ex_init_allocated, insert_then_find (ex_init 2) ex_init_allocated 7 12⟩

/-! ## C3: insert, then delete -/

theorem load_congr_heap {s s' : State} (h : s'.heap = s.heap) (t : Option Nat) (i : Nat) :
    load s' t i = load s t i := by
  unfold load; rw [h]

theorem mem_chain_items {n : Nat} {c : Nat → List Nat} {a : Nat} :
    a ∈ chain_items n c ↔ ∃ i, i < n ∧ a ∈ c i := by
  unfold chain_items
  rw [List.mem_flatMap]
  constructor
  · rintro ⟨i, hi, ha⟩
    exact ⟨i, List.mem_range.mp hi, ha⟩
  · rintro ⟨i, hi, ha⟩
    exact ⟨i, List.mem_range.mpr hi, ha⟩

theorem nodup_chain_items {n : Nat} {c : Nat → List Nat} (h1 : ∀ i, i < n → (c i).Nodup)
    (h2 : ∀ i j a, a ∈ c i → a ∈ c j → i = j) : (chain_items n c).Nodup := by
  unfold chain_items
  rw [List.nodup_flatMap]
  refine ⟨fun i hi => h1 i (List.mem_range.mp hi), ?_⟩
  refine (List.nodup_range n).imp ?_
  intro i j hij a ha hb
  exact hij (h2 i j a ha hb)

/-- Under the invariants the chains of the two tables list the indexed items, each once. -/
theorem Inv.items_perm {hash : List Nat → Nat} {s : State} {I : List Nat}
    {cp co : Nat → List Nat} (inv : Inv hash s I cp co) :
    (chain_items (2 ^ s.hashpower) cp ++ chain_items (2 ^ (s.hashpower - 1)) co).Perm I ∧
    (chain_items (2 ^ s.hashpower) cp ++ chain_items (2 ^ (s.hashpower - 1)) co).Nodup := by
  have hnd : (chain_items (2 ^ s.hashpower) cp ++ chain_items (2 ^ (s.hashpower - 1)) co).Nodup := by
    rw [List.nodup_append]
    refine ⟨nodup_chain_items (fun i _ => inv.nodup_p i) ?_,
      nodup_chain_items (fun i _ => inv.nodup_o i) ?_, ?_⟩
    · intro i j a hi hj
      exact ((inv.mem_p i a).mp hi).2.2.trans ((inv.mem_p j a).mp hj).2.2.symm
    · intro i j a hi hj
      exact ((inv.mem_o i a).mp hi).2.2.trans ((inv.mem_o j a).mp hj).2.2.symm
    · intro a ha hb
      obtain ⟨i, -, hi⟩ := mem_chain_items.mp ha
      obtain ⟨j, -, hj⟩ := mem_chain_items.mp hb
      exact ((inv.mem_p i a).mp hi).2.1 ((inv.mem_o j a).mp hj).2.1
  refine ⟨(List.perm_ext_iff_of_nodup hnd inv.nodup).mpr ?_, hnd⟩
  intro a
  rw [List.mem_append]
  constructor
  · rintro (ha | ha)
    · obtain ⟨i, -, hi⟩ := mem_chain_items.mp ha
      exact ((inv.mem_p i a).mp hi).1
    · obtain ⟨j, -, hj⟩ := mem_chain_items.mp ha
      exact ((inv.mem_o j a).mp hj).1
  · intro ha
    by_cases hio : in_old s (hash (s.mem a).key)
    · right
      exact mem_chain_items.mpr ⟨_, Nat.mod_lt _ (Nat.pos_pow_of_pos _ (by decide)),
        (inv.mem_o _ a).mpr ⟨ha, hio, rfl⟩⟩
    · left
      exact mem_chain_items.mpr ⟨_, Nat.mod_lt _ (Nat.pos_pow_of_pos _ (by decide)),
        (inv.mem_p _ a).mpr ⟨ha, hio, rfl⟩⟩

theorem Inv.old_empty {hash : List Nat → Nat} {s : State} {I : List Nat}
    {cp co : Nat → List Nat} (inv : Inv hash s I cp co) (he : s.expanding = false) (n : Nat) :
    chain_items n co = [] := by
  rw [List.eq_nil_iff_forall_not_mem]
  intro a ha
  obtain ⟨j, -, hj⟩ := mem_chain_items.mp ha
  have := ((inv.mem_o j a).mp hj).2.1.1
  rw [he] at this
  cases this

/-- Under the invariants `hash_items` is the number of items on the chains, modulo `2 ^ 32`. -/
theorem Inv.count_chains {hash : List Nat → Nat} {s : State} {I : List Nat}
    {cp co : Nat → List Nat} (inv : Inv hash s I cp co) :
    s.hash_items = ((chain_items (2 ^ s.hashpower) cp).length +
      (if s.expanding = true then (chain_items (2 ^ (s.hashpower - 1)) co).length else 0))
        % 2 ^ 32 ∧
    (chain_items (2 ^ s.hashpower) cp).length +
      (if s.expanding = true then (chain_items (2 ^ (s.hashpower - 1)) co).length else 0)
        = I.length := by
  have hlen := inv.items_perm.1.length_eq
  rw [List.length_append] at hlen
  have hsum : (chain_items (2 ^ s.hashpower) cp).length +
      (if s.expanding = true then (chain_items (2 ^ (s.hashpower - 1)) co).length else 0)
        = I.length := by
    by_cases he : s.expanding = true
    · rw [if_pos he]; exact hlen
    · rw [if_neg he]
      rw [inv.old_empty (by simpa using he)] at hlen
      exact hlen
  exact ⟨by rw [hsum]; exact inv.count, hsum⟩

/-! ## C4: the item count -/

/-- C4 (as amended): in every run from `assoc_init` by valid inserts and deletes, resize starts
and bucket-migration steps, whatever the power, provided that the bucket-migration steps are
made at a `hashpower` of at most 31: every operation is defined and `hash_items` equals, modulo
`2 ^ 32`, the number of items reached by walking every chain of `primary_hashtable` plus, while
`expanding` is true, every chain of `old_hashtable`; the two are equal when fewer than `2 ^ 32`
items are on the chains. -/
theorem count_invariant (hash : List Nat → Nat) (r : Option State) (I : List Nat)
    (h : Reachable hash 31 r I) :
    ∃ s cp co, r = some s ∧ Heads s s.primary_hashtable (2 ^ s.hashpower) cp ∧
      (s.expanding = true → Heads s s.old_hashtable (2 ^ (s.hashpower - 1)) co) ∧
      s.hash_items = ((chain_items (2 ^ s.hashpower) cp).length +
        (if s.expanding = true then (chain_items (2 ^ (s.hashpower - 1)) co).length else 0))
          % 2 ^ 32 ∧
      ((chain_items (2 ^ s.hashpower) cp).length +
        (if s.expanding = true then (chain_items (2 ^ (s.hashpower - 1)) co).length else 0)
          < 2 ^ 32 →
        s.hash_items = (chain_items (2 ^ s.hashpower) cp).length +
          (if s.expanding = true then (chain_items (2 ^ (s.hashpower - 1)) co).length else 0)) := by
  obtain ⟨s, cp, co, hs, inv⟩ := h.invariants
  refine ⟨s, cp, co, hs, inv.prim, inv.old, inv.count_chains.1, fun hlt => ?_⟩
  rw [inv.count_chains.1, Nat.mod_eq_of_lt hlt]

/-- Witness for C4: the run `assoc_init(40)`, a successful `assoc_expand` to power 41, and
`assoc_insert` of item 5 during the resize; no migration step is made. -/
theorem count_invariant_witness :
    Reachable ex_hash 31 (assoc_insert (assoc_expand (ex_init 40) (some 2)) 5 5).toOption [5] ∧
    ∃ s cp co, (assoc_insert (assoc_expand (ex_init 40) (some 2)) 5 5).toOption = some s ∧
      Heads s s.primary_hashtable (2 ^ s.hashpower) cp ∧
      (s.expanding = true → Heads s s.old_hashtable (2 ^ (s.hashpower - 1)) co) ∧
      s.hash_items = ((chain_items (2 ^ s.hashpower) cp).length +
        (if s.expanding = true then (chain_items (2 ^ (s.hashpower - 1)) co).length else 0))
          % 2 ^ 32 ∧
      ((chain_items (2 ^ s.hashpower) cp).length +
        (if s.expanding = true then (chain_items (2 ^ (s.hashpower - 1)) co).length else 0)
          < 2 ^ 32 →
        s.hash_items = (chain_items (2 ^ s.hashpower) cp).length +
          (if s.expanding = true then (chain_items (2 ^ (s.hashpower - 1)) co).length else 0)) :=
  ⟨ex_wide_insert_reachable, count_invariant ex_hash _ _ ex_wide_insert_reachable⟩

theorem ex_key_inj {a b : Nat} (ha : a < 2 ^ 32) (hb : b < 2 ^ 32)
    (h : (ex_mem a).key = (ex_mem b).key) : a = b := by
  unfold ex_mem at h
  simp only [List.cons.injEq, and_true] at h
  omega

theorem assoc_insert_key {s s' : State} {it hv : Nat} (h : assoc_insert s it hv = .ok s')
    (a : Nat) : (s'.mem a).key = (s.mem a).key := by
  unfold assoc_insert at h
  cases hl : load s (select_bucket s hv).1 (select_bucket s hv).2 with
  | error e => rw [hl] at h; cases h
  | ok hd =>
    rw [hl] at h
    simp only at h
    cases hs : store (set_h_next s it hd) (select_bucket s hv).1 (select_bucket s hv).2 (some it) with
    | error e => rw [hs] at h; cases h
    | ok s2 =>
      rw [hs] at h
      simp only at h
      have hm := store_mem hs
      have hk : (s2.mem a).key = (s.mem a).key := by rw [hm, set_h_next_key]
      split at h
      · cases h
        unfold assoc_start_expand
        split <;> exact hk
      · cases h
        exact hk

theorem toOption_eq_some {r : Except Fault State} {s : State} (h : r.toOption = some s) :
    r = .ok s := by
  cases r with
  | error e => cases h
  | ok s' => cases h; rfl

theorem ex_fill_zero : ex_fill 0 = ex_init 2 := rfl

theorem ex_fill_succ (n : Nat) : ex_fill (n + 1) = ex_insert (ex_fill n) n := rfl

attribute [irreducible] ex_fill

/-- The run that inserts the items `0`, ..., `n - 1` into a table of power 2. -/
theorem ex_fill_reach (n : Nat) (hn : n ≤ 2 ^ 32) :
    Reach ex_hash 31 (some (ex_fill n)) (List.range n).reverse ∧
    (ex_fill n).expanding = false ∧ ∀ a, ((ex_fill n).mem a).key = (ex_mem a).key := by
  induction n with
  | zero =>
    rw [ex_fill_zero]
    exact ⟨ex_init_reach 31 (by decide), rfl, fun _ => rfl⟩
  | succ n ih =>
    obtain ⟨hr, he, hk⟩ := ih (by omega)
    have hstep := Reach.insert (ex_fill n) (List.range n).reverse n
      (ex_hash ((ex_fill n).mem n).key % 2 ^ 32) hr
      (by
        intro a ha
        rw [List.mem_reverse, List.mem_range] at ha
        rw [hk, hk]
        intro hab
        have := ex_key_inj (a := a) (b := n) (by omega) (by omega) hab
        omega)
      rfl
    obtain ⟨s', -, -, hs', -, -⟩ := hstep.inv
    have hok := toOption_eq_some hs'
    have hfill : ex_fill (n + 1) = s' := by
      rw [ex_fill_succ]
      unfold ex_insert
      rw [hok]
    rw [hfill, List.range_succ, List.reverse_append, List.reverse_singleton, List.singleton_append]
    refine ⟨hs' ▸ hstep, ?_, ?_⟩
    · rw [(assoc_insert_frame hok).2.2.2.1]; exact he
    · intro a; rw [assoc_insert_key hok]; exact hk a

/-- Counterexample to C4 as stated: after `assoc_init(2)` and the valid insertion of the
`2 ^ 32` items at the addresses `0`, ..., `2 ^ 32 - 1`, the chains of the primary table hold
`2 ^ 32` items and the 32-bit counter `hash_items` is 0. -/
theorem count_wraps_at_two_pow_32 :
    Reach ex_hash 31 (some (ex_fill (2 ^ 32))) (List.range (2 ^ 32)).reverse ∧
    (ex_fill (2 ^ 32)).expanding = false ∧ (ex_fill (2 ^ 32)).hash_items = 0 ∧
    ∃ cp, Heads (ex_fill (2 ^ 32)) (ex_fill (2 ^ 32)).primary_hashtable
        (2 ^ (ex_fill (2 ^ 32)).hashpower) cp ∧
      (chain_items (2 ^ (ex_fill (2 ^ 32)).hashpower) cp).length = 2 ^ 32 := by
  obtain ⟨hr, he, -⟩ := ex_fill_reach (2 ^ 32) (le_refl _)
  obtain ⟨s, cp, co, hs, inv, -⟩ := hr.inv
  cases hs
  have hc := inv.count_chains
  rw [if_neg (by rw [he]; simp), Nat.add_zero, List.length_reverse, List.length_range] at hc
  refine ⟨hr, he, ?_, cp, inv.prim, hc.2⟩
  rw [hc.1, hc.2, Nat.mod_self]

/-! ## C5: migration keeps the items -/

/-- A batch of migration steps preserves the index invariants, for a power of at most 31. -/
theorem Inv.batch {hash : List Nat → Nat} {I : List Nat} {fuel : Nat}
    (hf : I.length ≤ fuel) (n : Nat) :
    ∀ (s : State) (cp co : Nat → List Nat), Inv hash s I cp co → s.hashpower ≤ 31 →
      ∃ s' cp' co', bulk_move_loop hash fuel n s = .ok s' ∧ Inv hash s' I cp' co' ∧
        s'.hashpower = s.hashpower := by
  induction n with
  | zero =>
    intro s cp co inv _
    exact ⟨s, cp, co, rfl, inv, rfl⟩
  | succ n ih =>
    intro s cp co inv hp
    by_cases he : s.expanding = true
    · obtain ⟨s1, h1, inv1, hpow1, -, -⟩ := inv.migrate he hp hf
      obtain ⟨s', cp', co', h2, inv2, hpow2⟩ := ih s1 _ _ inv1 (by rw [hpow1]; exact hp)
      refine ⟨s', cp', co', ?_, inv2, hpow2.trans hpow1⟩
      simp only [Assoc.bulk_move_loop, he, if_true, h1]
      exact h2
    · refine ⟨s, cp, co, ?_, inv, rfl⟩
      simp only [Assoc.bulk_move_loop, he, Bool.false_eq_true, if_false]

/-- Migration up to power 31, where the code does what C5 says: in every state with `expanding`
true that satisfies the index invariants and has `hashpower` at most 31, one bucket-migration
step, and any batch of them, is defined and leaves the list of the items on all chains of
`primary_hashtable` and `old_hashtable` together unchanged up to order; before and after, no
item occurs twice on these chains. -/
theorem migration_keeps_items (hash : List Nat → Nat) (s : State) (I : List Nat)
    (cp co : Nat → List Nat) (inv : Inv hash s I cp co) (he : s.expanding = true)
    (hp : s.hashpower ≤ 31) (fuel : Nat) (hf : I.length ≤ fuel) :
    (chain_items (2 ^ s.hashpower) cp ++ chain_items (2 ^ (s.hashpower - 1)) co).Nodup ∧
    (∃ s' cp' co', migrate_bucket hash fuel s = .ok s' ∧ Inv hash s' I cp' co' ∧
      (chain_items (2 ^ s'.hashpower) cp' ++ chain_items (2 ^ (s'.hashpower - 1)) co').Perm
        (chain_items (2 ^ s.hashpower) cp ++ chain_items (2 ^ (s.hashpower - 1)) co) ∧
      (chain_items (2 ^ s'.hashpower) cp' ++ chain_items (2 ^ (s'.hashpower - 1)) co').Nodup) ∧
    (∀ n, ∃ s' cp' co', bulk_move_loop hash fuel n s = .ok s' ∧ Inv hash s' I cp' co' ∧
      (chain_items (2 ^ s'.hashpower) cp' ++ chain_items (2 ^ (s'.hashpower - 1)) co').Perm
        (chain_items (2 ^ s.hashpower) cp ++ chain_items (2 ^ (s.hashpower - 1)) co) ∧
      (chain_items (2 ^ s'.hashpower) cp' ++ chain_items (2 ^ (s'.hashpower - 1)) co').Nodup) := by
  refine ⟨inv.items_perm.2, ?_, ?_⟩
  · obtain ⟨s', h1, inv', -, -, -⟩ := inv.migrate he hp hf
    exact ⟨s', _, _, h1, inv', inv'.items_perm.1.trans inv.items_perm.1.symm, inv'.items_perm.2⟩
  · intro n
    obtain ⟨s', cp', co', h1, inv', -⟩ := Inv.batch hf n s cp co inv hp
    exact ⟨s', cp', co', h1, inv', inv'.items_perm.1.trans inv.items_perm.1.symm,
      inv'.items_perm.2⟩


theorem ex_resizing_reach : Reach ex_hash 31 (some ex_resizing) [1, 4, 0] :=
  Reach.expand (ex_insert (ex_insert (ex_insert (ex_init 2) 0) 4) 1) [1, 4, 0] (some 2)
    (Reach.insert (ex_insert (ex_insert (ex_init 2) 0) 4) [4, 0] 1 1
      (Reach.insert (ex_insert (ex_init 2) 0) [0] 4 4
        (Reach.insert (ex_init 2) [] 0 0 (ex_init_reach 31 (by decide)) (by simp) rfl)
        (by decide) rfl)
      (by decide) rfl)
    rfl (by decide)

theorem ex_resizing_inv : ∃ cp co, Inv ex_hash ex_resizing [1, 4, 0] cp co := by
  obtain ⟨s, cp, co, hs, inv, -⟩ := ex_resizing_reach.inv
  cases hs
  exact ⟨cp, co, inv⟩

/-- Example of a migration step: the table of power 2 with the items 0, 4 and 1, at the start of its resize
to power 3. -/
theorem migration_keeps_items_witness :
    ∃ cp co, Inv ex_hash ex_resizing [1, 4, 0] cp co ∧ ex_resizing.expanding = true ∧
      ex_resizing.hashpower ≤ 31 ∧ [1, 4, 0].length ≤ 3 ∧
      ((chain_items (2 ^ ex_resizing.hashpower) cp ++
          chain_items (2 ^ (ex_resizing.hashpower - 1)) co).Nodup ∧
      (∃ s' cp' co', migrate_bucket ex_hash 3 ex_resizing = .ok s' ∧
        Inv ex_hash s' [1, 4, 0] cp' co' ∧
        (chain_items (2 ^ s'.hashpower) cp' ++ chain_items (2 ^ (s'.hashpower - 1)) co').Perm
          (chain_items (2 ^ ex_resizing.hashpower) cp ++
            chain_items (2 ^ (ex_resizing.hashpower - 1)) co) ∧
        (chain_items (2 ^ s'.hashpower) cp' ++
          chain_items (2 ^ (s'.hashpower - 1)) co').Nodup) ∧
      (∀ n, ∃ s' cp' co', bulk_move_loop ex_hash 3 n ex_resizing = .ok s' ∧
        Inv ex_hash s' [1, 4, 0] cp' co' ∧
        (chain_items (2 ^ s'.hashpower) cp' ++ chain_items (2 ^ (s'.hashpower - 1)) co').Perm
          (chain_items (2 ^ ex_resizing.hashpower) cp ++
            chain_items (2 ^ (ex_resizing.hashpower - 1)) co) ∧
        (chain_items (2 ^ s'.hashpower) cp' ++
          chain_items (2 ^ (s'.hashpower - 1)) co').Nodup)) := by
  obtain ⟨cp, co, inv⟩ := ex_resizing_inv
  exact ⟨cp, co, inv, rfl, by decide, by decide,
    migration_keeps_items ex_hash ex_resizing [1, 4, 0] cp co inv rfl (by decide) 3 (by decide)⟩

theorem ex_big_inv : ∃ cp co, Inv ex_hash ex_big [2 ^ 31] cp co := by
  have inv0 : Inv ex_hash (ex_init 31) [] (fun _ => []) (fun _ => []) :=
    @Inv.init ex_hash ex_mem 31 (some 1) (ex_init 31) (by decide) rfl
  obtain ⟨s1, cp1, co1, h1, inv1⟩ :=
    @Inv.insert ex_hash (ex_init 31) [] _ _ inv0 (2 ^ 31) (2 ^ 31) (by simp) rfl
  have hs1 : ex_insert (ex_init 31) (2 ^ 31) = s1 := by
    have : assoc_insert (ex_init 31) (2 ^ 31) (ex_hash ((ex_init 31).mem (2 ^ 31)).key % 2 ^ 32)
        = .ok s1 := h1
    unfold ex_insert
    rw [this]
  have he : s1.expanding = false := by rw [← hs1]; rfl
  unfold ex_big
  rw [hs1]
  rcases inv1.expand he (some 2) with ⟨-, inv2⟩ | ⟨-, -, -, inv2⟩
  · exact ⟨_, _, inv2⟩
  · exact ⟨_, _, inv2⟩

/-- C5, failing input: the state after `assoc_init(31)`, the insertion of an item whose key
hashes to `0x80000000` and a successful `assoc_expand` satisfies the index invariants with
`expanding` true and `hashpower` 32; the item is the head of old bucket 0, the index computed
for it in `int bucket` is `-2147483648`, and the migration step has no result: the item is
stored out of the bounds of the primary table and is on no chain afterwards. -/
theorem migration_undefined_at_power_32 :
    (∃ cp co, Inv ex_hash ex_big [2 ^ 31] cp co) ∧ ex_big.expanding = true ∧
    ex_big.hashpower = 32 ∧ ex_big.expand_bucket = 0 ∧
    load ex_big ex_big.old_hashtable 0 = .ok (some (2 ^ 31)) ∧
    to_int (ex_hash (ex_big.mem (2 ^ 31)).key % 2 ^ 32 &&& hashmask ex_big.hashpower)
      = -2147483648 ∧
    ∀ fuel, migrate_bucket ex_hash (fuel + 1) ex_big = .error .undefined :=
  ⟨ex_big_inv, rfl, rfl, rfl, rfl, by decide, fun _ => rfl⟩

/-! ## Loop bounds -/

theorem move_chain_succ (hash : List Nat → Nat) (fuel : Nat) :
    ∀ (s : State) (it : Option Nat) (s' : State), move_chain hash s fuel it = .ok s' →
      move_chain hash s (fuel + 1) it = .ok s' := by
  induction fuel with
  | zero =>
    intro s it s' h
    cases it with
    | none => exact h
    | some a => cases h
  | succ fuel ih =>
    intro s it s' h
    cases it with
    | none => exact h
    | some a =>
      simp only [move_chain] at h ⊢
      split at h
      · cases h
      · rw [if_neg (by assumption)]
        cases hl : load s s.primary_hashtable
            (to_int (hash (s.mem a).key % 2 ^ 32 &&& hashmask s.hashpower)).toNat with
        | error e => rw [hl] at h; cases h
        | ok hd =>
          rw [hl] at h
          simp only at h ⊢
          cases hs : store (set_h_next s a hd) s.primary_hashtable
              (to_int (hash (s.mem a).key % 2 ^ 32 &&& hashmask s.hashpower)).toNat (some a) with
          | error e => rw [hs] at h; cases h
          | ok s1 =>
            rw [hs] at h
            simp only at h ⊢
            exact ih _ _ _ h

theorem move_chain_mono (hash : List Nat → Nat) {fuel fuel' : Nat} (hle : fuel ≤ fuel')
    {s : State} {it : Option Nat} {s' : State} (h : move_chain hash s fuel it = .ok s') :
    move_chain hash s fuel' it = .ok s' := by
  induction hle with
  | refl => exact h
  | step _ ih => exact move_chain_succ hash _ _ _ _ ih

theorem migrate_bucket_mono (hash : List Nat → Nat) {fuel fuel' : Nat} (hle : fuel ≤ fuel')
    {s s' : State} (h : migrate_bucket hash fuel s = .ok s') :
    migrate_bucket hash fuel' s = .ok s' := by
  unfold migrate_bucket at h ⊢
  cases hl : load s s.old_hashtable s.expand_bucket with
  | error e => rw [hl] at h; cases h
  | ok hd =>
    rw [hl] at h
    simp only at h ⊢
    cases hm : move_chain hash s fuel hd with
    | error e => rw [hm] at h; cases h
    | ok s1 =>
      rw [hm] at h
      rw [move_chain_mono hash hle hm]
      exact h

/-- A migration step that has a result for one loop bound has this result as its outcome. -/
theorem Outcome.of_migrate {hash : List Nat → Nat} {fuel : Nat} {s s' : State}
    (h : migrate_bucket hash fuel s = .ok s') :
    Outcome (fun fuel => migrate_bucket hash fuel s) (some s') := by
  refine ⟨fuel, fun fuel' hle => ?_⟩
  show migrate_bucket hash fuel' s ≠ _ ∧ (migrate_bucket hash fuel' s).toOption = _
  rw [migrate_bucket_mono hash hle h]
  exact ⟨by simp, rfl⟩

theorem bulk_move_loop_mono (hash : List Nat → Nat) {fuel fuel' : Nat} (hle : fuel ≤ fuel')
    (n : Nat) : ∀ {s s' : State}, bulk_move_loop hash fuel n s = .ok s' →
      bulk_move_loop hash fuel' n s = .ok s' := by
  induction n with
  | zero => intro s s' h; exact h
  | succ n ih =>
    intro s s' h
    simp only [bulk_move_loop] at h ⊢
    split at h
    · rw [if_pos (by assumption)]
      cases hm : migrate_bucket hash fuel s with
      | error e => rw [hm] at h; cases h
      | ok s1 =>
        rw [hm] at h
        rw [migrate_bucket_mono hash hle hm]
        exact ih h
    · rw [if_neg (by assumption)]
      exact h

/-! ## C6: placement after a resize -/

/-- C6 (as amended): the migration loop hashes every key itself, so the placement follows the
caller's hash when that hash is the hash of the key (as in every valid run): in runs with
`hashpower` at most 31, whenever `expanding` is false, in particular once a resize has run to
completion, every indexed item `x` is on the chain
`primary_hashtable[hv(x) & hashmask(hashpower)]`, `hv(x)` being `hash(key(x))`. -/
theorem placement_after_resize (hash : List Nat → Nat) (r : Option State) (I : List Nat)
    (h : Reach hash 31 r I) :
    ∃ s cp, r = some s ∧ Heads s s.primary_hashtable (2 ^ s.hashpower) cp ∧
      (s.expanding = false →
        ∀ x ∈ I, x ∈ cp (hash (s.mem x).key % 2 ^ 32 &&& hashmask s.hashpower)) := by
  obtain ⟨s, cp, co, hs, inv, -⟩ := h.inv
  refine ⟨s, cp, hs, inv.prim, fun he x hx => ?_⟩
  rw [land_hashmask (by have := inv.power_le; omega)]
  refine (inv.mem_p _ x).mpr ⟨hx, ?_, rfl⟩
  intro hio
  have := hio.1
  rw [he] at this
  cases this

theorem ex_scenario_start_reach :
    Reach ex_hash 31 (some ex_scenario_start) [12, 9, 8, 5, 4, 1, 0] :=
  Reach.expand _ [12, 9, 8, 5, 4, 1, 0] (some 2)
    (Reach.insert _ [9, 8, 5, 4, 1, 0] 12 12
      (Reach.insert _ [8, 5, 4, 1, 0] 9 9
        (Reach.insert _ [5, 4, 1, 0] 8 8
          (Reach.insert _ [4, 1, 0] 5 5
            (Reach.insert _ [1, 0] 4 4
              (Reach.insert _ [0] 1 1
                (Reach.insert (ex_init 2) [] 0 0 (ex_init_reach 31 (by decide)) (by simp) rfl)
                (by decide) rfl)
              (by decide) rfl)
            (by decide) rfl)
          (by decide) rfl)
        (by decide) rfl)
      (by decide) rfl)
    rfl (by decide)

set_option maxRecDepth 100000 in
theorem ex_scenario_reach : Reach ex_hash 31 (some ex_scenario) [12, 9, 8, 5, 4, 1, 0] :=
  Reach.migrate _ _ _
    (Reach.migrate _ _ _
      (Reach.migrate _ _ _
        (Reach.migrate _ _ _ ex_scenario_start_reach rfl
          (@Outcome.of_migrate ex_hash 8 ex_scenario_start (ex_migrate ex_scenario_start) rfl))
        rfl
        (@Outcome.of_migrate ex_hash 8 (ex_migrate ex_scenario_start)
          (ex_migrate (ex_migrate ex_scenario_start)) rfl))
      rfl
      (@Outcome.of_migrate ex_hash 8 (ex_migrate (ex_migrate ex_scenario_start))
        (ex_migrate (ex_migrate (ex_migrate ex_scenario_start))) rfl))
    rfl
    (@Outcome.of_migrate ex_hash 8 (ex_migrate (ex_migrate (ex_migrate ex_scenario_start)))
      ex_scenario rfl)

set_option maxRecDepth 100000 in
/-- Witness for C6: the literal scenario of the specification, power 2 and the hashes
`0x0, 0x1, 0x4, 0x5, 0x8, 0x9, 0xC`; after the resize the power is 3. -/
theorem placement_after_resize_witness :
    Reach ex_hash 31 (some ex_scenario) [12, 9, 8, 5, 4, 1, 0] ∧
    ex_scenario.hashpower = 3 ∧ ex_scenario.expanding = false ∧
    ∃ s cp, some ex_scenario = some s ∧ Heads s s.primary_hashtable (2 ^ s.hashpower) cp ∧
      (s.expanding = false →
        ∀ x ∈ [12, 9, 8, 5, 4, 1, 0],
          x ∈ cp (ex_hash (s.mem x).key % 2 ^ 32 &&& hashmask s.hashpower)) :=
  ⟨ex_scenario_reach, rfl, rfl, placement_after_resize ex_hash _ _ ex_scenario_reach⟩

set_option maxRecDepth 100000 in
/-- Counterexample to C6 as stated: item 1, whose key hashes to 1, is inserted with the hash
value 0 into a table of power 2 and the table is resized to power 3; the migration places the
item by the hash of its key, on bucket 1, and bucket `0 & hashmask(3)` is empty. -/
theorem placement_ignores_caller_hash :
    ∃ s, ex_mishashed = .ok s ∧ s.expanding = false ∧ s.hashpower = 3 ∧
      load s s.primary_hashtable (0 &&& hashmask 3) = .ok none ∧
      load s s.primary_hashtable (ex_hash (s.mem 1).key &&& hashmask 3) = .ok (some 1) ∧
      (s.mem 1).h_next = none :=
  ⟨_, rfl, rfl, rfl, rfl, rfl, rfl⟩

/-! ## C7: the state between two resizes -/

theorem store_heap_none {s s' : State} {t : Option Nat} {i : Nat} {v : Option Nat}
    (hs : store s t i v = .ok s') {a : Nat} (ha : s.heap a = none) : s'.heap a = none := by
  obtain ⟨b, T, -, hT, -, rfl⟩ := store_spec hs
  have hab : a ≠ b := by
    rintro rfl
    rw [ha] at hT
    cases hT
  show Function.update s.heap b _ a = none
  rw [Function.update_noteq hab, ha]

theorem move_chain_globals (hash : List Nat → Nat) (fuel : Nat) :
    ∀ (s : State) (it : Option Nat) (s' : State), move_chain hash s fuel it = .ok s' →
      SameGlobals s s' ∧ s'.hash_items = s.hash_items ∧
      (∀ a, s.heap a = none → s'.heap a = none) := by
  induction fuel with
  | zero =>
    intro s it s' h
    cases it with
    | none => cases h; exact ⟨SameGlobals.same_globals _, rfl, fun _ h => h⟩
    | some a => cases h
  | succ fuel ih =>
    intro s it s' h
    cases it with
    | none => cases h; exact ⟨SameGlobals.same_globals _, rfl, fun _ h => h⟩
    | some a =>
      simp only [move_chain] at h
      split at h
      · cases h
      · cases hl : load s s.primary_hashtable
            (to_int (hash (s.mem a).key % 2 ^ 32 &&& hashmask s.hashpower)).toNat with
        | error e => rw [hl] at h; cases h
        | ok hd =>
          rw [hl] at h
          simp only at h
          cases hs : store (set_h_next s a hd) s.primary_hashtable
              (to_int (hash (s.mem a).key % 2 ^ 32 &&& hashmask s.hashpower)).toNat (some a) with
          | error e => rw [hs] at h; cases h
          | ok s1 =>
            rw [hs] at h
            simp only at h
            obtain ⟨h1, h2, h3⟩ := ih _ _ _ h
            have hg : SameGlobals s s1 :=
              SameGlobals.trans (set_h_next_globals s a hd) (store_globals hs)
            refine ⟨SameGlobals.trans hg h1, ?_, ?_⟩
            · rw [h2]; exact (store_fields hs).2.2.2.2.1
            · intro b hb
              exact h3 b (store_heap_none hs hb)

/-- The two ways a migration step ends: the resize goes on, or the step was the last one, the
old array is freed and `expanding` reset; `expand_bucket` is incremented in both. -/
theorem migrate_bucket_cases {hash : List Nat → Nat} {fuel : Nat} {s s' : State}
    (h : migrate_bucket hash fuel s = .ok s') :
    s'.hashpower = s.hashpower ∧ s'.primary_hashtable = s.primary_hashtable ∧
    s'.old_hashtable = s.old_hashtable ∧ s'.expand_bucket = uinc s.expand_bucket ∧
    s'.hash_items = s.hash_items ∧ s'.started_expanding = s.started_expanding ∧
    s'.cond_signals = s.cond_signals ∧ s'.hash_bulk_move = s.hash_bulk_move ∧
    s'.do_run_maintenance_thread = s.do_run_maintenance_thread ∧
    ((uinc s.expand_bucket = hashsize (udec s.hashpower) ∧ s'.expanding = false ∧
        ∀ a, s.old_hashtable = some a → s'.heap a = none) ∨
     (uinc s.expand_bucket ≠ hashsize (udec s.hashpower) ∧ s'.expanding = s.expanding)) := by
  unfold migrate_bucket at h
  cases hl : load s s.old_hashtable s.expand_bucket with
  | error e => rw [hl] at h; cases h
  | ok hd =>
    rw [hl] at h
    simp only at h
    cases hm : move_chain hash s fuel hd with
    | error e => rw [hm] at h; cases h
    | ok s1 =>
      rw [hm] at h
      simp only at h
      cases hs : store s1 s1.old_hashtable s1.expand_bucket none with
      | error e => rw [hs] at h; cases h
      | ok s2 =>
        rw [hs] at h
        simp only at h
        obtain ⟨g1, c1, -⟩ := move_chain_globals hash fuel _ _ _ hm
        have g2 := store_globals hs
        have g := SameGlobals.trans g1 g2
        have c2 := (store_fields hs).2.2.2.2.1
        split at h
        · rename_i hdone
          cases h
          refine ⟨g.1, g.2, g.3, ?_, c2.trans c1, g.5, g.9, g.8, g.7, Or.inl ⟨?_, rfl, ?_⟩⟩
          · show uinc s2.expand_bucket = _; rw [g.6]
          · have : uinc s2.expand_bucket = hashsize (udec s2.hashpower) := hdone
            rw [g.6, g.1] at this
            exact this
          · intro a ha
            show free s2.heap s2.old_hashtable a = none
            rw [g.3, ha]
            simp [free]
        · rename_i hdone
          cases h
          refine ⟨g.1, g.2, g.3, ?_, c2.trans c1, g.5, g.9, g.8, g.7, Or.inr ⟨?_, g.4⟩⟩
          · show uinc s2.expand_bucket = _; rw [g.6]
          · have : ¬ uinc s2.expand_bucket = hashsize (udec s2.hashpower) := hdone
            rw [g.6, g.1] at this
            exact this

theorem assoc_insert_heap_none {s s' : State} {it hv : Nat} (h : assoc_insert s it hv = .ok s')
    {a : Nat} (ha : s.heap a = none) : s'.heap a = none := by
  unfold assoc_insert at h
  cases hl : load s (select_bucket s hv).1 (select_bucket s hv).2 with
  | error e => rw [hl] at h; cases h
  | ok hd =>
    rw [hl] at h
    simp only at h
    cases hs : store (set_h_next s it hd) (select_bucket s hv).1 (select_bucket s hv).2 (some it) with
    | error e => rw [hs] at h; cases h
    | ok s2 =>
      rw [hs] at h
      simp only at h
      have hn : s2.heap a = none := store_heap_none hs ha
      split at h
      · cases h
        unfold assoc_start_expand
        split <;> exact hn
      · cases h
        exact hn

theorem assoc_delete_heap_none {s s' : State} {fuel : Nat} {key : List Nat} {hv : Nat}
    (h : assoc_delete fuel s key hv = .ok s') {a : Nat} (ha : s.heap a = none) :
    s'.heap a = none := by
  unfold assoc_delete at h
  cases hb : _hashitem_before fuel s key hv with
  | error e => rw [hb] at h; cases h
  | ok before =>
    rw [hb] at h
    simp only at h
    cases hd : before.deref s with
    | error e => rw [hd] at h; cases h
    | ok v =>
      rw [hd] at h
      cases v with
      | none => cases h; exact ha
      | some b =>
        simp only at h
        cases before with
        | slot t i => exact store_heap_none h ha
        | field c => cases h; exact ha

/-- C7 (as amended): in every state reached from `assoc_init` by `assoc_insert`,
`assoc_delete`, `assoc_expand` (allocation succeeding or failing) and bucket-migration steps,
whenever `expanding` is false, `expand_bucket` is 0 or `hashsize(hashpower - 1)` (the value at
which the last resize ended), and `old_hashtable` is null, or an alias of `primary_hashtable`
(after an `assoc_expand` whose allocation failed), or the address of the freed old array. -/
theorem quiescent_state (hash : List Nat → Nat) (s : State) (h : Run hash s)
    (he : s.expanding = false) :
    (s.expand_bucket = 0 ∨ s.expand_bucket = hashsize (udec s.hashpower)) ∧
    (s.old_hashtable = none ∨ s.old_hashtable = s.primary_hashtable ∨
      ∃ a, s.old_hashtable = some a ∧ s.heap a = none) := by
  induction h with
  | init mem hashtable_init p s hinit =>
    unfold assoc_init at hinit
    simp only at hinit
    split at hinit
    · cases hinit
    · cases hinit
      exact ⟨Or.inl rfl, Or.inl rfl⟩
  | insert s s' it hv _ hins ih =>
    have hf := assoc_insert_frame hins
    rw [hf.2.2.2.1] at he
    obtain ⟨h1, h2⟩ := ih he
    rw [hf.1, hf.2.1, hf.2.2.1, hf.2.2.2.2.1]
    refine ⟨h1, ?_⟩
    rcases h2 with h2 | h2 | ⟨a, h2, h3⟩
    · exact Or.inl h2
    · exact Or.inr (Or.inl h2)
    · exact Or.inr (Or.inr ⟨a, h2, assoc_insert_heap_none hins h3⟩)
  | delete s s' fuel key hv _ hdel ih =>
    have hg := assoc_delete_frame hdel
    rw [hg.expanding] at he
    obtain ⟨h1, h2⟩ := ih he
    rw [hg.hashpower, hg.primary_hashtable, hg.old_hashtable, hg.expand_bucket]
    refine ⟨h1, ?_⟩
    rcases h2 with h2 | h2 | ⟨a, h2, h3⟩
    · exact Or.inl h2
    · exact Or.inr (Or.inl h2)
    · exact Or.inr (Or.inr ⟨a, h2, assoc_delete_heap_none hdel h3⟩)
  | expand s p _ ih =>
    rcases calloc_spec s.heap p (hashsize (uinc s.hashpower)) with hc | ⟨a, -, -, -, hc⟩
    · rw [assoc_expand_fail hc] at he ⊢
      exact ⟨(ih he).1, Or.inr (Or.inl rfl)⟩
    · rw [assoc_expand_ok hc] at he
      cases he
  | migrate s s' fuel _ hexp hmig ih =>
    obtain ⟨h1, h2, h3, h4, -, -, -, -, -, h5⟩ := migrate_bucket_cases hmig
    rcases h5 with ⟨h5, -, h6⟩ | ⟨-, h5⟩
    · rw [h1, h2, h3, h4]
      refine ⟨Or.inr h5, ?_⟩
      cases ho : s.old_hashtable with
      | none => exact Or.inl rfl
      | some a => exact Or.inr (Or.inr ⟨a, rfl, h6 a ho⟩)
    · rw [h5, hexp] at he
      cases he


/-- The states of the valid runs are states of the unrestricted runs. -/
theorem Reach.run {hash : List Nat → Nat} {maxp : Nat} {r : Option State} {I : List Nat}
    (h : Reach hash maxp r I) : ∀ s, r = some s → Run hash s := by
  induction h with
  | init mem hashtable_init p s _ _ hinit =>
    intro s' hs
    cases hs
    exact Run.init mem hashtable_init p s hinit
  | insert s I it hv _ _ _ ih =>
    intro s' hs
    exact Run.insert s s' it hv (ih s rfl) (toOption_eq_some hs)
  | delete s I x hv r _ _ _ hout ih =>
    intro s' hs
    obtain ⟨N, hN⟩ := hout
    have := (hN N (le_refl N)).2
    rw [hs] at this
    exact Run.delete s s' N _ hv (ih s rfl) (toOption_eq_some this)
  | expand s I p _ _ _ ih =>
    intro s' hs
    cases hs
    exact Run.expand s p (ih s rfl)
  | migrate s I r _ he hout ih =>
    intro s' hs
    obtain ⟨N, hN⟩ := hout
    have := (hN N (le_refl N)).2
    rw [hs] at this
    exact Run.migrate s s' N (ih s rfl) he (toOption_eq_some this)

set_option maxRecDepth 100000 in
/-- Witness for C7: the literal scenario after its completed resize. -/
theorem quiescent_state_witness :
    Run ex_hash ex_scenario ∧ ex_scenario.expanding = false ∧
    (ex_scenario.expand_bucket = 0 ∨
      ex_scenario.expand_bucket = hashsize (udec ex_scenario.hashpower)) ∧
    (ex_scenario.old_hashtable = none ∨
      ex_scenario.old_hashtable = ex_scenario.primary_hashtable ∨
      ∃ a, ex_scenario.old_hashtable = some a ∧ ex_scenario.heap a = none) :=
  ⟨ex_scenario_reach.run _ rfl, rfl,
    quiescent_state ex_hash ex_scenario (ex_scenario_reach.run _ rfl) rfl⟩

set_option maxRecDepth 100000 in
/-- Counterexample to C7 as stated: after the resize of the literal scenario has moved its
last old bucket, `expanding` is false, `expand_bucket` is 4 and `old_hashtable` still holds the
address of the freed array; after an `assoc_expand` whose allocation failed, `expanding` is
false and `old_hashtable` is an alias of `primary_hashtable`. -/
theorem quiescent_state_not_reset :
    (Run ex_hash ex_scenario ∧ ex_scenario.expanding = false ∧
      ex_scenario.expand_bucket = 4 ∧ ex_scenario.old_hashtable = some 1 ∧
      ex_scenario.heap 1 = none ∧ ex_scenario.primary_hashtable = some 2) ∧
    (Run ex_hash (assoc_expand (ex_init 2) none) ∧
      (assoc_expand (ex_init 2) none).expanding = false ∧
      (assoc_expand (ex_init 2) none).old_hashtable = some 1 ∧
      (assoc_expand (ex_init 2) none).primary_hashtable = some 1) :=
  ⟨⟨ex_scenario_reach.run _ rfl, rfl, rfl, rfl, rfl, rfl⟩,
    ⟨Run.expand _ none (Run.init ex_mem 2 (some 1) (ex_init 2) rfl), rfl, rfl, rfl⟩⟩

/-! ## C8: the resize request -/

theorem assoc_start_expand_signal (s : State) :
    (s.started_expanding = false →
      (assoc_start_expand s).started_expanding = true ∧
      (assoc_start_expand s).cond_signals = s.cond_signals + 1) ∧
    (s.started_expanding = true → assoc_start_expand s = s) := by
  unfold assoc_start_expand
  constructor
  · intro h
    rw [if_neg (by rw [h]; simp)]
    exact ⟨rfl, rfl⟩
  · intro h
    rw [if_pos h]

/-- What `assoc_insert` does to the request flag and to the condition variable. -/
theorem assoc_insert_signal {s s' : State} {it hv : Nat} (h : assoc_insert s it hv = .ok s') :
    (s.expanding = false ∧ uinc s.hash_items > (hashsize s.hashpower * 3) % 2 ^ 64 / 2 ∧
        s.started_expanding = false →
      s'.started_expanding = true ∧ s'.cond_signals = s.cond_signals + 1) ∧
    (¬ (s.expanding = false ∧ uinc s.hash_items > (hashsize s.hashpower * 3) % 2 ^ 64 / 2 ∧
        s.started_expanding = false) →
      s'.started_expanding = s.started_expanding ∧ s'.cond_signals = s.cond_signals) := by
  unfold assoc_insert at h
  cases hl : load s (select_bucket s hv).1 (select_bucket s hv).2 with
  | error e => rw [hl] at h; cases h
  | ok hd =>
    rw [hl] at h
    simp only at h
    cases hs : store (set_h_next s it hd) (select_bucket s hv).1 (select_bucket s hv).2 (some it) with
    | error e => rw [hs] at h; cases h
    | ok s2 =>
      rw [hs] at h
      simp only at h
      have hg : SameGlobals s s2 :=
        SameGlobals.trans (set_h_next_globals s it hd) (store_globals hs)
      have hc : s2.hash_items = s.hash_items := (store_fields hs).2.2.2.2.1
      split at h
      · rename_i hcond
        cases h
        have hcond' : (!s2.expanding) = true ∧
            uinc s2.hash_items > (hashsize s2.hashpower * 3) % 2 ^ 64 / 2 := hcond
        rw [hg.expanding, hg.hashpower, hc] at hcond'
        have hexp : s.expanding = false := by simpa using hcond'.1
        have hsig := assoc_start_expand_signal { s2 with hash_items := uinc s2.hash_items }
        by_cases hst : s.started_expanding = true
        · have h2 : s2.started_expanding = true := hg.started_expanding.trans hst
          rw [hsig.2 h2]
          refine ⟨fun hh => ?_, fun _ => ⟨hg.started_expanding, hg.cond_signals⟩⟩
          have := hh.2.2
          rw [hst] at this
          cases this
        · have hst' : s.started_expanding = false := by simpa using hst
          have h2 : s2.started_expanding = false := hg.started_expanding.trans hst'
          obtain ⟨h3, h4⟩ := hsig.1 h2
          refine ⟨fun _ => ⟨h3, h4.trans (by rw [← hg.cond_signals])⟩, fun hh => ?_⟩
          exact absurd ⟨hexp, hcond'.2, hst'⟩ hh
      · rename_i hcond
        cases h
        have hcond' : ¬ ((!s2.expanding) = true ∧
            uinc s2.hash_items > (hashsize s2.hashpower * 3) % 2 ^ 64 / 2) := hcond
        rw [hg.expanding, hg.hashpower, hc] at hcond'
        refine ⟨fun hh => ?_, fun _ => ⟨hg.started_expanding, hg.cond_signals⟩⟩
        exfalso
        apply hcond'
        exact ⟨by rw [hh.1]; rfl, hh.2.1⟩

/-- `assoc_insert` keeps a well-formed state well formed. -/
theorem Allocated.insert_allocated {s s' : State} (hs : Allocated s) {it hv : Nat}
    (h : assoc_insert s it hv = .ok s') : Allocated s' := by
  have hf := assoc_insert_frame h
  obtain ⟨hd, s2, s'', hl, hst, hres, hlay, -⟩ := hs.insert_ok it hv
  rw [h] at hres
  cases hres
  obtain ⟨b, T, -, hT, -, hs2⟩ := store_spec hst
  have hheap : s'.heap = Function.update s.heap b
      (some { T with slot := Function.update T.slot (select_bucket s hv).2 (some it) }) := by
    rw [hlay.heap, hs2]; rfl
  have hkeep : ∀ a T', s.heap a = some T' → ∃ T'', s'.heap a = some T'' ∧ T''.size = T'.size := by
    intro a T' ha
    by_cases hab : a = b
    · subst hab
      rw [show s.heap a = some T from hT] at ha
      cases ha
      refine ⟨{ T with slot := Function.update T.slot (select_bucket s hv).2 (some it) }, ?_, rfl⟩
      rw [hheap, Function.update_same]
    · exact ⟨T', by rw [hheap, Function.update_noteq hab]; exact ha, rfl⟩
  refine
    { power_le := by rw [hf.1]; exact hs.power_le
      items_lt := by rw [hf.2.2.2.2.2.1]; exact Nat.mod_lt _ (by decide)
      prim := ?_
      power_pos := by rw [hf.1, hf.2.2.2.1]; exact hs.power_pos
      frontier := by rw [hf.1, hf.2.2.2.1, hf.2.2.2.2.1]; exact hs.frontier
      old := ?_
      sep := by rw [hf.2.1, hf.2.2.1, hf.2.2.2.1]; exact hs.sep }
  · obtain ⟨a, T', h1, h2, h3⟩ := hs.prim
    obtain ⟨T'', h4, h5⟩ := hkeep a T' h2
    exact ⟨a, T'', by rw [hf.2.1]; exact h1, h4, by rw [h5, h3, hf.1]⟩
  · intro he
    rw [hf.2.2.2.1] at he
    obtain ⟨a, T', h1, h2, h3⟩ := hs.old he
    obtain ⟨T'', h4, h5⟩ := hkeep a T' h2
    exact ⟨a, T'', by rw [hf.2.2.1]; exact h1, h4, by rw [h5, h3, hf.1]⟩

/-- Once a resize is requested, inserts request nothing more. -/
theorem insert_run_requested (xs : List (Nat × Nat)) :
    ∀ s, Allocated s → s.started_expanding = true →
      ∃ s', insert_run s xs = .ok s' ∧ s'.started_expanding = true ∧
        s'.cond_signals = s.cond_signals := by
  induction xs with
  | nil => intro s _ hst; exact ⟨s, rfl, hst, rfl⟩
  | cons x xs ih =>
    intro s hs hst
    obtain ⟨-, -, s1, -, -, h1, -, -⟩ := hs.insert_ok x.1 x.2
    have hsig := (assoc_insert_signal h1).2 (fun hh => by
      have := hh.2.2
      rw [hst] at this
      cases this)
    obtain ⟨s', h2, h3, h4⟩ := ih s1 (hs.insert_allocated h1) (hsig.1.trans hst)
    refine ⟨s', ?_, h3, h4.trans hsig.2⟩
    simp only [insert_run, h1]
    exact h2

theorem threshold_eq {p : Nat} (hp : p ≤ 31) :
    (hashsize p * 3) % 2 ^ 64 / 2 = 3 * 2 ^ p / 2 := by
  rw [hashsize_eq (by omega)]
  have : 2 ^ p ≤ 2 ^ 31 := Nat.pow_le_pow_right (by decide) hp
  rw [Nat.mod_eq_of_lt (by omega), Nat.mul_comm]

/-- A run of inserts from a state in which no resize is requested and `hash_items` is at most
the threshold: the request is made by the insert that takes `hash_items` over the threshold. -/
theorem insert_run_below (xs : List (Nat × Nat)) :
    ∀ s, Allocated s → s.hashpower ≤ 31 → s.expanding = false → s.started_expanding = false →
      s.hash_items ≤ 3 * 2 ^ s.hashpower / 2 →
      ∃ s', insert_run s xs = .ok s' ∧
        s'.started_expanding = decide (3 * 2 ^ s.hashpower / 2 < s.hash_items + xs.length) ∧
        s'.cond_signals = s.cond_signals +
          (if 3 * 2 ^ s.hashpower / 2 < s.hash_items + xs.length then 1 else 0) ∧
        (s.hash_items + xs.length ≤ 3 * 2 ^ s.hashpower / 2 + 1 →
          s'.hash_items = s.hash_items + xs.length) := by
  induction xs with
  | nil =>
    intro s _ _ _ hst hk
    refine ⟨s, rfl, ?_, ?_, fun _ => rfl⟩
    · rw [hst]; simp; omega
    · rw [if_neg (by simp; omega)]; rfl
  | cons x xs ih =>
    intro s hs hp he hst hk
    obtain ⟨-, -, s1, -, -, h1, -, hcnt⟩ := hs.insert_ok x.1 x.2
    have hf := assoc_insert_frame h1
    have hsig := assoc_insert_signal h1
    have hT : 3 * 2 ^ s.hashpower / 2 < 2 ^ 32 - 1 := by
      have : 2 ^ s.hashpower ≤ 2 ^ 31 := Nat.pow_le_pow_right (by decide) hp
      omega
    have hu : uinc s.hash_items = s.hash_items + 1 := uinc_lt (by omega)
    rw [threshold_eq hp, hu] at hsig
    rw [hu] at hcnt
    simp only [insert_run, h1, List.length_cons]
    by_cases hcross : 3 * 2 ^ s.hashpower / 2 < s.hash_items + 1
    · obtain ⟨h2, h3⟩ := hsig.1 ⟨he, hcross, hst⟩
      obtain ⟨s', h4, h5, h6⟩ := insert_run_requested xs s1 (hs.insert_allocated h1) h2
      refine ⟨s', h4, ?_, ?_, ?_⟩
      · rw [h5]; simp; omega
      · rw [h6, h3, if_pos (by omega)]
      · intro hle
        have hxs : xs.length = 0 := by omega
        rw [List.length_eq_zero] at hxs
        subst hxs
        cases h4
        rw [hcnt]; rfl
    · obtain ⟨h2, h3⟩ := hsig.2 (fun hh => hcross hh.2.1)
      obtain ⟨s', h4, h5, h6, h7⟩ := ih s1 (hs.insert_allocated h1) (by rw [hf.1]; exact hp)
        (by rw [hf.2.2.2.1]; exact he) (h2.trans hst) (by rw [hcnt, hf.1]; omega)
      rw [hf.1, hcnt] at h5 h6 h7
      rw [h3] at h6
      refine ⟨s', h4, ?_, ?_, ?_⟩
      · rw [h5]; congr 1; apply propext; constructor <;> intro h <;> omega
      · rw [h6]; congr 1; apply if_congr _ rfl rfl; constructor <;> intro h <;> omega
      · intro hle
        rw [h7 (by omega)]; omega


theorem assoc_expand_signal (t : State) (p : Option Nat) :
    (assoc_expand t p).cond_signals = t.cond_signals ∧
    (assoc_expand t p).started_expanding = t.started_expanding := by
  rcases calloc_spec t.heap p (hashsize (uinc t.hashpower)) with hc | ⟨a, -, -, -, hc⟩
  · rw [assoc_expand_fail hc]; exact ⟨rfl, rfl⟩
  · rw [assoc_expand_ok hc]; exact ⟨rfl, rfl⟩

/-- C8 (as amended): from an empty index of size `1 << hashpower`, `hashpower` at most 31,
with `expanding` and `started_expanding` false, a run of `assoc_insert` calls signals the
maintenance condition exactly once, on the insert that makes `hash_items` equal to
`(3 * size) / 2 + 1`, and on no earlier insert; an `assoc_insert` made while
`started_expanding` or `expanding` is true signals nothing, and neither `assoc_expand`, nor
a migration step, nor `assoc_delete` touches `started_expanding`. -/
theorem resize_request_threshold (s : State) (hs : Allocated s) (hp : s.hashpower ≤ 31)
    (he : s.expanding = false) (hst : s.started_expanding = false) (h0 : s.hash_items = 0) :
    (∀ xs : List (Nat × Nat), ∃ s', insert_run s xs = .ok s' ∧
      s'.cond_signals = s.cond_signals +
        (if 3 * 2 ^ s.hashpower / 2 + 1 ≤ xs.length then 1 else 0) ∧
      s'.started_expanding = decide (3 * 2 ^ s.hashpower / 2 + 1 ≤ xs.length) ∧
      (xs.length ≤ 3 * 2 ^ s.hashpower / 2 + 1 → s'.hash_items = xs.length)) ∧
    (∀ t it hv t', assoc_insert t it hv = .ok t' →
      t.started_expanding = true ∨ t.expanding = true →
      t'.cond_signals = t.cond_signals ∧ t'.started_expanding = t.started_expanding) ∧
    (∀ t p, (assoc_expand t p).cond_signals = t.cond_signals ∧
      (assoc_expand t p).started_expanding = t.started_expanding) ∧
    (∀ (hash : List Nat → Nat) fuel t t', migrate_bucket hash fuel t = .ok t' →
      t'.cond_signals = t.cond_signals ∧ t'.started_expanding = t.started_expanding) ∧
    (∀ fuel t key hv t', assoc_delete fuel t key hv = .ok t' →
      t'.cond_signals = t.cond_signals ∧ t'.started_expanding = t.started_expanding) := by
  refine ⟨fun xs => ?_, ?_, assoc_expand_signal, ?_, ?_⟩
  · obtain ⟨s', h1, h2, h3, h4⟩ := insert_run_below xs s hs hp he hst (by rw [h0]; exact Nat.zero_le _)
    rw [h0, Nat.zero_add] at h2 h3 h4
    refine ⟨s', h1, ?_, ?_, ?_⟩
    · rw [h3]; congr 1
    · rw [h2]; congr 1
    · exact h4
  · intro t it hv t' hins hor
    have := (assoc_insert_signal hins).2 (fun hh => by
      rcases hor with h | h
      · have := hh.2.2; rw [h] at this; cases this
      · have := hh.1; rw [h] at this; cases this)
    exact ⟨this.2, this.1⟩
  · intro hash fuel t t' h
    obtain ⟨-, -, -, -, -, h1, h2, -⟩ := migrate_bucket_cases h
    exact ⟨h2, h1⟩
  · intro fuel t key hv t' h
    have hg := assoc_delete_frame h
    exact ⟨hg.cond_signals, hg.started_expanding⟩

/-- Witness for C8: size 4; six inserts signal nothing, the seventh signals, the eighth
signals nothing more. -/
theorem resize_request_threshold_witness :
    Allocated (ex_init 2) ∧ (ex_init 2).hashpower ≤ 31 ∧
    (∃ s6 s7 s8, insert_run (ex_init 2) (ex_items 6) = .ok s6 ∧ s6.cond_signals = 0 ∧
      insert_run (ex_init 2) (ex_items 7) = .ok s7 ∧ s7.cond_signals = 1 ∧
      s7.hash_items = 7 ∧
      insert_run (ex_init 2) (ex_items 8) = .ok s8 ∧ s8.cond_signals = 1) ∧
    ((∀ xs : List (Nat × Nat), ∃ s', insert_run (ex_init 2) xs = .ok s' ∧
      s'.cond_signals = (ex_init 2).cond_signals +
        (if 3 * 2 ^ (ex_init 2).hashpower / 2 + 1 ≤ xs.length then 1 else 0) ∧
      s'.started_expanding = decide (3 * 2 ^ (ex_init 2).hashpower / 2 + 1 ≤ xs.length) ∧
      (xs.length ≤ 3 * 2 ^ (ex_init 2).hashpower / 2 + 1 → s'.hash_items = xs.length)) ∧
    (∀ t it hv t', assoc_insert t it hv = .ok t' →
      t.started_expanding = true ∨ t.expanding = true →
      t'.cond_signals = t.cond_signals ∧ t'.started_expanding = t.started_expanding) ∧
    (∀ t p, (assoc_expand t p).cond_signals = t.cond_signals ∧
      (assoc_expand t p).started_expanding = t.started_expanding) ∧
    (∀ (hash : List Nat → Nat) fuel t t', migrate_bucket hash fuel t = .ok t' →
      t'.cond_signals = t.cond_signals ∧ t'.started_expanding = t.started_expanding) ∧
    (∀ fuel t key hv t', assoc_delete fuel t key hv = .ok t' →
      t'.cond_signals = t.cond_signals ∧ t'.started_expanding = t.started_expanding)) :=
  ⟨ex_init_allocated, by decide, ⟨_, _, _, rfl, rfl, rfl, rfl, rfl, rfl, rfl⟩,
    resize_request_threshold (ex_init 2) ex_init_allocated (by decide) rfl rfl rfl⟩

theorem ex_init_32_allocated : Allocated (ex_init 32) where
  power_le := by decide
  items_lt := by decide
  prim := ⟨1, _, rfl, rfl, rfl⟩
  power_pos := fun h => absurd h (by decide)
  frontier := fun h => absurd h (by decide)
  old := fun h => absurd h (by decide)
  sep := fun h => absurd h (by decide)

/-- At power 32 the threshold is above every value of the 32-bit `hash_items`: no run of
inserts requests a resize. -/
theorem insert_run_never (xs : List (Nat × Nat)) :
    ∀ s, Allocated s → s.hashpower = 32 → s.expanding = false → s.started_expanding = false →
      ∃ s', insert_run s xs = .ok s' ∧ s'.started_expanding = false ∧
        s'.cond_signals = s.cond_signals := by
  induction xs with
  | nil => intro s _ _ _ hst; exact ⟨s, rfl, hst, rfl⟩
  | cons x xs ih =>
    intro s hs hp he hst
    obtain ⟨-, -, s1, -, -, h1, -, -⟩ := hs.insert_ok x.1 x.2
    have hf := assoc_insert_frame h1
    have hsig := (assoc_insert_signal h1).2 (fun hh => by
      have h2 := hh.2.1
      rw [hp] at h2
      have h3 : uinc s.hash_items < 2 ^ 32 := Nat.mod_lt _ (by decide)
      have h4 : (hashsize 32 * 3) % 2 ^ 64 / 2 = 6442450944 := by decide
      omega)
    obtain ⟨s', h2, h3, h4⟩ := ih s1 (hs.insert_allocated h1) (hf.1.trans hp) (hf.2.2.2.1.trans he)
      (hsig.1.trans hst)
    refine ⟨s', ?_, h3, h4.trans hsig.2⟩
    simp only [insert_run, h1]
    exact h2

/-- Counterexample to C8 as stated: from the empty index of power 32, the run that inserts
`(3 * size) / 2 + 1` items with distinct keys signals nothing. -/
theorem no_resize_request_at_power_32 :
    (ex_init 32).hashpower = 32 ∧ (ex_init 32).hash_items = 0 ∧
    ∃ s', insert_run (ex_init 32) (ex_items (3 * 2 ^ 32 / 2 + 1)) = .ok s' ∧
      s'.started_expanding = false ∧ s'.cond_signals = 0 := by
  obtain ⟨s', h1, h2, h3⟩ := insert_run_never (ex_items (3 * 2 ^ 32 / 2 + 1)) (ex_init 32)
    ex_init_32_allocated rfl rfl rfl
  exact ⟨rfl, rfl, s', h1, h2, h3⟩

/-! ## C9: shutdown of the maintenance thread -/

set_option maxRecDepth 100000 in
/-- C9, the code at the failing input: the worker is idle in its wait over the table of
power 2, no resize was ever requested; `stop_assoc_maintenance_thread` clears the run flag and
signals; the woken worker calls `assoc_expand` before it tests the flag, and returns with
`hashpower` 3, `expanding` true and a new, empty `primary_hashtable`. -/
theorem shutdown_starts_a_resize :
    (∃ s0, maintenance_loop ex_hash 8 1 (ex_init 2) = .ok (s0, .waiting) ∧
      s0.hashpower = 2 ∧ s0.expanding = false ∧ s0.started_expanding = false ∧
      s0.primary_hashtable = some 1 ∧
      ∃ s1, maintenance_wakeup ex_hash 8 1 (stop_assoc_maintenance_thread s0) (some 2)
          = .ok (s1, .returned) ∧
        s1.hashpower = 3 ∧ s1.expanding = true ∧ s1.primary_hashtable = some 2 ∧
        s1.old_hashtable = some 1) :=
  ⟨_, rfl, rfl, rfl, rfl, rfl, _, rfl, rfl, rfl, rfl, rfl⟩

/-- After a wakeup the worker calls `assoc_expand` whatever the run flag and the request flag
are: with the run flag cleared it returns in the state `assoc_expand` produced. -/
theorem wakeup_calls_assoc_expand (hash : List Nat → Nat) (fuel n : Nat) (s : State)
    (p : Option Nat) :
    maintenance_wakeup hash fuel (n + 1) (stop_assoc_maintenance_thread s) p =
      .ok (assoc_expand (stop_assoc_maintenance_thread s) p, .returned) := by
  have h : (assoc_expand (stop_assoc_maintenance_thread s) p).do_run_maintenance_thread = 0 := by
    rcases calloc_spec (stop_assoc_maintenance_thread s).heap p
      (hashsize (uinc (stop_assoc_maintenance_thread s).hashpower)) with hc | ⟨a, -, -, -, hc⟩
    · rw [assoc_expand_fail hc]; rfl
    · rw [assoc_expand_ok hc]; rfl
  unfold maintenance_wakeup
  simp only [maintenance_loop, h, ne_eq, not_true_eq_false, if_false]

/-! ## C10: the batch size -/

theorem bulk_move_loop_idle (hash : List Nat → Nat) (fuel n : Nat) {s : State}
    (he : s.expanding = false) : bulk_move_loop hash fuel n s = .ok s := by
  cases n with
  | zero => rfl
  | succ n => simp only [bulk_move_loop, he, Bool.false_eq_true, if_false]

theorem bulk_move_loop_add (hash : List Nat → Nat) (fuel : Nat) (n m : Nat) :
    ∀ s, bulk_move_loop hash fuel (n + m) s =
      match bulk_move_loop hash fuel n s with
      | .ok s1 => bulk_move_loop hash fuel m s1
      | .error e => .error e := by
  induction n with
  | zero => intro s; simp only [Nat.zero_add, bulk_move_loop]
  | succ n ih =>
    intro s
    rw [Nat.succ_add]
    by_cases he : s.expanding = true
    · simp only [bulk_move_loop, he, if_true]
      cases hm : migrate_bucket hash fuel s with
      | error e => rfl
      | ok s1 => exact ih s1
    · have he' : s.expanding = false := by simpa using he
      rw [bulk_move_loop_idle hash fuel _ he', bulk_move_loop_idle hash fuel _ he']
      simp only
      rw [bulk_move_loop_idle hash fuel _ he']

theorem batches_eq_loop (hash : List Nat → Nat) (fuel B : Nat) (k : Nat) :
    ∀ s, batches hash fuel B k s = bulk_move_loop hash fuel (k * B) s := by
  induction k with
  | zero => intro s; simp only [batches, Nat.zero_mul, bulk_move_loop]
  | succ k ih =>
    intro s
    rw [Nat.succ_mul, Nat.add_comm (k * B) B, bulk_move_loop_add]
    show (match bulk_move_loop hash fuel B s with
      | .error e => Except.error e
      | .ok s1 => batches hash fuel B k s1) = _
    cases hb : bulk_move_loop hash fuel B s with
    | error e => rfl
    | ok s1 => exact ih s1

/-- The first `k` migration steps of a resize: `k` buckets are migrated, and the resize ends
with the step that migrates the last of the `1 << (hashpower - 1)` old buckets. -/
theorem Inv.steps {hash : List Nat → Nat} {I : List Nat} {fuel : Nat} (hf : I.length ≤ fuel)
    (k : Nat) :
    ∀ (s : State) (cp co : Nat → List Nat), Inv hash s I cp co → s.expanding = true →
      s.hashpower ≤ 31 → s.expand_bucket + k ≤ 2 ^ (s.hashpower - 1) →
      ∃ sk cp' co', Assoc.bulk_move_loop hash fuel k s = .ok sk ∧ Inv hash sk I cp' co' ∧
        sk.hashpower = s.hashpower ∧ sk.expand_bucket = s.expand_bucket + k ∧
        (sk.expanding = true ↔ s.expand_bucket + k ≠ 2 ^ (s.hashpower - 1)) := by
  induction k with
  | zero =>
    intro s cp co inv he _ _
    refine ⟨s, cp, co, rfl, inv, rfl, rfl, ?_⟩
    have := inv.frontier he
    simp only [he, Nat.add_zero, true_iff]
    omega
  | succ k ih =>
    intro s cp co inv he hp hle
    obtain ⟨s1, h1, inv1, hpow1, heb1, hexp1⟩ := inv.migrate he hp hf
    have hstep : ∀ r, Assoc.bulk_move_loop hash fuel k s1 = r →
        Assoc.bulk_move_loop hash fuel (k + 1) s = r := by
      intro r hr
      simp only [Assoc.bulk_move_loop, he, if_true, h1]
      exact hr
    by_cases hk : k = 0
    · subst hk
      refine ⟨s1, _, _, hstep _ rfl, inv1, hpow1, heb1, ?_⟩
      rw [hexp1]
    · have he1 : s1.expanding = true := hexp1.mpr (by omega)
      obtain ⟨sk, cp', co', h2, inv2, hpow2, heb2, hexp2⟩ :=
        ih s1 _ _ inv1 he1 (by rw [hpow1]; exact hp) (by rw [hpow1, heb1]; omega)
      refine ⟨sk, cp', co', hstep _ h2, inv2, hpow2.trans hpow1, ?_, ?_⟩
      · rw [heb2, heb1]; omega
      · rw [hexp2, hpow1, heb1]
        constructor <;> intro h <;> omega

/-- C10 (as amended): in every state that satisfies the index invariants, with `hashpower` at
most 31, in which a resize has just started (`expanding` true, `expand_bucket` 0), for every
batch size `B ≥ 1` the repeated batch loop reaches `expanding == false` after finitely many
batches, in the very state `s'` that batches of size 1 reach after exactly
`1 << (hashpower - 1)` bucket migrations (and not earlier); fewer bucket migrations leave
`expanding` true, and a batch does nothing once `expanding` is false. -/
theorem batch_size_irrelevant (hash : List Nat → Nat) (s : State) (I : List Nat)
    (cp co : Nat → List Nat) (inv : Inv hash s I cp co) (he : s.expanding = true)
    (h0 : s.expand_bucket = 0) (hp : s.hashpower ≤ 31) (fuel : Nat) (hf : I.length ≤ fuel)
    (B : Nat) (hB : 1 ≤ B) :
    ∃ s', batches hash fuel 1 (2 ^ (s.hashpower - 1)) s = .ok s' ∧
      s'.expanding = false ∧ s'.expand_bucket = 2 ^ (s.hashpower - 1) ∧
      (∀ k, k < 2 ^ (s.hashpower - 1) →
        ∃ sk, batches hash fuel 1 k s = .ok sk ∧ sk.expanding = true ∧ sk.expand_bucket = k) ∧
      (∃ k, batches hash fuel B k s = .ok s') ∧
      (∀ k, 2 ^ (s.hashpower - 1) ≤ k * B → batches hash fuel B k s = .ok s') ∧
      (∀ k, k * B < 2 ^ (s.hashpower - 1) →
        ∃ sk, batches hash fuel B k s = .ok sk ∧ sk.expanding = true ∧
          sk.expand_bucket = k * B) ∧
      (∀ n t, t.expanding = false → bulk_move_loop hash fuel n t = .ok t) := by
  obtain ⟨s', cp', co', h1, -, -, h2, h3⟩ :=
    Inv.steps hf (2 ^ (s.hashpower - 1)) s cp co inv he hp (by rw [h0]; omega)
  rw [h0, Nat.zero_add] at h2 h3
  have he' : s'.expanding = false := by
    cases hx : s'.expanding with
    | false => rfl
    | true => exact absurd rfl (h3.mp hx)
  have hsteps : ∀ k, k < 2 ^ (s.hashpower - 1) →
      ∃ sk, bulk_move_loop hash fuel k s = .ok sk ∧ sk.expanding = true ∧ sk.expand_bucket = k := by
    intro k hk
    obtain ⟨sk, -, -, h4, -, -, h5, h6⟩ :=
      Inv.steps hf k s cp co inv he hp (by rw [h0]; omega)
    rw [h0, Nat.zero_add] at h5 h6
    exact ⟨sk, h4, h6.mpr (by omega), h5⟩
  have hdone : ∀ k, 2 ^ (s.hashpower - 1) ≤ k * B → batches hash fuel B k s = .ok s' := by
    intro k hk
    obtain ⟨d, hd⟩ := Nat.exists_eq_add_of_le hk
    rw [batches_eq_loop, hd, bulk_move_loop_add, h1]
    exact bulk_move_loop_idle hash fuel d he'
  refine ⟨s', ?_, he', h2, ?_, ?_, hdone, ?_, fun n t ht => bulk_move_loop_idle hash fuel n ht⟩
  · rw [batches_eq_loop, Nat.mul_one]; exact h1
  · intro k hk
    rw [batches_eq_loop, Nat.mul_one]; exact hsteps k hk
  · exact ⟨2 ^ (s.hashpower - 1), hdone _ (Nat.le_mul_of_pos_right _ hB)⟩
  · intro k hk
    rw [batches_eq_loop]; exact hsteps (k * B) hk


/-- Witness for C10: the table of power 2 with the items 0, 4 and 1 at the start of its resize
to power 3, batches of 3 buckets. -/
theorem batch_size_irrelevant_witness :
    ∃ cp co, Inv ex_hash ex_resizing [1, 4, 0] cp co ∧ ex_resizing.expanding = true ∧
      ex_resizing.expand_bucket = 0 ∧ ex_resizing.hashpower ≤ 31 ∧
      ∃ s', batches ex_hash 3 1 (2 ^ (ex_resizing.hashpower - 1)) ex_resizing = .ok s' ∧
        s'.expanding = false ∧ s'.expand_bucket = 2 ^ (ex_resizing.hashpower - 1) ∧
        (∀ k, k < 2 ^ (ex_resizing.hashpower - 1) →
          ∃ sk, batches ex_hash 3 1 k ex_resizing = .ok sk ∧ sk.expanding = true ∧
            sk.expand_bucket = k) ∧
        (∃ k, batches ex_hash 3 3 k ex_resizing = .ok s') ∧
        (∀ k, 2 ^ (ex_resizing.hashpower - 1) ≤ k * 3 →
          batches ex_hash 3 3 k ex_resizing = .ok s') ∧
        (∀ k, k * 3 < 2 ^ (ex_resizing.hashpower - 1) →
          ∃ sk, batches ex_hash 3 3 k ex_resizing = .ok sk ∧ sk.expanding = true ∧
            sk.expand_bucket = k * 3) ∧
        (∀ n t, t.expanding = false → bulk_move_loop ex_hash 3 n t = .ok t) := by
  obtain ⟨cp, co, inv⟩ := ex_resizing_inv
  exact ⟨cp, co, inv, rfl, rfl, by decide,
    batch_size_irrelevant ex_hash ex_resizing [1, 4, 0] cp co inv rfl rfl (by decide) 3
      (by decide) 3 (by decide)⟩

/-! ## Powers above 32: the 32-bit `expand_bucket` -/

theorem ex_wide_start_inv : ∃ cp co, Inv ex_hash ex_wide_start [] cp co := by
  have inv0 : Inv ex_hash (ex_init 32) [] (fun _ => []) (fun _ => []) :=
    @Inv.init ex_hash ex_mem 32 (some 1) (ex_init 32) (by decide) rfl
  unfold ex_wide_start
  rcases inv0.expand rfl (some 2) with ⟨-, inv1⟩ | ⟨-, -, -, inv1⟩
  · exact ⟨_, _, inv1⟩
  · exact ⟨_, _, inv1⟩

/-- A resize to power 33 whose old table is empty: every migration step finds an empty bucket,
and the 32-bit `expand_bucket` is incremented modulo `2 ^ 32`, so it never equals
`hashsize(32)` and the resize never ends. -/
theorem migrate_empty_wide {hash : List Nat → Nat} {s : State} (hp : s.hashpower = 33)
    (he : s.expanding = true) (ho : s.old_hashtable = some 1) (hb : s.expand_bucket < 2 ^ 32)
    (hT : ∃ T, s.heap 1 = some T ∧ T.size = 2 ^ 32 ∧ ∀ i, T.slot i = none) (fuel : Nat) :
    ∃ s', migrate_bucket hash fuel s = .ok s' ∧ s'.hashpower = 33 ∧ s'.expanding = true ∧
      s'.old_hashtable = some 1 ∧ s'.expand_bucket = uinc s.expand_bucket ∧
      (∃ T, s'.heap 1 = some T ∧ T.size = 2 ^ 32 ∧ ∀ i, T.slot i = none) ∧
      s'.mem = s.mem := by
  obtain ⟨T, h1, h2, h3⟩ := hT
  have hl : load s s.old_hashtable s.expand_bucket = .ok none := by
    rw [← h3 s.expand_bucket]
    exact load_of_alloc ho h1 (by rw [h2]; exact hb)
  have hm : move_chain hash s fuel none = .ok s := by cases fuel <;> rfl
  obtain ⟨s2, hs2⟩ := store_ok_of_load hl none
  obtain ⟨a, T', ha, hT', -, hs2'⟩ := store_spec hs2
  rw [ho] at ha
  cases ha
  rw [h1] at hT'
  cases hT'
  have hne : uinc s.expand_bucket ≠ hashsize (udec 33) := by
    have h4 : uinc s.expand_bucket < 2 ^ 32 := Nat.mod_lt _ (by decide)
    have h5 : hashsize (udec 33) = 2 ^ 32 := by decide
    omega
  refine ⟨{ s2 with expand_bucket := uinc s2.expand_bucket }, ?_, ?_, ?_, ?_, ?_, ?_, ?_⟩
  · unfold migrate_bucket
    rw [hl]
    simp only
    rw [hm]
    simp only
    rw [hs2]
    simp only
    rw [if_neg]
    subst hs2'
    show ¬ uinc s.expand_bucket = hashsize (udec s.hashpower)
    rw [hp]
    exact hne
  · subst hs2'; exact hp
  · subst hs2'; exact he
  · subst hs2'; exact ho
  · subst hs2'; rfl
  · subst hs2'
    refine ⟨⟨T.size, Function.update T.slot s.expand_bucket none⟩, ?_, h2, ?_⟩
    · show Function.update s.heap 1 (some ⟨T.size, Function.update T.slot s.expand_bucket none⟩) 1 = _
      exact Function.update_same _ _ _
    intro i
    show Function.update T.slot s.expand_bucket none i = none
    by_cases hi : i = s.expand_bucket
    · rw [hi, Function.update_same]
    · rw [Function.update_noteq hi, h3]
  · subst hs2'; rfl

/-- The batch loop of such a resize is defined for every bound and leaves `expanding` true. -/
theorem bulk_move_loop_empty_wide (hash : List Nat → Nat) (fuel : Nat) (n : Nat) :
    ∀ s : State, s.hashpower = 33 → s.expanding = true → s.old_hashtable = some 1 →
      s.expand_bucket < 2 ^ 32 →
      (∃ T, s.heap 1 = some T ∧ T.size = 2 ^ 32 ∧ ∀ i, T.slot i = none) →
      ∃ s', bulk_move_loop hash fuel n s = .ok s' ∧ s'.expanding = true := by
  induction n with
  | zero => intro s _ he _ _ _; exact ⟨s, rfl, he⟩
  | succ n ih =>
    intro s hp he ho hb hT
    obtain ⟨s1, h1, hp1, he1, ho1, hb1, hT1, -⟩ := @migrate_empty_wide hash s hp he ho hb hT fuel
    obtain ⟨s', h2, he'⟩ :=
      ih s1 hp1 he1 ho1 (by rw [hb1]; exact Nat.mod_lt _ (by decide)) hT1
    refine ⟨s', ?_, he'⟩
    simp only [bulk_move_loop, he, if_true, h1]
    exact h2

/-- Counterexample to C10 as stated. At power 33: in the state after `assoc_init(32)` and a
successful `assoc_expand`, which satisfies the index invariants with `expanding` true and
`expand_bucket` 0, every number of batches of every size is defined and leaves `expanding`
true, because the 32-bit `expand_bucket` never equals `hashsize(32)`. At power 32: in the state
after `assoc_init(31)`, the insertion of an item whose key hashes to `0x80000000` and a
successful `assoc_expand`, the first batch, of any size, runs into the out-of-bounds access of
the migration loop. -/
theorem batches_fail_above_power_31 :
    ((∃ cp co, Inv ex_hash ex_wide_start [] cp co) ∧ ex_wide_start.expanding = true ∧
      ex_wide_start.expand_bucket = 0 ∧
      ∀ fuel B k, ∃ s', batches ex_hash fuel B k ex_wide_start = .ok s' ∧ s'.expanding = true) ∧
    ((∃ cp co, Inv ex_hash ex_big [2 ^ 31] cp co) ∧ ex_big.expanding = true ∧
      ex_big.expand_bucket = 0 ∧
      ∀ fuel B k, batches ex_hash (fuel + 1) (B + 1) (k + 1) ex_big = .error .undefined) := by
  refine ⟨⟨ex_wide_start_inv, rfl, rfl, fun fuel B k => ?_⟩,
    ⟨ex_big_inv, rfl, rfl, fun _ _ _ => rfl⟩⟩
  rw [batches_eq_loop]
  exact bulk_move_loop_empty_wide ex_hash fuel (k * B) ex_wide_start rfl rfl rfl (by decide)
    ⟨_, rfl, rfl, fun _ => rfl⟩

/-! ## C11: a failed allocation at the start of a resize -/

theorem calloc_fail {heap : Nat → Option table} {p : Option Nat} {n : Nat}
    (h : (calloc heap p n).2 = none) : calloc heap p n = (heap, none) := by
  rcases calloc_spec heap p n with hc | ⟨a, -, -, -, hc⟩
  · exact hc
  · rw [hc] at h
    cases h

theorem assoc_find_primary {s s' : State} (he : s.expanding = false) (he' : s'.expanding = false)
    (hp : s'.hashpower = s.hashpower) (ht : s'.primary_hashtable = s.primary_hashtable)
    (hh : s'.heap = s.heap) (hm : s'.mem = s.mem) (fuel : Nat) (key : List Nat) (hv : Nat) :
    assoc_find fuel s' key hv = assoc_find fuel s key hv := by
  have hsel : select_bucket s' hv = select_bucket s hv := by
    unfold select_bucket
    rw [he, he', hp, ht]
    simp
  have hload : ∀ t i, load s' t i = load s t i := fun t i => load_congr_heap hh t i
  have hloop : ∀ (n : Nat) (h : Option Nat), find_loop s' key n h = find_loop s key n h := by
    intro n
    induction n with
    | zero => intro h; cases h <;> rfl
    | succ n ih =>
      intro h
      cases h with
      | none => rfl
      | some a =>
        simp only [find_loop]
        rw [hm, ih]
  unfold assoc_find
  rw [hsel, hload]
  cases load s (select_bucket s hv).1 (select_bucket s hv).2 with
  | error e => rfl
  | ok it => exact hloop fuel it

/-- C11: when the `calloc` of `assoc_expand` fails, called outside a resize (`expanding`
false), the call only rewrites `old_hashtable`: `hashpower`, `expanding` (false), `hash_items`,
`expand_bucket`, the pointer `primary_hashtable`, every bucket array and every item are what
they were, so every `assoc_find` returns what it returned before, and the three statistics are
unchanged. -/
theorem expand_failure_atomic (s : State) (p : Option Nat)
    (hfail : (calloc s.heap p (hashsize (uinc s.hashpower))).2 = none)
    (he : s.expanding = false) :
    assoc_expand s p = { s with old_hashtable := s.primary_hashtable } ∧
    (assoc_expand s p).hashpower = s.hashpower ∧
    (assoc_expand s p).expanding = false ∧
    (assoc_expand s p).hash_items = s.hash_items ∧
    (assoc_expand s p).expand_bucket = s.expand_bucket ∧
    (assoc_expand s p).primary_hashtable = s.primary_hashtable ∧
    (assoc_expand s p).heap = s.heap ∧
    (assoc_expand s p).mem = s.mem ∧
    (∀ i, load (assoc_expand s p) (assoc_expand s p).primary_hashtable i
      = load s s.primary_hashtable i) ∧
    (∀ fuel key hv, assoc_find fuel (assoc_expand s p) key hv = assoc_find fuel s key hv) ∧
    (assoc_expand s p).stats_hash_power_level = s.stats_hash_power_level ∧
    (assoc_expand s p).stats_hash_bytes = s.stats_hash_bytes ∧
    (assoc_expand s p).stats_hash_is_expanding = s.stats_hash_is_expanding := by
  have h := assoc_expand_fail (calloc_fail hfail)
  rw [h]
  refine ⟨rfl, rfl, he, rfl, rfl, rfl, rfl, rfl, fun _ => rfl, ?_, rfl, rfl, rfl⟩
  intro fuel key hv
  exact @assoc_find_primary s { s with old_hashtable := s.primary_hashtable } he he rfl rfl rfl rfl
    fuel key hv

/-- Witness for C11: the table of power 2 holding item 5, and a `calloc` that returns
`NULL`. -/
theorem expand_failure_atomic_witness :
    (calloc (ex_insert (ex_init 2) 5).heap none
      (hashsize (uinc (ex_insert (ex_init 2) 5).hashpower))).2 = none ∧
    (ex_insert (ex_init 2) 5).expanding = false ∧
    assoc_find 1 (assoc_expand (ex_insert (ex_init 2) 5) none) (ex_mem 5).key 5 = .ok (some 5) ∧
    (assoc_expand (ex_insert (ex_init 2) 5) none).hashpower = 2 ∧
    (assoc_expand (ex_insert (ex_init 2) 5) none).hash_items = 1 :=
  ⟨rfl, rfl,
    ((expand_failure_atomic (ex_insert (ex_init 2) 5) none rfl rfl).2.2.2.2.2.2.2.2.2.1
      1 (ex_mem 5).key 5).trans rfl,
    (expand_failure_atomic (ex_insert (ex_init 2) 5) none rfl rfl).2.1.trans rfl,
    (expand_failure_atomic (ex_insert (ex_init 2) 5) none rfl rfl).2.2.2.1.trans rfl⟩

/-! ## C13: construction -/

/-- C13: `assoc_init(p)` on the initial globals, for `p` in the range where the conversion to
`unsigned int` and the shift `1 << p` are defined (`0 ≤ p < 64`), when its `calloc` succeeds:
`hashpower` is `p` if `p` is not 0 and stays `HASHPOWER_DEFAULT` (16) if it is,
`primary_hashtable` is an array of exactly `1 << hashpower` buckets, all of them `NULL`,
`hash_items` is 0, `expanding` is false, and every `assoc_find` returns `NULL`. -/
theorem init_constructs (mem : Nat → item) (p : Int) (a : Option Nat) (h0 : 0 ≤ p)
    (h64 : p < 64)
    (hc : (calloc (initial_globals mem).heap a
      (hashsize (if p ≠ 0 then to_uint p else HASHPOWER_DEFAULT))).2 ≠ none) :
    ∃ s, assoc_init (initial_globals mem) p a = some s ∧
      (p ≠ 0 → (s.hashpower : Int) = p) ∧
      (p = 0 → s.hashpower = HASHPOWER_DEFAULT ∧ s.hashpower = 16) ∧
      (∃ b T, s.primary_hashtable = some b ∧ s.heap b = some T ∧
        T.size = hashsize s.hashpower ∧ T.size = 2 ^ s.hashpower ∧ ∀ i, T.slot i = none) ∧
      (∀ i, i < 2 ^ s.hashpower → load s s.primary_hashtable i = .ok none) ∧
      s.hash_items = 0 ∧ s.expanding = false ∧
      ∀ fuel key hv, assoc_find fuel s key hv = .ok none := by
  have hlt : (if p ≠ 0 then to_uint p else HASHPOWER_DEFAULT) < 64 := by
    split
    · unfold to_uint
      omega
    · decide
  rcases calloc_spec (initial_globals mem).heap a
    (hashsize (if p ≠ 0 then to_uint p else HASHPOWER_DEFAULT)) with hf | ⟨b, -, hsz, -, hok⟩
  · rw [hf] at hc
    exact absurd rfl hc
  · have hinit : assoc_init (initial_globals mem) p a = some
        { initial_globals mem with
          hashpower := (if p ≠ 0 then to_uint p else HASHPOWER_DEFAULT)
          heap := Function.update (initial_globals mem).heap b
            (some { size := hashsize (if p ≠ 0 then to_uint p else HASHPOWER_DEFAULT),
                    slot := fun _ => none })
          primary_hashtable := some b
          stats_hash_power_level := (if p ≠ 0 then to_uint p else HASHPOWER_DEFAULT)
          stats_hash_bytes :=
            (hashsize (if p ≠ 0 then to_uint p else HASHPOWER_DEFAULT) * 8) % 2 ^ 64 } := by
      unfold assoc_init
      simp only
      have hok' : calloc (initial_globals mem).heap a
          (hashsize (if p ≠ 0 then to_uint p else (initial_globals mem).hashpower)) = _ := hok
      rw [hok']
      rfl
    refine ⟨_, hinit, ?_, ?_, ?_, ?_, rfl, rfl, ?_⟩
    · intro hp
      show (((if p ≠ 0 then to_uint p else HASHPOWER_DEFAULT : Nat)) : Int) = p
      rw [if_pos hp]
      unfold to_uint
      omega
    · intro hp
      have : (if p ≠ 0 then to_uint p else HASHPOWER_DEFAULT) = HASHPOWER_DEFAULT := by
        rw [if_neg (by simpa using hp)]
      exact ⟨this, this⟩
    · exact ⟨b, _, rfl, Function.update_same _ _ _, rfl, hashsize_eq hlt, fun _ => rfl⟩
    · intro i hi
      apply load_fresh rfl
      rw [hashsize_eq hlt]
      exact hi
    · intro fuel key hv
      have hidx : (hv % 2 ^ 32 &&& hashmask (if p ≠ 0 then to_uint p else HASHPOWER_DEFAULT))
          < hashsize (if p ≠ 0 then to_uint p else HASHPOWER_DEFAULT) := by
        rw [land_hashmask hlt, hashsize_eq hlt]
        exact Nat.mod_lt _ (Nat.pos_pow_of_pos _ (by decide))
      unfold assoc_find
      have hsel : select_bucket
          { initial_globals mem with
            hashpower := (if p ≠ 0 then to_uint p else HASHPOWER_DEFAULT)
            heap := Function.update (initial_globals mem).heap b
              (some { size := hashsize (if p ≠ 0 then to_uint p else HASHPOWER_DEFAULT),
                      slot := fun _ => none })
            primary_hashtable := some b
            stats_hash_power_level := (if p ≠ 0 then to_uint p else HASHPOWER_DEFAULT)
            stats_hash_bytes :=
              (hashsize (if p ≠ 0 then to_uint p else HASHPOWER_DEFAULT) * 8) % 2 ^ 64 } hv
          = (some b, hv % 2 ^ 32 &&& hashmask (if p ≠ 0 then to_uint p else HASHPOWER_DEFAULT)) := by
        unfold select_bucket
        rw [if_neg]
        intro h
        have h1 : (false : Bool) = true := h.1
        cases h1
      rw [hsel]
      simp only
      rw [load_fresh rfl hidx]
      cases fuel <;> rfl

/-- Witness for C13: `assoc_init(2)` with a `calloc` that returns the address 1. -/
theorem init_constructs_witness :
    (0 : Int) ≤ 2 ∧ (2 : Int) < 64 ∧
    ∃ s, assoc_init (initial_globals ex_mem) 2 (some 1) = some s ∧
      ((2 : Int) ≠ 0 → (s.hashpower : Int) = 2) ∧
      ((2 : Int) = 0 → s.hashpower = HASHPOWER_DEFAULT ∧ s.hashpower = 16) ∧
      (∃ b T, s.primary_hashtable = some b ∧ s.heap b = some T ∧
        T.size = hashsize s.hashpower ∧ T.size = 2 ^ s.hashpower ∧ ∀ i, T.slot i = none) ∧
      (∀ i, i < 2 ^ s.hashpower → load s s.primary_hashtable i = .ok none) ∧
      s.hash_items = 0 ∧ s.expanding = false ∧
      ∀ fuel key hv, assoc_find fuel s key hv = .ok none :=
  ⟨by decide, by decide,
    init_constructs ex_mem 2 (some 1) (by decide) (by decide) (by decide)⟩

/-! ## Table sizes along a run -/

theorem keeps_arrays_self (s : State) : KeepsArrays s s := fun _ T h => ⟨T, h, rfl⟩

theorem keeps_arrays_trans {s1 s2 s3 : State} (h1 : KeepsArrays s1 s2) (h2 : KeepsArrays s2 s3) :
    KeepsArrays s1 s3 := by
  intro a T ha
  obtain ⟨T2, h3, h4⟩ := h1 a T ha
  obtain ⟨T3, h5, h6⟩ := h2 a T2 h3
  exact ⟨T3, h5, h6.trans h4⟩

theorem keeps_arrays_of_heap {s s' : State} (h : s'.heap = s.heap) : KeepsArrays s s' :=
  fun _ T ha => ⟨T, by rw [h]; exact ha, rfl⟩

theorem store_keeps_arrays {s s' : State} {t : Option Nat} {i : Nat} {v : Option Nat}
    (hs : store s t i v = .ok s') : KeepsArrays s s' := by
  obtain ⟨b, T, -, hT, -, rfl⟩ := store_spec hs
  intro a T' ha
  by_cases hab : a = b
  · subst hab
    rw [hT] at ha
    cases ha
    exact ⟨{ T with slot := Function.update T.slot i v }, Function.update_same _ _ _, rfl⟩
  · exact ⟨T', by show Function.update s.heap b _ a = _; rw [Function.update_noteq hab]; exact ha,
      rfl⟩

theorem assoc_insert_keeps_arrays {s s' : State} {it hv : Nat}
    (h : assoc_insert s it hv = .ok s') : KeepsArrays s s' := by
  unfold assoc_insert at h
  cases hl : load s (select_bucket s hv).1 (select_bucket s hv).2 with
  | error e => rw [hl] at h; cases h
  | ok hd =>
    rw [hl] at h
    simp only at h
    cases hs : store (set_h_next s it hd) (select_bucket s hv).1 (select_bucket s hv).2 (some it) with
    | error e => rw [hs] at h; cases h
    | ok s2 =>
      rw [hs] at h
      simp only at h
      have hk : KeepsArrays s s2 :=
        keeps_arrays_trans (@keeps_arrays_of_heap s (set_h_next s it hd) rfl) (store_keeps_arrays hs)
      split at h
      · cases h
        unfold assoc_start_expand
        split <;> exact hk
      · cases h
        exact hk

/-- The link returned by `_hashitem_before` is the selected slot or the `h_next` field of an
item. -/
theorem before_loop_link {s : State} {key : List Nat} (fuel : Nat) :
    ∀ (pos pos' : link), before_loop s key fuel pos = .ok pos' →
      pos' = pos ∨ ∃ a, pos' = .field a := by
  induction fuel with
  | zero => intro pos pos' h; cases h
  | succ fuel ih =>
    intro pos pos' h
    simp only [before_loop] at h
    cases hd : pos.deref s with
    | error e => rw [hd] at h; cases h
    | ok v =>
      rw [hd] at h
      cases v with
      | none =>
        simp only at h
        cases h
        exact Or.inl rfl
      | some a =>
        simp only at h
        split at h
        · rcases ih _ _ h with h1 | h1
          · exact Or.inr ⟨a, h1⟩
          · exact Or.inr h1
        · cases h
          exact Or.inl rfl

/-- What `assoc_delete` leaves alone: the bucket arrays keep their sizes, and every slot other
than the selected one keeps its value. -/
theorem assoc_delete_slots {s s' : State} {fuel : Nat} {key : List Nat} {hv : Nat}
    (h : assoc_delete fuel s key hv = .ok s') :
    KeepsArrays s s' ∧
    ∀ t j, (t ≠ (select_bucket s hv).1 ∨ j ≠ (select_bucket s hv).2) →
      load s' t j = load s t j := by
  unfold assoc_delete at h
  cases hb : _hashitem_before fuel s key hv with
  | error e => rw [hb] at h; cases h
  | ok before =>
    rw [hb] at h
    simp only at h
    have hlink := before_loop_link fuel _ _ hb
    cases hd : before.deref s with
    | error e => rw [hd] at h; cases h
    | ok v =>
      rw [hd] at h
      cases v with
      | none =>
        cases h
        exact ⟨keeps_arrays_self _, fun _ _ _ => rfl⟩
      | some a =>
        simp only at h
        rcases hlink with h1 | ⟨b, h1⟩
        · subst h1
          have hs : store (set_h_next { s with hash_items := udec s.hash_items } a none)
              (select_bucket s hv).1 (select_bucket s hv).2
              (({ s with hash_items := udec s.hash_items } : State).mem a).h_next = .ok s' := h
          refine ⟨keeps_arrays_trans
            (@keeps_arrays_of_heap s
              (set_h_next { s with hash_items := udec s.hash_items } a none) rfl)
            (store_keeps_arrays hs), ?_⟩
          intro t j hne
          rw [load_store_other hs t j hne]
          rfl
        · subst h1
          cases h
          exact ⟨keeps_arrays_of_heap rfl, fun _ _ _ => rfl⟩

/-- What the inner loop of the migration leaves alone: the bucket arrays keep their sizes, and
every slot of an array other than the primary one keeps its value. -/
theorem move_chain_slots (hash : List Nat → Nat) (fuel : Nat) :
    ∀ (s : State) (it : Option Nat) (s' : State), move_chain hash s fuel it = .ok s' →
      KeepsArrays s s' ∧
      ∀ t j, t ≠ s.primary_hashtable → load s' t j = load s t j := by
  induction fuel with
  | zero =>
    intro s it s' h
    cases it with
    | none => cases h; exact ⟨keeps_arrays_self _, fun _ _ _ => rfl⟩
    | some a => cases h
  | succ fuel ih =>
    intro s it s' h
    cases it with
    | none => cases h; exact ⟨keeps_arrays_self _, fun _ _ _ => rfl⟩
    | some a =>
      simp only [move_chain] at h
      split at h
      · cases h
      · cases hl : load s s.primary_hashtable
            (to_int (hash (s.mem a).key % 2 ^ 32 &&& hashmask s.hashpower)).toNat with
        | error e => rw [hl] at h; cases h
        | ok hd =>
          rw [hl] at h
          simp only at h
          cases hs : store (set_h_next s a hd) s.primary_hashtable
              (to_int (hash (s.mem a).key % 2 ^ 32 &&& hashmask s.hashpower)).toNat (some a) with
          | error e => rw [hs] at h; cases h
          | ok s1 =>
            rw [hs] at h
            simp only at h
            obtain ⟨h1, h2⟩ := ih _ _ _ h
            have hprim : s1.primary_hashtable = s.primary_hashtable := (store_fields hs).2.2.1
            refine ⟨keeps_arrays_trans
              (keeps_arrays_trans (@keeps_arrays_of_heap s (set_h_next s a hd) rfl)
                (store_keeps_arrays hs)) h1, ?_⟩
            intro t j hne
            rw [h2 t j (by rw [hprim]; exact hne), load_store_other hs t j (Or.inl hne)]
            rfl

/-- A state that agrees with a well-formed state on the globals of the layout and keeps its
arrays is well-formed. -/
theorem Allocated.of_frame {s s' : State} (hs : Allocated s) (hk : KeepsArrays s s')
    (h1 : s'.hashpower = s.hashpower) (h2 : s'.primary_hashtable = s.primary_hashtable)
    (h3 : s'.old_hashtable = s.old_hashtable) (h4 : s'.expanding = s.expanding)
    (h5 : s'.expanding = true → s'.expand_bucket < 2 ^ (s'.hashpower - 1))
    (h6 : s'.hash_items < 2 ^ 32) : Allocated s' where
  power_le := by rw [h1]; exact hs.power_le
  items_lt := h6
  prim := by
    obtain ⟨a, T, p1, p2, p3⟩ := hs.prim
    obtain ⟨T', p4, p5⟩ := hk a T p2
    exact ⟨a, T', by rw [h2]; exact p1, p4, by rw [p5, p3, h1]⟩
  power_pos := by rw [h1, h4]; exact hs.power_pos
  frontier := h5
  old := by
    intro he
    rw [h4] at he
    obtain ⟨a, T, p1, p2, p3⟩ := hs.old he
    obtain ⟨T', p4, p5⟩ := hk a T p2
    exact ⟨a, T', by rw [h3]; exact p1, p4, by rw [p5, p3, h1]⟩
  sep := by rw [h2, h3, h4]; exact hs.sep

theorem assoc_delete_count {s s' : State} {fuel : Nat} {key : List Nat} {hv : Nat}
    (h : assoc_delete fuel s key hv = .ok s') :
    s'.hash_items = s.hash_items ∨ s'.hash_items = udec s.hash_items := by
  unfold assoc_delete at h
  cases hb : _hashitem_before fuel s key hv with
  | error e => rw [hb] at h; cases h
  | ok before =>
    rw [hb] at h
    simp only at h
    cases hd : before.deref s with
    | error e => rw [hd] at h; cases h
    | ok v =>
      rw [hd] at h
      cases v with
      | none => cases h; exact Or.inl rfl
      | some a =>
        simp only at h
        cases before with
        | slot t i => exact Or.inr ((store_fields h).2.2.2.2.1.trans rfl)
        | field b => cases h; exact Or.inr rfl

theorem Allocated.delete_allocated {s s' : State} (hs : Allocated s) {fuel : Nat}
    {key : List Nat} {hv : Nat} (h : assoc_delete fuel s key hv = .ok s') : Allocated s' := by
  have hg := assoc_delete_frame h
  refine hs.of_frame (assoc_delete_slots h).1 hg.hashpower hg.primary_hashtable hg.old_hashtable
    hg.expanding
    (fun he => by rw [hg.expand_bucket, hg.hashpower]; exact hs.frontier (hg.expanding ▸ he)) ?_
  rcases assoc_delete_count h with hc | hc
  · rw [hc]; exact hs.items_lt
  · rw [hc]; exact Nat.mod_lt _ (by decide)

/-- The three steps of one pass of the migration loop, and the heap it leaves. -/
theorem migrate_bucket_heap {hash : List Nat → Nat} {fuel : Nat} {s s' : State}
    (h : migrate_bucket hash fuel s = .ok s') :
    ∃ hd s1 s2, load s s.old_hashtable s.expand_bucket = .ok hd ∧
      move_chain hash s fuel hd = .ok s1 ∧
      store s1 s1.old_hashtable s1.expand_bucket none = .ok s2 ∧
      s'.mem = s2.mem ∧
      ((s'.expanding = s.expanding ∧ s'.heap = s2.heap) ∨
       (s'.expanding = false ∧ s'.heap = free s2.heap s2.old_hashtable)) := by
  unfold migrate_bucket at h
  cases hl : load s s.old_hashtable s.expand_bucket with
  | error e => rw [hl] at h; cases h
  | ok hd =>
    rw [hl] at h
    simp only at h
    cases hm : move_chain hash s fuel hd with
    | error e => rw [hm] at h; cases h
    | ok s1 =>
      rw [hm] at h
      simp only at h
      cases hs : store s1 s1.old_hashtable s1.expand_bucket none with
      | error e => rw [hs] at h; cases h
      | ok s2 =>
        rw [hs] at h
        simp only at h
        obtain ⟨g1, -, -⟩ := move_chain_globals hash fuel _ _ _ hm
        have g2 := store_globals hs
        split at h
        · cases h
          exact ⟨hd, s1, s2, rfl, hm, hs, rfl, Or.inr ⟨rfl, rfl⟩⟩
        · cases h
          exact ⟨hd, s1, s2, rfl, hm, hs, rfl, Or.inl ⟨g2.expanding.trans g1.expanding, rfl⟩⟩

/-- One pass of the migration loop keeps a resizing state well-formed, empties the bucket
`expand_bucket` of the old array and leaves its other buckets as they were. -/
theorem Allocated.migrate_allocated {hash : List Nat → Nat} {fuel : Nat} {s s' : State}
    (hs : Allocated s) (he : s.expanding = true) (h : migrate_bucket hash fuel s = .ok s') :
    Allocated s' ∧
    (s'.expanding = true →
      load s' s'.old_hashtable s.expand_bucket = .ok none ∧
      ∀ j, j ≠ s.expand_bucket → load s' s'.old_hashtable j = load s s.old_hashtable j) := by
  obtain ⟨c1, c2, c3, c4, c5, -, -, -, -, c6⟩ := migrate_bucket_cases h
  obtain ⟨hd, s1, s2, hl, hm, hst, -, hheap⟩ := migrate_bucket_heap h
  obtain ⟨k1, l1⟩ := move_chain_slots hash fuel _ _ _ hm
  obtain ⟨g1, -, -⟩ := move_chain_globals hash fuel _ _ _ hm
  have k2 := store_keeps_arrays hst
  have k : KeepsArrays s s2 := keeps_arrays_trans k1 k2
  have hpos := hs.power_pos he
  have hpl := hs.power_le
  have hsize : hashsize (udec s.hashpower) = 2 ^ (s.hashpower - 1) := by
    rw [udec_pos hpos (by omega), hashsize_eq (by omega)]
  have hfr := hs.frontier he
  have hsep := hs.sep he
  rcases c6 with ⟨-, hfalse, -⟩ | ⟨hne, hexp⟩
  · -- the last bucket: the old array is freed
    have hheap' : s'.heap = free s2.heap s2.old_hashtable := by
      rcases hheap with ⟨h1, -⟩ | ⟨-, h2⟩
      · rw [he] at h1
        rw [hfalse] at h1
        cases h1
      · exact h2
    refine ⟨?_, fun h1 => absurd h1 (by rw [hfalse]; decide)⟩
    refine
      { power_le := by rw [c1]; exact hpl
        items_lt := by rw [c5]; exact hs.items_lt
        prim := ?_
        power_pos := fun h1 => absurd h1 (by rw [hfalse]; decide)
        frontier := fun h1 => absurd h1 (by rw [hfalse]; decide)
        old := fun h1 => absurd h1 (by rw [hfalse]; decide)
        sep := fun h1 => absurd h1 (by rw [hfalse]; decide) }
    obtain ⟨a, T, p1, p2, p3⟩ := hs.prim
    obtain ⟨b, Tb, q1, q2, q3⟩ := hs.old he
    obtain ⟨T', p4, p5⟩ := k a T p2
    have hab : a ≠ b := by
      rintro rfl
      exact hsep (q1.trans p1.symm)
    have hold2 : s2.old_hashtable = some b :=
      ((store_globals hst).old_hashtable.trans g1.old_hashtable).trans q1
    refine ⟨a, T', by rw [c2]; exact p1, ?_, by rw [p5, p3, c1]⟩
    rw [hheap', hold2]
    show Function.update s2.heap b none a = some T'
    rw [Function.update_noteq hab]
    exact p4
  · -- the resize goes on
    have hheap' : s'.heap = s2.heap := by
      rcases hheap with ⟨-, h1⟩ | ⟨h2, -⟩
      · exact h1
      · rw [hexp, he] at h2
        cases h2
    have hlt : uinc s.expand_bucket < 2 ^ (s.hashpower - 1) := by
      rw [hsize] at hne
      have h2 : uinc s.expand_bucket ≤ s.expand_bucket + 1 := Nat.mod_le _ _
      omega
    constructor
    · exact hs.of_frame (keeps_arrays_trans k (keeps_arrays_of_heap hheap')) c1 c2 c3 hexp
        (fun _ => by rw [c4, c1]; exact hlt) (by rw [c5]; exact hs.items_lt)
    · intro _
      have ho1 : s1.old_hashtable = s.old_hashtable := g1.old_hashtable
      have he1 : s1.expand_bucket = s.expand_bucket := g1.expand_bucket
      rw [ho1, he1] at hst
      constructor
      · rw [c3, load_congr_heap hheap']
        exact load_store_same hst
      · intro j hj
        rw [c3, load_congr_heap hheap', load_store_other hst _ _ (Or.inr hj)]
        exact l1 _ _ hsep

theorem Allocated.init_allocated {mem : Nat → item} {hashtable_init : Int} {p : Option Nat}
    {s : State}
    (h64 : (if hashtable_init ≠ 0 then to_uint hashtable_init else HASHPOWER_DEFAULT) < 64)
    (hi : assoc_init (initial_globals mem) hashtable_init p = some s) :
    Allocated s ∧ s.expanding = false := by
  unfold assoc_init at hi
  simp only at hi
  rcases calloc_spec (initial_globals mem).heap p
    (hashsize (if hashtable_init ≠ 0 then to_uint hashtable_init
      else (initial_globals mem).hashpower)) with hc | ⟨a, -, hsz, -, hc⟩
  · rw [hc] at hi
    simp at hi
  · rw [hc] at hi
    simp only [Option.some.injEq] at hi
    subst hi
    have hp := pow_bound h64 hsz
    have h64' : (if hashtable_init ≠ 0 then to_uint hashtable_init
      else (initial_globals mem).hashpower) < 64 := h64
    refine ⟨
      { power_le := hp
        items_lt := by show (0 : Nat) < 2 ^ 32; decide
        prim := ⟨a, _, rfl, Function.update_same _ _ _, hashsize_eq h64'⟩
        power_pos := by intro h; cases h
        frontier := by intro h; cases h
        old := by intro h; cases h
        sep := by intro h; cases h }, rfl⟩

/-- A call of `assoc_expand` outside a resize keeps the state well-formed; when its `calloc`
succeeds the resize starts at bucket 0. -/
theorem Allocated.expand_allocated {s : State} (hs : Allocated s) (he : s.expanding = false)
    (p : Option Nat) :
    Allocated (assoc_expand s p) ∧
    ((assoc_expand s p).expanding = true → (assoc_expand s p).expand_bucket = 0) := by
  rcases calloc_spec s.heap p (hashsize (uinc s.hashpower)) with hc | ⟨a, -, hsz, hfree, hc⟩
  · rw [assoc_expand_fail hc]
    have hfalse : ∀ {P : Prop}, ({ s with old_hashtable := s.primary_hashtable } : State).expanding
        = true → P := by
      intro P h
      have h1 : s.expanding = true := h
      rw [he] at h1
      cases h1
    exact ⟨
      { power_le := hs.power_le
        items_lt := hs.items_lt
        prim := hs.prim
        power_pos := fun h => hfalse h
        frontier := fun h => hfalse h
        old := fun h => hfalse h
        sep := fun h => hfalse h }, fun h => hfalse h⟩
  · rw [assoc_expand_ok hc]
    have hpl := hs.power_le
    have hu : uinc s.hashpower = s.hashpower + 1 := uinc_lt (by omega)
    have hp1 : s.hashpower + 1 ≤ 60 := by
      rw [hu] at hsz
      exact pow_bound (by omega) hsz
    obtain ⟨b, T, p1, p2, p3⟩ := hs.prim
    have hab : b ≠ a := by
      rintro rfl
      rw [hfree] at p2
      cases p2
    refine ⟨
      { power_le := by show uinc s.hashpower ≤ 60; rw [hu]; exact hp1
        items_lt := hs.items_lt
        prim := ⟨a, _, rfl, Function.update_same _ _ _, by
          show hashsize (uinc s.hashpower) = 2 ^ uinc s.hashpower
          rw [hu]
          exact hashsize_eq (by omega)⟩
        power_pos := fun _ => by show 0 < uinc s.hashpower; rw [hu]; omega
        frontier := fun _ => by
          show 0 < 2 ^ (uinc s.hashpower - 1)
          exact Nat.pos_pow_of_pos _ (by decide)
        old := fun _ => ⟨b, T, p1, by
          show Function.update s.heap a _ b = some T
          rw [Function.update_noteq hab]
          exact p2, by
          show T.size = 2 ^ (uinc s.hashpower - 1)
          rw [hu, p3]
          rfl⟩
        sep := fun _ => by
          show s.primary_hashtable ≠ some a
          rw [p1]
          intro h
          cases h
          exact hab rfl }, fun _ => rfl⟩

theorem select_bucket_not_migrated {s : State} (hs : Allocated s) (he : s.expanding = true)
    (hv : Nat) {j : Nat} (hj : j < s.expand_bucket) :
    s.old_hashtable ≠ (select_bucket s hv).1 ∨ j ≠ (select_bucket s hv).2 := by
  unfold select_bucket
  split
  · rename_i h
    right
    have := h.2
    show j ≠ (hv % 2 ^ 32 &&& hashmask (udec s.hashpower)) % 2 ^ 32
    omega
  · left
    exact hs.sep he

/-- No `assoc_insert` links an item into an old bucket that was already migrated. -/
theorem MigratedEmpty.after_insert {s s' : State} (hs : Allocated s) (hm : MigratedEmpty s)
    {it hv : Nat} (h : assoc_insert s it hv = .ok s') : MigratedEmpty s' := by
  have hf := assoc_insert_frame h
  obtain ⟨hd, s2, s'', hl, hst, hres, hlay, -⟩ := hs.insert_ok it hv
  rw [h] at hres
  cases hres
  intro he j hj
  rw [hf.2.2.2.1] at he
  rw [hf.2.2.2.2.1] at hj
  rw [hf.2.2.1, hlay.load_eq, load_store_other hst _ _ (select_bucket_not_migrated hs he hv hj)]
  exact hm he j hj

theorem MigratedEmpty.after_delete {s s' : State} (hs : Allocated s) (hm : MigratedEmpty s)
    {fuel : Nat} {key : List Nat} {hv : Nat} (h : assoc_delete fuel s key hv = .ok s') :
    MigratedEmpty s' := by
  have hg := assoc_delete_frame h
  intro he j hj
  rw [hg.expanding] at he
  rw [hg.expand_bucket] at hj
  rw [hg.old_hashtable, (assoc_delete_slots h).2 _ _ (select_bucket_not_migrated hs he hv hj)]
  exact hm he j hj

theorem MigratedEmpty.after_migrate {hash : List Nat → Nat} {fuel : Nat} {s s' : State}
    (hs : Allocated s) (hm : MigratedEmpty s) (he : s.expanding = true)
    (h : migrate_bucket hash fuel s = .ok s') : MigratedEmpty s' := by
  obtain ⟨-, h2⟩ := hs.migrate_allocated he h
  have hc := (migrate_bucket_cases h).2.2.2.1
  intro he' j hj
  obtain ⟨h3, h4⟩ := h2 he'
  rw [hc] at hj
  have hle : uinc s.expand_bucket ≤ s.expand_bucket + 1 := Nat.mod_le _ _
  by_cases hjb : j = s.expand_bucket
  · rw [hjb]
    exact h3
  · rw [h4 j hjb]
    exact hm he j (by omega)

/-- Every state of a run is well-formed, and during a resize the old buckets below
`expand_bucket` are empty. -/
theorem Reach.allocated {hash : List Nat → Nat} {maxp : Nat} {r : Option State} {I : List Nat}
    (h : Reach hash maxp r I) : ∀ s, r = some s → Allocated s ∧ MigratedEmpty s := by
  induction h with
  | init mem hashtable_init p s0 hmax h64 hinit =>
    intro s hs
    cases hs
    obtain ⟨h1, h2⟩ := Allocated.init_allocated h64 hinit
    exact ⟨h1, fun he => absurd he (by rw [h2]; decide)⟩
  | insert s0 I it hv _ hfresh hhv ih =>
    intro s hs
    obtain ⟨h1, h2⟩ := ih s0 rfl
    have hres := toOption_eq_some hs
    exact ⟨h1.insert_allocated hres, h2.after_insert h1 hres⟩
  | delete s0 I x hv r _ hx hhv hout ih =>
    intro s hs
    obtain ⟨h1, h2⟩ := ih s0 rfl
    obtain ⟨N, hN⟩ := hout
    have h3 := (hN N (le_refl N)).2
    rw [hs] at h3
    have hres := toOption_eq_some h3
    exact ⟨h1.delete_allocated hres, h2.after_delete h1 hres⟩
  | expand s0 I p _ he hmax ih =>
    intro s hs
    cases hs
    obtain ⟨h1, h2⟩ := ih s0 rfl
    obtain ⟨h3, h4⟩ := h1.expand_allocated he p
    refine ⟨h3, fun he' j hj => ?_⟩
    rw [h4 he'] at hj
    exact absurd hj (Nat.not_lt_zero _)
  | migrate s0 I r _ he hout ih =>
    intro s hs
    obtain ⟨h1, h2⟩ := ih s0 rfl
    obtain ⟨N, hN⟩ := hout
    have h3 := (hN N (le_refl N)).2
    rw [hs] at h3
    have hres := toOption_eq_some h3
    exact ⟨(h1.migrate_allocated he hres).1, h2.after_migrate h1 he hres⟩

/-! ## C12: the power -/

/-- C12: in every state `s` of a run from `assoc_init` by valid operations: `assoc_insert`,
`assoc_delete`, a bucket-migration step and an `assoc_expand` whose `calloc` fails leave
`hashpower` as it is (`assoc_find` returns no state, it writes nothing); an `assoc_expand`
whose `calloc` succeeds increases `hashpower` by exactly 1; `primary_hashtable` has
`1 << hashpower` buckets and, whenever `expanding` is true, `old_hashtable` has
`1 << (hashpower - 1)` buckets, half as many. -/
theorem power_monotone (hash : List Nat → Nat) (maxp : Nat) (s : State) (I : List Nat)
    (h : Reach hash maxp (some s) I) :
    (∀ it hv s', assoc_insert s it hv = .ok s' → s'.hashpower = s.hashpower) ∧
    (∀ fuel key hv s', assoc_delete fuel s key hv = .ok s' → s'.hashpower = s.hashpower) ∧
    (∀ fuel s', migrate_bucket hash fuel s = .ok s' → s'.hashpower = s.hashpower) ∧
    (∀ p, (calloc s.heap p (hashsize (uinc s.hashpower))).2 = none →
      (assoc_expand s p).hashpower = s.hashpower) ∧
    (∀ p, (calloc s.heap p (hashsize (uinc s.hashpower))).2 ≠ none →
      (assoc_expand s p).hashpower = s.hashpower + 1) ∧
    (∃ a T, s.primary_hashtable = some a ∧ s.heap a = some T ∧
      T.size = hashsize s.hashpower ∧ T.size = 2 ^ s.hashpower) ∧
    (s.expanding = true →
      ∃ a T b T', s.primary_hashtable = some a ∧ s.heap a = some T ∧
        s.old_hashtable = some b ∧ s.heap b = some T' ∧
        T.size = hashsize s.hashpower ∧ T'.size = hashsize (udec s.hashpower) ∧
        T'.size = 2 ^ (s.hashpower - 1) ∧ T.size = 2 * T'.size) := by
  obtain ⟨hs, -⟩ := h.allocated s rfl
  have hpl := hs.power_le
  refine ⟨fun it hv s' h1 => (assoc_insert_frame h1).1,
    fun fuel key hv s' h1 => (assoc_delete_frame h1).hashpower,
    fun fuel s' h1 => (migrate_bucket_cases h1).1, ?_, ?_, ?_, ?_⟩
  · intro p hp
    rw [assoc_expand_fail (calloc_fail hp)]
  · intro p hp
    rcases calloc_spec s.heap p (hashsize (uinc s.hashpower)) with hc | ⟨a, -, -, -, hc⟩
    · rw [hc] at hp
      exact absurd rfl hp
    · rw [assoc_expand_ok hc]
      exact uinc_lt (by omega)
  · obtain ⟨a, T, p1, p2, p3⟩ := hs.prim
    exact ⟨a, T, p1, p2, by rw [p3, hashsize_eq (by omega)], p3⟩
  · intro he
    obtain ⟨a, T, p1, p2, p3⟩ := hs.prim
    obtain ⟨b, T', q1, q2, q3⟩ := hs.old he
    have hpos := hs.power_pos he
    refine ⟨a, T, b, T', p1, p2, q1, q2, by rw [p3, hashsize_eq (by omega)], ?_, q3, ?_⟩
    · rw [q3, udec_pos hpos (by omega), hashsize_eq (by omega)]
    · rw [p3, q3]
      obtain ⟨n, hn⟩ : ∃ n, s.hashpower = n + 1 := ⟨s.hashpower - 1, by omega⟩
      rw [hn, Nat.add_sub_cancel, pow_succ]
      omega

/-- Witness for C12: the table of power 2 with the items 0, 4 and 1 at the start of its resize
to power 3; the primary array has 8 buckets and the old one 4. -/
theorem power_monotone_witness :
    Reach ex_hash 31 (some ex_resizing) [1, 4, 0] ∧ ex_resizing.hashpower = 3 ∧
    ex_resizing.expanding = true ∧
    (∃ a T b T', ex_resizing.primary_hashtable = some a ∧ ex_resizing.heap a = some T ∧
      ex_resizing.old_hashtable = some b ∧ ex_resizing.heap b = some T' ∧
      T.size = hashsize ex_resizing.hashpower ∧ T'.size = hashsize (udec ex_resizing.hashpower) ∧
      T'.size = 2 ^ (ex_resizing.hashpower - 1) ∧ T.size = 2 * T'.size) :=
  ⟨ex_resizing_reach, rfl, rfl,
    (power_monotone ex_hash 31 ex_resizing [1, 4, 0] ex_resizing_reach).2.2.2.2.2.2 rfl⟩

/-! ## C16: the frontier -/

/-- C16: in every state of a run from `assoc_init` by valid operations in which `expanding` is
true, `expand_bucket` is below `1 << (hashpower - 1)` and every bucket of `old_hashtable` with
an index below `expand_bucket` is empty; every `assoc_insert` (of any item with any hash),
every `assoc_delete` and every bucket-migration step made in such a state leads to a state
with the same property: no insert links an item into an old bucket already migrated. -/
theorem frontier_invariant (hash : List Nat → Nat) (maxp : Nat) (s : State) (I : List Nat)
    (h : Reach hash maxp (some s) I) (he : s.expanding = true) :
    s.expand_bucket < hashsize (udec s.hashpower) ∧
    s.expand_bucket < 2 ^ (s.hashpower - 1) ∧
    (∀ j, j < s.expand_bucket → load s s.old_hashtable j = .ok none) ∧
    (∀ it hv s', assoc_insert s it hv = .ok s' →
      s'.expanding = true ∧ s'.expand_bucket = s.expand_bucket ∧
      s'.expand_bucket < hashsize (udec s'.hashpower) ∧
      ∀ j, j < s'.expand_bucket → load s' s'.old_hashtable j = .ok none) ∧
    (∀ fuel key hv s', assoc_delete fuel s key hv = .ok s' →
      s'.expanding = true ∧ s'.expand_bucket = s.expand_bucket ∧
      s'.expand_bucket < hashsize (udec s'.hashpower) ∧
      ∀ j, j < s'.expand_bucket → load s' s'.old_hashtable j = .ok none) ∧
    (∀ fuel s', migrate_bucket hash fuel s = .ok s' → s'.expanding = true →
      s'.expand_bucket < hashsize (udec s'.hashpower) ∧
      ∀ j, j < s'.expand_bucket → load s' s'.old_hashtable j = .ok none) := by
  obtain ⟨hs, hm⟩ := h.allocated s rfl
  have hsize : ∀ t : State, Allocated t → t.expanding = true →
      hashsize (udec t.hashpower) = 2 ^ (t.hashpower - 1) := by
    intro t ht hte
    have h1 := ht.power_le
    have h2 := ht.power_pos hte
    rw [udec_pos h2 (by omega), hashsize_eq (by omega)]
  refine ⟨by rw [hsize s hs he]; exact hs.frontier he, hs.frontier he, hm he, ?_, ?_, ?_⟩
  · intro it hv s' h1
    have hf := assoc_insert_frame h1
    have hs' := hs.insert_allocated h1
    have he' : s'.expanding = true := by rw [hf.2.2.2.1]; exact he
    exact ⟨he', hf.2.2.2.2.1, by rw [hsize s' hs' he']; exact hs'.frontier he',
      (hm.after_insert hs h1) he'⟩
  · intro fuel key hv s' h1
    have hg := assoc_delete_frame h1
    have hs' := hs.delete_allocated h1
    have he' : s'.expanding = true := by rw [hg.expanding]; exact he
    exact ⟨he', hg.expand_bucket, by rw [hsize s' hs' he']; exact hs'.frontier he',
      (hm.after_delete hs h1) he'⟩
  · intro fuel s' h1 he'
    have hs' := (hs.migrate_allocated he h1).1
    exact ⟨by rw [hsize s' hs' he']; exact hs'.frontier he', (hm.after_migrate hs he h1) he'⟩

theorem ex_migrated_reach : Reach ex_hash 31 (some (ex_migrate ex_resizing)) [1, 4, 0] :=
  Reach.migrate ex_resizing [1, 4, 0] _ ex_resizing_reach rfl
    (@Outcome.of_migrate ex_hash 8 ex_resizing (ex_migrate ex_resizing) rfl)

/-- Witness for C16: the table of power 2 with the items 0, 4 and 1, resized to power 3, after
the migration of old bucket 0: `expand_bucket` is 1 and old bucket 0 is empty. -/
theorem frontier_invariant_witness :
    Reach ex_hash 31 (some (ex_migrate ex_resizing)) [1, 4, 0] ∧
    (ex_migrate ex_resizing).expanding = true ∧ (ex_migrate ex_resizing).expand_bucket = 1 ∧
    (∀ j, j < (ex_migrate ex_resizing).expand_bucket →
      load (ex_migrate ex_resizing) (ex_migrate ex_resizing).old_hashtable j = .ok none) :=
  ⟨ex_migrated_reach, rfl, rfl,
    (frontier_invariant ex_hash 31 (ex_migrate ex_resizing) [1, 4, 0] ex_migrated_reach
      rfl).2.2.1⟩

/-! ## C17 and C18: `assoc_delete` -/

theorem key_matches_of_ne {key : List Nat} {it : item} (h : it.key ≠ key) :
    key_matches key it = false := by
  cases hk : key_matches key it with
  | false => rfl
  | true => exact absurd ((key_matches_iff key it).mp hk).symm h

theorem key_matches_congr (key : List Nat) {it it' : item} (h : it'.key = it.key) :
    key_matches key it' = key_matches key it := by
  unfold key_matches item.nkey
  rw [h]

theorem find_skip {p : Nat → Bool} {x : Nat} (hx : p x = false) (l1 l2 : List Nat) :
    (l1 ++ x :: l2).find? p = (l1 ++ l2).find? p := by
  induction l1 with
  | nil => simp [List.find?, hx]
  | cons a l ih =>
    simp only [List.cons_append, List.find?]
    cases p a with
    | true => rfl
    | false => exact ih

/-- C17: in every state, for every key `k` and hash `hv` such that the selected bucket heads a
chain `l1 ++ x :: l2` on which `x` is the first item with key `k`: `assoc_delete(k, hv)` returns,
the selected bucket then heads the chain `l1 ++ l2` (the other items, in their order), every
other slot of both arrays holds the pointer it held, no item off the chain is written (so every
chain that shares no item with the selected one is unchanged), no key is written, the `h_next`
of `x` is `NULL`, `hash_items` is decremented (by exactly one unless it was 0, as an
`unsigned int`), the other globals are unchanged, and `assoc_find` of any other key returns
what it returned before. -/
theorem delete_unlinks_one (s : State) (key : List Nat) (hv : Nat) (h : Option Nat)
    (l1 l2 : List Nat) (x : Nat) (fuel : Nat)
    (hl : load s (select_bucket s hv).1 (select_bucket s hv).2 = .ok h)
    (hc : IsChain s.mem h (l1 ++ x :: l2))
    (hn : ∀ a ∈ l1, (s.mem a).key ≠ key) (hx : (s.mem x).key = key)
    (hf : l1.length < fuel) :
    ∃ s' h', assoc_delete fuel s key hv = .ok s' ∧
      load s' (select_bucket s hv).1 (select_bucket s hv).2 = .ok h' ∧
      IsChain s'.mem h' (l1 ++ l2) ∧
      (∀ t j, (t ≠ (select_bucket s hv).1 ∨ j ≠ (select_bucket s hv).2) →
        load s' t j = load s t j) ∧
      (∀ a, a ∉ l1 ++ x :: l2 → s'.mem a = s.mem a) ∧
      (∀ a, (s'.mem a).key = (s.mem a).key) ∧
      (∀ h2 c, IsChain s.mem h2 c → (∀ a ∈ c, a ∉ l1 ++ x :: l2) → IsChain s'.mem h2 c) ∧
      (s'.mem x).h_next = none ∧
      s'.hash_items = udec s.hash_items ∧
      (0 < s.hash_items → s.hash_items < 2 ^ 32 → s'.hash_items = s.hash_items - 1) ∧
      SameGlobals s s' ∧
      (∀ key' hv' h2 c, key' ≠ key →
        load s (select_bucket s hv').1 (select_bucket s hv').2 = .ok h2 → IsChain s.mem h2 c →
        (select_bucket s hv' ≠ select_bucket s hv → ∀ a ∈ c, a ∉ l1 ++ x :: l2) →
        ∀ fuel', c.length ≤ fuel' →
          assoc_find fuel' s' key' hv' = assoc_find fuel' s key' hv') := by
  have hn' : ∀ a ∈ l1, key_matches key (s.mem a) = false := fun a ha => key_matches_of_ne (hn a ha)
  have hx' : key_matches key (s.mem x) = true := (key_matches_iff _ _).mpr hx.symm
  obtain ⟨s', h', hres, hload, hchain, hother, hmem, hkey, hnext, hcount, hglob⟩ :=
    assoc_delete_spec hl hc hn' hx' hf
  have hframe : ∀ h2 c, IsChain s.mem h2 c → (∀ a ∈ c, a ∉ l1 ++ x :: l2) →
      IsChain s'.mem h2 c := by
    intro h2 c hc2 hdis
    exact (IsChain.congr_mem (fun a ha => hmem a (hdis a ha))).mpr hc2
  refine ⟨s', h', hres, hload, hchain, hother, hmem, hkey, hframe, hnext, hcount, ?_, hglob, ?_⟩
  · intro h0 h32
    rw [hcount]
    exact udec_pos h0 h32
  · intro key' hv' h2 c hne hl2 hc2 hdis fuel' hlen
    have hsel : select_bucket s' hv' = select_bucket s hv' :=
      select_bucket_congr hglob.hashpower hglob.primary_hashtable hglob.old_hashtable
        hglob.expanding hglob.expand_bucket hv'
    have hpred : (fun a => key_matches key' (s'.mem a)) = (fun a => key_matches key' (s.mem a)) := by
      funext a
      exact key_matches_congr key' (hkey a)
    unfold assoc_find
    rw [hsel, hl2]
    simp only
    rw [find_loop_chain hc2 fuel' hlen]
    by_cases hsame : select_bucket s hv' = select_bucket s hv
    · rw [hsame] at hl2 ⊢
      rw [hl] at hl2
      cases hl2
      have hcc := IsChain.unique hc hc2
      subst hcc
      rw [hload]
      simp only
      rw [find_loop_chain hchain fuel' (by
        simp only [List.length_append, List.length_cons] at hlen ⊢
        omega), hpred]
      have hxk : key_matches key' (s.mem x) = false :=
        key_matches_of_ne (by rw [hx]; exact fun h => hne h.symm)
      rw [find_skip hxk]
    · have hne2 : (select_bucket s hv').1 ≠ (select_bucket s hv).1 ∨
          (select_bucket s hv').2 ≠ (select_bucket s hv).2 := by
        by_contra hcon
        push_neg at hcon
        exact hsame (Prod.ext hcon.1 hcon.2)
      rw [hother _ _ hne2, hl2]
      simp only
      rw [find_loop_chain (hframe h2 c hc2 (hdis hsame)) fuel' hlen, hpred]

/-- C18: in every state, for every key `k` and hash `hv` such that the chain of the selected
bucket holds no item with key `k`, `assoc_delete(k, hv)` finds `*before == 0`, which is the
path of its `assert`, and leaves the state as it was: no write to `hash_items`, to a bucket or
to an item. -/
theorem delete_absent_unchanged (s : State) (key : List Nat) (hv : Nat) (h : Option Nat)
    (l : List Nat) (fuel : Nat)
    (hl : load s (select_bucket s hv).1 (select_bucket s hv).2 = .ok h)
    (hc : IsChain s.mem h l) (hn : ∀ a ∈ l, (s.mem a).key ≠ key) (hf : l.length < fuel) :
    assoc_delete_found fuel s key hv = .ok false ∧ assoc_delete fuel s key hv = .ok s := by
  have hn' : ∀ a ∈ l, key_matches key (s.mem a) = false := fun a ha => key_matches_of_ne (hn a ha)
  obtain ⟨pos', h1, h2⟩ :=
    before_loop_absent l (.slot (select_bucket s hv).1 (select_bucket s hv).2) h fuel hl hc hn' hf
  have hb : _hashitem_before fuel s key hv = .ok pos' := h1
  constructor
  · unfold assoc_delete_found
    rw [hb]
    simp only
    rw [h2]
    rfl
  · unfold assoc_delete
    rw [hb]
    simp only
    rw [h2]

theorem ex_pair_chain :
    load (ex_insert (ex_insert (ex_init 2) 0) 4)
      (select_bucket (ex_insert (ex_insert (ex_init 2) 0) 4) 0).1
      (select_bucket (ex_insert (ex_insert (ex_init 2) 0) 4) 0).2 = .ok (some 4) ∧
    IsChain (ex_insert (ex_insert (ex_init 2) 0) 4).mem (some 4) ([4] ++ 0 :: []) :=
  ⟨rfl, rfl, rfl, rfl⟩

/-- Witness for C17: the table of power 2 whose bucket 0 heads the chain of item 4 then item
0; the key of item 0 is deleted, item 4 stays and is still found. -/
theorem delete_unlinks_one_witness :
    ∃ s' h', assoc_delete 2 (ex_insert (ex_insert (ex_init 2) 0) 4) (ex_mem 0).key 0 = .ok s' ∧
      load s' (some 1) 0 = .ok h' ∧ IsChain s'.mem h' [4] ∧ (s'.mem 0).h_next = none ∧
      s'.hash_items = 1 ∧
      assoc_find 2 s' (ex_mem 4).key 4
        = assoc_find 2 (ex_insert (ex_insert (ex_init 2) 0) 4) (ex_mem 4).key 4 := by
  obtain ⟨s', h', h1, h2, h3, -, -, -, -, h4, h5, -, -, h6⟩ :=
    delete_unlinks_one (ex_insert (ex_insert (ex_init 2) 0) 4) (ex_mem 0).key 0 (some 4)
      [4] [] 0 2 ex_pair_chain.1 ex_pair_chain.2
      (by intro a ha; simp only [List.mem_singleton] at ha; subst ha; decide) rfl (by decide)
  exact ⟨s', h', h1, h2, h3, h4, h5.trans rfl,
    h6 (ex_mem 4).key 4 (some 4) ([4] ++ 0 :: []) (by decide) rfl ex_pair_chain.2
      (fun hne => absurd rfl hne) 2 (by decide)⟩

/-- Witness for C18: the same table; the key of item 8, which selects bucket 0 and is on no
chain, is deleted. -/
theorem delete_absent_unchanged_witness :
    assoc_delete_found 3 (ex_insert (ex_insert (ex_init 2) 0) 4) (ex_mem 8).key 8 = .ok false ∧
    assoc_delete 3 (ex_insert (ex_insert (ex_init 2) 0) 4) (ex_mem 8).key 8
      = .ok (ex_insert (ex_insert (ex_init 2) 0) 4) :=
  delete_absent_unchanged (ex_insert (ex_insert (ex_init 2) 0) 4) (ex_mem 8).key 8 (some 4)
    [4, 0] 3 rfl ⟨rfl, rfl, rfl⟩
    (by
      intro a ha
      simp only [List.mem_cons, List.mem_singleton, List.not_mem_nil, or_false] at ha
      rcases ha with rfl | rfl <;> decide)
    (by decide)

/-! ## C19: the batch size read from the environment -/

/-- What `start_assoc_maintenance_thread` stores in `hash_bulk_move`, called once after the
static initialisation: the default 1 when the variable is absent or `atoi` returns 0, and
the value returned by `atoi` otherwise, whatever its sign. -/
theorem start_sets_batch_size (s : State) (env : Option Int)
    (hd : s.hash_bulk_move = DEFAULT_HASH_BULK_MOVE) :
    (env = none → (start_assoc_maintenance_thread s env).hash_bulk_move = 1) ∧
    (env = some 0 → (start_assoc_maintenance_thread s env).hash_bulk_move = 1) ∧
    (∀ v, env = some v → v ≠ 0 → (start_assoc_maintenance_thread s env).hash_bulk_move = v) ∧
    (∀ v, env = some v → 0 ≤ v → 1 ≤ (start_assoc_maintenance_thread s env).hash_bulk_move) := by
  refine ⟨?_, ?_, ?_, ?_⟩
  · rintro rfl
    exact hd
  · rintro rfl
    rfl
  · rintro v rfl hv
    unfold start_assoc_maintenance_thread
    simp only
    rw [if_neg hv]
  · rintro v rfl hv
    unfold start_assoc_maintenance_thread
    simp only
    split
    · show (1 : Int) ≤ DEFAULT_HASH_BULK_MOVE
      decide
    · rename_i hne
      have hne' : v ≠ 0 := hne
      show 1 ≤ v
      omega

/-- A batch made with a positive `hash_bulk_move` while `expanding` is true starts with the
migration of one bucket. -/
theorem bulk_move_migrates (hash : List Nat → Nat) (fuel : Nat) (s : State)
    (hb : 1 ≤ s.hash_bulk_move) (he : s.expanding = true) :
    bulk_move hash fuel s =
      match migrate_bucket hash fuel s with
      | .error e => .error e
      | .ok s1 => bulk_move_loop hash fuel (s.hash_bulk_move.toNat - 1) s1 := by
  unfold bulk_move
  obtain ⟨n, hn⟩ : ∃ n, s.hash_bulk_move.toNat = n + 1 := ⟨s.hash_bulk_move.toNat - 1, by omega⟩
  rw [hn]
  simp only [bulk_move_loop, he, if_true, Nat.add_sub_cancel]

theorem maintenance_loop_spins (hash : List Nat → Nat) (fuel : Nat) (s : State)
    (hr : s.do_run_maintenance_thread ≠ 0) (he : s.expanding = true)
    (hb : bulk_move hash fuel s = .ok s) :
    ∀ n, maintenance_loop hash fuel n s = .error .fuel := by
  intro n
  induction n with
  | zero => rfl
  | succ n ih =>
    simp only [maintenance_loop, hr, ne_eq, not_false_eq_true, if_true, hb, he,
      Bool.not_true, Bool.false_eq_true, if_false]
    exact ih

/-- C19, failing input: with `MEMCACHED_HASH_BULK_MOVE=-1`, `start_assoc_maintenance_thread`
leaves `hash_bulk_move` at -1. In the resize started later (table of power 2 holding three
items, `assoc_expand` succeeded) a pass of the batch loop migrates no bucket and returns the
state unchanged, and the maintenance thread, with `expanding` true, neither blocks nor returns
however many times it goes round its loop. -/
theorem batch_size_not_positive :
    (start_assoc_maintenance_thread (ex_init 2) (some (-1))).hash_bulk_move = -1 ∧
    ex_negative.hash_bulk_move = -1 ∧ ex_negative.expanding = true ∧
    ex_negative.expand_bucket = 0 ∧ ex_negative.do_run_maintenance_thread = 1 ∧
    (∀ fuel, bulk_move ex_hash fuel ex_negative = .ok ex_negative) ∧
    (∀ fuel n, maintenance_loop ex_hash fuel n ex_negative = .error .fuel) :=
  ⟨rfl, rfl, rfl, rfl, rfl, fun _ => rfl,
    fun fuel => maintenance_loop_spins ex_hash fuel ex_negative (by decide) rfl rfl⟩

/-! ## C20: the bucket index of the migration loop -/

/-- Up to power 31 the index that the migration loop keeps in its `int bucket` is the index
that `assoc_find` and `assoc_insert` compute: it is not negative and below `1 << hashpower`. -/
theorem bucket_index_agrees (p : Nat) (hp : p ≤ 31) (h : Nat) :
    to_int (h % 2 ^ 32 &&& hashmask p) = ((h % 2 ^ 32 &&& hashmask p : Nat) : Int) ∧
    0 ≤ to_int (h % 2 ^ 32 &&& hashmask p) ∧
    (to_int (h % 2 ^ 32 &&& hashmask p)).toNat = h % 2 ^ 32 &&& hashmask p ∧
    h % 2 ^ 32 &&& hashmask p < 2 ^ p := by
  have hlt : h % 2 ^ 32 &&& hashmask p < 2 ^ p := by
    rw [land_hashmask (by omega)]
    exact Nat.mod_lt _ (Nat.pos_pow_of_pos _ (by decide))
  have h31 : h % 2 ^ 32 &&& hashmask p < 2 ^ 31 :=
    lt_of_lt_of_le hlt (Nat.pow_le_pow_right (by decide) hp)
  have he := to_int_small h31
  refine ⟨he, by rw [he]; exact Int.natCast_nonneg _, by rw [he]; rfl, hlt⟩

/-- Up to power 32 the 32-bit `expand_bucket` reaches `hashsize(hashpower - 1)`: the increment
of the last bucket index gives it. -/
theorem expand_bucket_reaches (p : Nat) (h1 : 1 ≤ p) (hp : p ≤ 32) :
    2 ^ (p - 1) - 1 < 2 ^ 32 ∧ uinc (2 ^ (p - 1) - 1) = hashsize (udec p) := by
  have h2 : (0 : Nat) < 2 ^ (p - 1) := Nat.pos_pow_of_pos _ (by decide)
  have h3 : 2 ^ (p - 1) ≤ 2 ^ 31 := Nat.pow_le_pow_right (by decide) (by omega)
  rw [udec_pos (by omega) (by omega), hashsize_eq (by omega)]
  unfold uinc
  constructor
  · omega
  · rw [Nat.sub_add_cancel h2]
    exact Nat.mod_eq_of_lt (by omega)

/-- C20, failing input: at `hashpower` 32, inside the range 12 to 48, for the hash
`0x80000000`, the index `h & hashmask(hashpower)` is 2147483648 in the unsigned arithmetic of
`assoc_find` and `assoc_insert` (which select the slot 2147483648 of the primary array) and
-2147483648 in the `int bucket` of the migration loop, whose inner loop then has undefined
behaviour on an item with this hash. At each `hashpower` from 33 to 48 no increment of the
32-bit `expand_bucket` gives `hashsize(hashpower - 1)`: the completion test is never true. -/
theorem bucket_index_negative_at_power_32 :
    (2 ^ 31 % 2 ^ 32 &&& hashmask 32) = 2147483648 ∧
    select_bucket (ex_init 32) (2 ^ 31) = (some 1, 2147483648) ∧
    to_int (2 ^ 31 % 2 ^ 32 &&& hashmask 32) = -2147483648 ∧
    ex_big.hashpower = 32 ∧ ex_hash (ex_big.mem (2 ^ 31)).key = 2 ^ 31 ∧
    (∀ fuel, move_chain ex_hash ex_big (fuel + 1) (some (2 ^ 31)) = .error .undefined) ∧
    (∀ k : Fin 16, ∀ eb, uinc eb ≠ hashsize (udec (33 + k))) := by
  refine ⟨by decide, rfl, by decide, rfl, by decide, fun _ => rfl, ?_⟩
  intro k eb
  have h1 : uinc eb < 2 ^ 32 := Nat.mod_lt _ (by decide)
  have h2 : udec (33 + k) = 32 + k := by
    rw [udec_pos (by omega) (by have := k.2; omega)]
    omega
  rw [h2, hashsize_eq (by have := k.2; omega)]
  have h3 : 2 ^ 32 ≤ 2 ^ (32 + (k : Nat)) := Nat.pow_le_pow_right (by decide) (by omega)
  omega

/-! ## C15: the split of a migrated bucket, up to power 31 -/

/-- Pushing the items of `l` one after the other leaves on bucket `i` the items of `l` that go
there, the last pushed first, in front of what the bucket held. -/
theorem push_all_eq (nb : Nat → Nat) (l : List Nat) :
    ∀ (c : Nat → List Nat) (i : Nat),
      push_all nb c l i = (l.filter (fun a => decide (nb a = i))).reverse ++ c i := by
  induction l with
  | nil => intro c i; rfl
  | cons a l ih =>
    intro c i
    rw [push_all_cons, ih]
    by_cases h : nb a = i
    · subst h
      rw [Function.update_same, List.filter_cons_of_pos (by simp), List.reverse_cons,
        List.append_assoc]
      rfl
    · rw [Function.update_noteq (fun h' => h h'.symm), List.filter_cons_of_neg (by simpa using h)]

theorem split_index (x p : Nat) (hp : 0 < p) :
    x % 2 ^ p = x % 2 ^ (p - 1) + 2 ^ (p - 1) * (x / 2 ^ (p - 1) % 2) := by
  obtain ⟨n, rfl⟩ : ∃ n, p = n + 1 := ⟨p - 1, by omega⟩
  rw [Nat.add_sub_cancel]
  exact Nat.mod_pow_succ

/-- The split and the order of a migrated bucket up to power 31, where the code does what C15
says: in a state with `expanding` true that satisfies the index invariants, with
`b = expand_bucket` and `S = 1 << (hashpower - 1)`, the chains of `primary_hashtable[b]` and
`primary_hashtable[b + S]` are empty; the migration step returns, and afterwards
`primary_hashtable[b]` lists the items of the old chain whose hash has bit `hashpower - 1`
clear and `primary_hashtable[b + S]` those whose hash has it set, each in the reverse of their
order on the old chain; every other primary chain and every other old chain is what it was,
and `old_hashtable[b]` is empty. -/
theorem migration_split (hash : List Nat → Nat) (s : State) (I : List Nat)
    (cp co : Nat → List Nat) (inv : Inv hash s I cp co) (he : s.expanding = true)
    (hp : s.hashpower ≤ 31) (fuel : Nat) (hf : I.length ≤ fuel) :
    cp s.expand_bucket = [] ∧ cp (s.expand_bucket + 2 ^ (s.hashpower - 1)) = [] ∧
    ∃ s' cp' co', migrate_bucket hash fuel s = .ok s' ∧ Inv hash s' I cp' co' ∧
      Heads s' s'.primary_hashtable (2 ^ s.hashpower) cp' ∧
      cp' s.expand_bucket = ((co s.expand_bucket).filter (fun a =>
        decide (hash (s.mem a).key % 2 ^ 32 / 2 ^ (s.hashpower - 1) % 2 = 0))).reverse ∧
      cp' (s.expand_bucket + 2 ^ (s.hashpower - 1)) = ((co s.expand_bucket).filter (fun a =>
        decide (hash (s.mem a).key % 2 ^ 32 / 2 ^ (s.hashpower - 1) % 2 = 1))).reverse ∧
      (∀ i, i ≠ s.expand_bucket → i ≠ s.expand_bucket + 2 ^ (s.hashpower - 1) → cp' i = cp i) ∧
      co' s.expand_bucket = [] ∧ (∀ j, j ≠ s.expand_bucket → co' j = co j) ∧
      (s'.expanding = true → load s' s'.old_hashtable s.expand_bucket = .ok none) := by
  have hb := inv.frontier he
  have h0 := inv.power_pos he
  have hS : (0 : Nat) < 2 ^ (s.hashpower - 1) := Nat.pos_pow_of_pos _ (by decide)
  have hdvd : 2 ^ (s.hashpower - 1) ∣ 2 ^ s.hashpower := pow_dvd_pow 2 (Nat.sub_le _ _)
  have hempty : ∀ i, i % 2 ^ (s.hashpower - 1) = s.expand_bucket → cp i = [] := by
    intro i hi
    apply List.eq_nil_iff_forall_not_mem.mpr
    intro a ha
    obtain ⟨-, hno, hidx⟩ := (inv.mem_p i a).mp ha
    apply hno
    refine ⟨he, ?_⟩
    have : hash (s.mem a).key % 2 ^ 32 % 2 ^ (s.hashpower - 1) = s.expand_bucket := by
      rw [← Nat.mod_mod_of_dvd _ hdvd, ← hidx]
      exact hi
    omega
  have hbit : ∀ a ∈ co s.expand_bucket,
      hash (s.mem a).key % 2 ^ 32 % 2 ^ s.hashpower = s.expand_bucket +
        2 ^ (s.hashpower - 1) * (hash (s.mem a).key % 2 ^ 32 / 2 ^ (s.hashpower - 1) % 2) := by
    intro a ha
    obtain ⟨-, -, hidx⟩ := (inv.mem_o _ a).mp ha
    rw [split_index _ _ h0, ← hidx]
  have hcase : ∀ a ∈ co s.expand_bucket,
      (hash (s.mem a).key % 2 ^ 32 / 2 ^ (s.hashpower - 1) % 2 = 0 ∧
        hash (s.mem a).key % 2 ^ 32 % 2 ^ s.hashpower = s.expand_bucket) ∨
      (hash (s.mem a).key % 2 ^ 32 / 2 ^ (s.hashpower - 1) % 2 = 1 ∧
        hash (s.mem a).key % 2 ^ 32 % 2 ^ s.hashpower =
          s.expand_bucket + 2 ^ (s.hashpower - 1)) := by
    intro a ha
    have h1 := hbit a ha
    have h2 : hash (s.mem a).key % 2 ^ 32 / 2 ^ (s.hashpower - 1) % 2 < 2 :=
      Nat.mod_lt _ (by decide)
    rcases Nat.lt_or_ge (hash (s.mem a).key % 2 ^ 32 / 2 ^ (s.hashpower - 1) % 2) 1 with h3 | h3
    · have h4 : hash (s.mem a).key % 2 ^ 32 / 2 ^ (s.hashpower - 1) % 2 = 0 := by omega
      rw [h4] at h1
      exact Or.inl ⟨h4, by omega⟩
    · have h4 : hash (s.mem a).key % 2 ^ 32 / 2 ^ (s.hashpower - 1) % 2 = 1 := by omega
      rw [h4] at h1
      exact Or.inr ⟨h4, by omega⟩
  obtain ⟨s', hres, inv', hpow, heb, hexp⟩ := inv.migrate he hp hf
  refine ⟨hempty _ (Nat.mod_eq_of_lt hb), hempty _ (by
    rw [Nat.add_mod_right]; exact Nat.mod_eq_of_lt hb), s', _, _, hres, inv', ?_, ?_, ?_, ?_, ?_,
    ?_, ?_⟩
  · have := inv'.prim
    rw [hpow] at this
    exact this
  · rw [push_all_eq, hempty _ (Nat.mod_eq_of_lt hb), List.append_nil]
    congr 1
    apply List.filter_congr
    intro a ha
    apply decide_eq_decide.mpr
    rcases hcase a ha with ⟨h4, h5⟩ | ⟨h4, h5⟩
    · exact ⟨fun _ => h4, fun _ => h5⟩
    · exact ⟨fun h => by omega, fun h => by omega⟩
  · rw [push_all_eq, hempty _ (by rw [Nat.add_mod_right]; exact Nat.mod_eq_of_lt hb),
      List.append_nil]
    congr 1
    apply List.filter_congr
    intro a ha
    apply decide_eq_decide.mpr
    rcases hcase a ha with ⟨h4, h5⟩ | ⟨h4, h5⟩
    · exact ⟨fun h => by omega, fun h => by omega⟩
    · exact ⟨fun _ => h4, fun _ => h5⟩
  · intro i hi1 hi2
    rw [push_all_eq]
    have : (co s.expand_bucket).filter
        (fun a => decide (hash (s.mem a).key % 2 ^ 32 % 2 ^ s.hashpower = i)) = [] := by
      apply List.filter_eq_nil_iff.mpr
      intro a ha hd
      have h6 := of_decide_eq_true hd
      rcases hcase a ha with ⟨-, h5⟩ | ⟨-, h5⟩
      · exact hi1 (h6.symm.trans h5)
      · exact hi2 (h6.symm.trans h5)
    rw [this]
    rfl
  · exact Function.update_same _ _ _
  · intro j hj
    exact Function.update_noteq hj _ _
  · intro he'
    obtain ⟨h, hl, hc⟩ := inv'.old he' s.expand_bucket (by rw [hpow]; exact hb)
    rw [Function.update_same] at hc
    rw [(IsChain.nil_iff _ _).mp hc] at hl
    exact hl

/-! ## C14: insert routing during a resize -/

theorem select_bucket_expanding (s : State) (he : s.expanding = true) (hv : Nat) :
    (s.expand_bucket ≤ (hv % 2 ^ 32 &&& hashmask (udec s.hashpower)) % 2 ^ 32 →
      select_bucket s hv =
        (s.old_hashtable, (hv % 2 ^ 32 &&& hashmask (udec s.hashpower)) % 2 ^ 32)) ∧
    ((hv % 2 ^ 32 &&& hashmask (udec s.hashpower)) % 2 ^ 32 < s.expand_bucket →
      select_bucket s hv = (s.primary_hashtable, hv % 2 ^ 32 &&& hashmask s.hashpower)) := by
  constructor
  · intro h
    unfold select_bucket
    rw [if_pos ⟨he, h⟩]
  · intro h
    unfold select_bucket
    rw [if_neg (fun hc => absurd hc.2 (by omega))]

/-- The effect of `assoc_insert` on the bucket `(t, i)` it selects, in terms of chains: the
item becomes the head of that bucket, in front of the chain the bucket headed; the other
chains of the array and the chains of another array are what they were. -/
theorem insert_at {s : State} (hs : Allocated s) (x hv : Nat) {t t' : Option Nat} {i n n' : Nat}
    {c c' : Nat → List Nat} (hsel : select_bucket s hv = (t, i))
    (H : Heads s t n c) (H' : Heads s t' n' c') (hne : t' ≠ t)
    (hx : ∀ k, k < n → x ∉ c k) (hx' : ∀ k, k < n' → x ∉ c' k) :
    ∃ s', assoc_insert s x hv = .ok s' ∧
      load s' t i = .ok (some x) ∧ load s t i = .ok (s'.mem x).h_next ∧
      Heads s' t n (Function.update c i (x :: c i)) ∧ Heads s' t' n' c' ∧
      (∀ u j, (u ≠ t ∨ j ≠ i) → load s' u j = load s u j) ∧
      (∀ a, a ≠ x → s'.mem a = s.mem a) := by
  obtain ⟨hd, s2, s', hl, hst, hres, hlay, -⟩ := hs.insert_ok x hv
  rw [hsel] at hl hst
  simp only at hl hst
  have hmem : s'.mem = (set_h_next s x hd).mem := hlay.mem.trans (store_mem hst)
  refine ⟨s', hres, ?_, ?_, hlay.heads (push_heads hl hst H hx),
    hlay.heads (push_heads_other hst hne H' hx'), ?_, ?_⟩
  · rw [hlay.load_eq]
    exact load_store_same hst
  · rw [hmem, set_h_next_same]
    exact hl
  · intro u j hu
    rw [hlay.load_eq, load_store_other hst u j hu]
    rfl
  · intro a ha
    rw [hmem]
    exact set_h_next_other s x hd ha

/-- Insert routing during a resize: in a well-formed state with `expanding` true whose arrays
head the chains `cp` and `co`, for an item `x` on none of them and a hash `hv` with old bucket
`ob = hv & hashmask(hashpower - 1)`: if `ob >= expand_bucket`, `assoc_insert(x, hv)` makes `x`
the head of `old_hashtable[ob]` in front of the previous chain and leaves every other slot of
both arrays and every chain of `primary_hashtable` as they were; if `ob < expand_bucket`, it
makes `x` the head of `primary_hashtable[hv & hashmask(hashpower)]` and leaves every other
slot and every chain of `old_hashtable` as they were. -/
theorem insert_routing (s : State) (hs : Allocated s) (he : s.expanding = true) (x hv : Nat)
    (cp co : Nat → List Nat)
    (hP : Heads s s.primary_hashtable (2 ^ s.hashpower) cp)
    (hO : Heads s s.old_hashtable (2 ^ (s.hashpower - 1)) co)
    (hxp : ∀ i, i < 2 ^ s.hashpower → x ∉ cp i)
    (hxo : ∀ j, j < 2 ^ (s.hashpower - 1) → x ∉ co j) :
    ∃ s', assoc_insert s x hv = .ok s' ∧
      s'.primary_hashtable = s.primary_hashtable ∧ s'.old_hashtable = s.old_hashtable ∧
      (s.expand_bucket ≤ (hv % 2 ^ 32 &&& hashmask (udec s.hashpower)) % 2 ^ 32 →
        load s' s.old_hashtable ((hv % 2 ^ 32 &&& hashmask (udec s.hashpower)) % 2 ^ 32)
          = .ok (some x) ∧
        load s s.old_hashtable ((hv % 2 ^ 32 &&& hashmask (udec s.hashpower)) % 2 ^ 32)
          = .ok (s'.mem x).h_next ∧
        Heads s' s.old_hashtable (2 ^ (s.hashpower - 1))
          (Function.update co ((hv % 2 ^ 32 &&& hashmask (udec s.hashpower)) % 2 ^ 32)
            (x :: co ((hv % 2 ^ 32 &&& hashmask (udec s.hashpower)) % 2 ^ 32))) ∧
        Heads s' s.primary_hashtable (2 ^ s.hashpower) cp ∧
        (∀ u j, (u ≠ s.old_hashtable ∨
            j ≠ (hv % 2 ^ 32 &&& hashmask (udec s.hashpower)) % 2 ^ 32) →
          load s' u j = load s u j)) ∧
      ((hv % 2 ^ 32 &&& hashmask (udec s.hashpower)) % 2 ^ 32 < s.expand_bucket →
        load s' s.primary_hashtable (hv % 2 ^ 32 &&& hashmask s.hashpower) = .ok (some x) ∧
        load s s.primary_hashtable (hv % 2 ^ 32 &&& hashmask s.hashpower)
          = .ok (s'.mem x).h_next ∧
        Heads s' s.primary_hashtable (2 ^ s.hashpower)
          (Function.update cp (hv % 2 ^ 32 &&& hashmask s.hashpower)
            (x :: cp (hv % 2 ^ 32 &&& hashmask s.hashpower))) ∧
        Heads s' s.old_hashtable (2 ^ (s.hashpower - 1)) co ∧
        (∀ u j, (u ≠ s.primary_hashtable ∨ j ≠ hv % 2 ^ 32 &&& hashmask s.hashpower) →
          load s' u j = load s u j)) := by
  obtain ⟨hd, s2, s', hl, hst, hres, hlay, -⟩ := hs.insert_ok x hv
  have hf := assoc_insert_frame hres
  have hsep := hs.sep he
  refine ⟨s', hres, hf.2.1, hf.2.2.1, ?_, ?_⟩
  · intro hob
    obtain ⟨s'', h1, h2, h3, h4, h5, h6, -⟩ :=
      insert_at hs x hv ((select_bucket_expanding s he hv).1 hob) hO hP (Ne.symm hsep) hxo hxp
    rw [hres] at h1
    cases h1
    exact ⟨h2, h3, h4, h5, h6⟩
  · intro hob
    obtain ⟨s'', h1, h2, h3, h4, h5, h6, -⟩ :=
      insert_at hs x hv ((select_bucket_expanding s he hv).2 hob) hP hO hsep hxp hxo
    rw [hres] at h1
    cases h1
    exact ⟨h2, h3, h4, h5, h6⟩

theorem move_chain_key (hash : List Nat → Nat) (fuel : Nat) :
    ∀ (s : State) (it : Option Nat) (s' : State), move_chain hash s fuel it = .ok s' →
      ∀ a, (s'.mem a).key = (s.mem a).key := by
  induction fuel with
  | zero =>
    intro s it s' h
    cases it with
    | none => cases h; exact fun _ => rfl
    | some a => cases h
  | succ fuel ih =>
    intro s it s' h
    cases it with
    | none => cases h; exact fun _ => rfl
    | some a =>
      simp only [move_chain] at h
      split at h
      · cases h
      · cases hl : load s s.primary_hashtable
            (to_int (hash (s.mem a).key % 2 ^ 32 &&& hashmask s.hashpower)).toNat with
        | error e => rw [hl] at h; cases h
        | ok hd =>
          rw [hl] at h
          simp only at h
          cases hs : store (set_h_next s a hd) s.primary_hashtable
              (to_int (hash (s.mem a).key % 2 ^ 32 &&& hashmask s.hashpower)).toNat (some a) with
          | error e => rw [hs] at h; cases h
          | ok s1 =>
            rw [hs] at h
            simp only at h
            intro b
            rw [ih _ _ _ h b, store_mem hs]
            exact set_h_next_key s a hd b

theorem migrate_bucket_key {hash : List Nat → Nat} {fuel : Nat} {s s' : State}
    (h : migrate_bucket hash fuel s = .ok s') : ∀ a, (s'.mem a).key = (s.mem a).key := by
  obtain ⟨hd, s1, s2, -, hm, hst, hmem, -⟩ := migrate_bucket_heap h
  intro a
  rw [hmem, store_mem hst]
  exact move_chain_key hash fuel _ _ _ hm a

theorem bulk_move_loop_key (hash : List Nat → Nat) (fuel : Nat) (n : Nat) :
    ∀ (s s' : State), bulk_move_loop hash fuel n s = .ok s' →
      ∀ a, (s'.mem a).key = (s.mem a).key := by
  induction n with
  | zero => intro s s' h; cases h; exact fun _ => rfl
  | succ n ih =>
    intro s s' h
    simp only [bulk_move_loop] at h
    split at h
    · cases hm : migrate_bucket hash fuel s with
      | error e => rw [hm] at h; cases h
      | ok s1 =>
        rw [hm] at h
        simp only at h
        intro a
        rw [ih _ _ h a]
        exact migrate_bucket_key hm a
    · cases h
      exact fun _ => rfl

/-- An item inserted during a resize into an old bucket not yet migrated, up to power 31: in a
state with `expanding` true that satisfies the index invariants, let `x` be an item whose key
no indexed item has, `hv` the hash of its key and `ob = hv & hashmask(hashpower - 1)`, with
`ob >= expand_bucket`. `assoc_insert(x, hv)` selects `old_hashtable[ob]`; after the migration
steps up to and including the one of bucket `ob`, all of them defined, `assoc_find(key(x), hv)`
selects a bucket of `primary_hashtable` and returns `x`. -/
theorem find_after_migration (hash : List Nat → Nat) (s : State) (I : List Nat)
    (cp co : Nat → List Nat) (inv : Inv hash s I cp co) (he : s.expanding = true)
    (hp : s.hashpower ≤ 31) (x : Nat) (hfresh : ∀ a ∈ I, (s.mem a).key ≠ (s.mem x).key)
    (hob : s.expand_bucket ≤ hash (s.mem x).key % 2 ^ 32 % 2 ^ (s.hashpower - 1))
    (fuel : Nat) (hf : I.length + 1 ≤ fuel) :
    select_bucket s (hash (s.mem x).key % 2 ^ 32) =
      (s.old_hashtable, hash (s.mem x).key % 2 ^ 32 % 2 ^ (s.hashpower - 1)) ∧
    ∃ s1 s2, assoc_insert s x (hash (s.mem x).key % 2 ^ 32) = .ok s1 ∧
      bulk_move_loop hash fuel
        (hash (s.mem x).key % 2 ^ 32 % 2 ^ (s.hashpower - 1) + 1 - s.expand_bucket) s1
        = .ok s2 ∧
      s2.expand_bucket = hash (s.mem x).key % 2 ^ 32 % 2 ^ (s.hashpower - 1) + 1 ∧
      select_bucket s2 (hash (s.mem x).key % 2 ^ 32) =
        (s2.primary_hashtable, hash (s.mem x).key % 2 ^ 32 % 2 ^ s2.hashpower) ∧
      assoc_find fuel s2 (s.mem x).key (hash (s.mem x).key % 2 ^ 32) = .ok (some x) := by
  have h0 := inv.power_pos he
  have hold : in_old s (hash (s.mem x).key % 2 ^ 32) := (in_old_mod s _).mpr ⟨he, hob⟩
  have hsel := select_bucket_old inv.power_le h0 hold
  rw [mod_mod_32] at hsel
  refine ⟨hsel, ?_⟩
  obtain ⟨s1, cp1, co1, hins, inv1⟩ := inv.insert hfresh rfl
  have hfr := assoc_insert_frame hins
  have he1 : s1.expanding = true := by rw [hfr.2.2.2.1]; exact he
  have hlt : hash (s.mem x).key % 2 ^ 32 % 2 ^ (s.hashpower - 1) < 2 ^ (s.hashpower - 1) :=
    Nat.mod_lt _ (Nat.pos_pow_of_pos _ (by decide))
  obtain ⟨s2, cp2, co2, hloop, inv2, hpow2, heb2, hexp2⟩ :=
    Inv.steps (show (x :: I).length ≤ fuel from hf)
      (hash (s.mem x).key % 2 ^ 32 % 2 ^ (s.hashpower - 1) + 1 - s.expand_bucket)
      s1 cp1 co1 inv1 he1 (by rw [hfr.1]; exact hp)
      (by rw [hfr.2.2.2.2.1, hfr.1]; omega)
  rw [hfr.2.2.2.2.1] at heb2
  have heb2' : s2.expand_bucket = hash (s.mem x).key % 2 ^ 32 % 2 ^ (s.hashpower - 1) + 1 := by
    rw [heb2]; omega
  have hkey : (s2.mem x).key = (s.mem x).key := by
    rw [bulk_move_loop_key hash fuel _ _ _ hloop x]
    exact assoc_insert_key hins x
  have hpw : s2.hashpower = s.hashpower := hpow2.trans hfr.1
  refine ⟨s1, s2, hins, hloop, heb2', ?_, ?_⟩
  · have hnot : ¬ in_old s2 (hash (s.mem x).key % 2 ^ 32) := by
      intro hio
      have h2 := hio.2
      rw [mod_mod_32, hpw, heb2'] at h2
      omega
    have := select_bucket_primary inv2.power_le inv2.power_pos hnot
    rw [mod_mod_32] at this
    exact this
  · have := inv2.find_indexed (List.mem_cons_self x I) fuel hf
    rw [hkey] at this
    exact this

/-! ## Examples for C14 and C15 below power 32 -/

/-- The literal scenario of the specification: old bucket 0 heads the chain 12, 8, 4, 0; its
migration leaves 0, 8 on `primary_hashtable[0]` and 4, 12 on `primary_hashtable[4]`, each the
reverse of the order on the old chain, and empties `old_hashtable[0]`. -/
theorem migration_split_scenario :
    ex_scenario_start.expand_bucket = 0 ∧ 2 ^ (ex_scenario_start.hashpower - 1) = 4 ∧
    (∃ h, load ex_scenario_start ex_scenario_start.old_hashtable 0 = .ok h ∧
      IsChain ex_scenario_start.mem h [12, 8, 4, 0]) ∧
    load ex_scenario_start ex_scenario_start.primary_hashtable 0 = .ok none ∧
    load ex_scenario_start ex_scenario_start.primary_hashtable 4 = .ok none ∧
    migrate_bucket ex_hash 8 ex_scenario_start = .ok (ex_migrate ex_scenario_start) ∧
    (∃ h, load (ex_migrate ex_scenario_start) (ex_migrate ex_scenario_start).primary_hashtable 0
        = .ok h ∧ IsChain (ex_migrate ex_scenario_start).mem h [0, 8]) ∧
    (∃ h, load (ex_migrate ex_scenario_start) (ex_migrate ex_scenario_start).primary_hashtable 4
        = .ok h ∧ IsChain (ex_migrate ex_scenario_start).mem h [4, 12]) ∧
    load (ex_migrate ex_scenario_start) (ex_migrate ex_scenario_start).old_hashtable 0
      = .ok none :=
  ⟨rfl, rfl, ⟨some 12, rfl, rfl, rfl, rfl, rfl, rfl⟩, rfl, rfl, rfl,
    ⟨some 0, rfl, rfl, rfl, rfl⟩, ⟨some 4, rfl, rfl, rfl, rfl⟩, rfl⟩

/-- The split of old bucket 0 of the table of power 2 with the items 0, 4 and 1, resized to
power 3. -/
theorem migration_split_example :
    ∃ cp co, Inv ex_hash ex_resizing [1, 4, 0] cp co ∧
      cp ex_resizing.expand_bucket = [] ∧
      cp (ex_resizing.expand_bucket + 2 ^ (ex_resizing.hashpower - 1)) = [] ∧
      ∃ s' cp' co', migrate_bucket ex_hash 3 ex_resizing = .ok s' ∧
        Inv ex_hash s' [1, 4, 0] cp' co' ∧
        Heads s' s'.primary_hashtable (2 ^ ex_resizing.hashpower) cp' ∧
        cp' ex_resizing.expand_bucket = ((co ex_resizing.expand_bucket).filter (fun a =>
          decide (ex_hash (ex_resizing.mem a).key % 2 ^ 32 /
            2 ^ (ex_resizing.hashpower - 1) % 2 = 0))).reverse ∧
        cp' (ex_resizing.expand_bucket + 2 ^ (ex_resizing.hashpower - 1)) =
          ((co ex_resizing.expand_bucket).filter (fun a =>
            decide (ex_hash (ex_resizing.mem a).key % 2 ^ 32 /
              2 ^ (ex_resizing.hashpower - 1) % 2 = 1))).reverse ∧
        (∀ i, i ≠ ex_resizing.expand_bucket →
          i ≠ ex_resizing.expand_bucket + 2 ^ (ex_resizing.hashpower - 1) → cp' i = cp i) ∧
        co' ex_resizing.expand_bucket = [] ∧
        (∀ j, j ≠ ex_resizing.expand_bucket → co' j = co j) ∧
        (s'.expanding = true → load s' s'.old_hashtable ex_resizing.expand_bucket = .ok none) := by
  obtain ⟨cp, co, inv⟩ := ex_resizing_inv
  obtain ⟨h1, h2, h3⟩ :=
    migration_split ex_hash ex_resizing [1, 4, 0] cp co inv rfl (by decide) 3 (by decide)
  exact ⟨cp, co, inv, h1, h2, h3⟩

/-- Item 5, whose key hashes to 5, inserted into the table of power 2 with the items 0, 4 and
1 at the start of its resize to power 3: the insert selects old bucket 1; after the migration
of the old buckets 0 and 1 the item is found in the primary array. -/
theorem find_after_migration_example :
    select_bucket ex_resizing (ex_hash (ex_resizing.mem 5).key % 2 ^ 32) =
      (ex_resizing.old_hashtable, 1) ∧
    ∃ s1 s2, assoc_insert ex_resizing 5 (ex_hash (ex_resizing.mem 5).key % 2 ^ 32) = .ok s1 ∧
      bulk_move_loop ex_hash 4 2 s1 = .ok s2 ∧ s2.expand_bucket = 2 ∧
      select_bucket s2 (ex_hash (ex_resizing.mem 5).key % 2 ^ 32) =
        (s2.primary_hashtable, ex_hash (ex_resizing.mem 5).key % 2 ^ 32 % 2 ^ s2.hashpower) ∧
      assoc_find 4 s2 (ex_resizing.mem 5).key (ex_hash (ex_resizing.mem 5).key % 2 ^ 32)
        = .ok (some 5) := by
  obtain ⟨cp, co, inv⟩ := ex_resizing_inv
  exact find_after_migration ex_hash ex_resizing [1, 4, 0] cp co inv rfl (by decide) 5
    (by
      intro a ha
      simp only [List.mem_cons, List.mem_singleton, List.not_mem_nil, or_false] at ha
      rcases ha with rfl | rfl | rfl <;> decide)
    (by decide) 4 (by decide)

/-- Item 5 inserted with the hash 5 into the same table: its old bucket 1 is not below
`expand_bucket`, and it becomes the head of `old_hashtable[1]`, in front of item 1. -/
theorem insert_routing_example :
    ∃ s', assoc_insert ex_resizing 5 5 = .ok s' ∧
      load s' ex_resizing.old_hashtable ((5 % 2 ^ 32 &&& hashmask (udec ex_resizing.hashpower))
        % 2 ^ 32) = .ok (some 5) ∧
      (s'.mem 5).h_next = some 1 := by
  obtain ⟨cp, co, inv⟩ := ex_resizing_inv
  obtain ⟨s', h1, -, -, h2, -⟩ :=
    insert_routing ex_resizing (ex_resizing_reach.allocated _ rfl).1 rfl 5 5 cp co inv.prim
      (inv.old rfl)
      (fun i _ h => absurd ((inv.mem_p i 5).mp h).1 (by decide))
      (fun j _ h => absurd ((inv.mem_o j 5).mp h).1 (by decide))
  obtain ⟨h3, h4, -⟩ := h2 (by decide)
  refine ⟨s', h1, h3, ?_⟩
  have h5 : load ex_resizing ex_resizing.old_hashtable
      ((5 % 2 ^ 32 &&& hashmask (udec ex_resizing.hashpower)) % 2 ^ 32) = .ok (some 1) := rfl
  rw [h5] at h4
  exact (Except.ok.inj h4).symm

/-! ## C14 and C15 at power 32 -/

/-- C14, failing input: after `assoc_init(31)` and a successful `assoc_expand`, `expanding`
is true, `hashpower` is 32 and `expand_bucket` is 0. The item whose key hashes to
`hv = 0x80000000` has the old bucket `hv & hashmask(31) = 0`, not below `expand_bucket`, and
`assoc_insert` makes it the head of `old_hashtable[0]`, as the claim says. The migration of
old bucket 0 that follows computes the index -2147483648 for it and has undefined behaviour:
the item is never linked into `primary_hashtable`. -/
theorem insert_then_migrate_undefined_at_power_32 :
    (assoc_expand (ex_init 31) (some 2)).expanding = true ∧
    (assoc_expand (ex_init 31) (some 2)).hashpower = 32 ∧
    (assoc_expand (ex_init 31) (some 2)).expand_bucket = 0 ∧
    ex_hash ((assoc_expand (ex_init 31) (some 2)).mem (2 ^ 31)).key % 2 ^ 32 = 2 ^ 31 ∧
    (2 ^ 31 % 2 ^ 32 &&& hashmask (udec 32)) % 2 ^ 32 = 0 ∧
    assoc_insert (assoc_expand (ex_init 31) (some 2)) (2 ^ 31) (2 ^ 31) = .ok ex_late ∧
    load ex_late ex_late.old_hashtable 0 = .ok (some (2 ^ 31)) ∧
    (ex_late.mem (2 ^ 31)).h_next = none ∧
    ex_late.expanding = true ∧ ex_late.expand_bucket = 0 ∧
    to_int (ex_hash (ex_late.mem (2 ^ 31)).key % 2 ^ 32 &&& hashmask ex_late.hashpower)
      = -2147483648 ∧
    (∀ fuel, migrate_bucket ex_hash (fuel + 1) ex_late = .error .undefined) :=
  ⟨rfl, rfl, rfl, by decide, by decide, rfl, rfl, rfl, rfl, rfl, by decide, fun _ => rfl⟩

/-- C15, failing input: the state after `assoc_init(31)`, the insertion of an item whose key
hashes to `0x80000000` and a successful `assoc_expand` satisfies the index invariants with
`expanding` true, `b = expand_bucket = 0` and `S = 1 << 31`. `primary_hashtable[b]` and
`primary_hashtable[b + S]` are empty and the item, whose hash has bit 31 set, heads
`old_hashtable[b]`; the migration step computes the index -2147483648 instead of `b + S`
and has undefined behaviour: the item does not reach `primary_hashtable[b + S]`. -/
theorem split_undefined_at_power_32 :
    (∃ cp co, Inv ex_hash ex_big [2 ^ 31] cp co) ∧ ex_big.expanding = true ∧
    ex_big.expand_bucket = 0 ∧ 2 ^ (ex_big.hashpower - 1) = 2 ^ 31 ∧
    load ex_big ex_big.primary_hashtable 0 = .ok none ∧
    load ex_big ex_big.primary_hashtable (0 + 2 ^ 31) = .ok none ∧
    load ex_big ex_big.old_hashtable 0 = .ok (some (2 ^ 31)) ∧
    (ex_big.mem (2 ^ 31)).h_next = none ∧
    ex_hash (ex_big.mem (2 ^ 31)).key / 2 ^ (ex_big.hashpower - 1) % 2 = 1 ∧
    (ex_hash (ex_big.mem (2 ^ 31)).key % 2 ^ 32 &&& hashmask ex_big.hashpower) = 0 + 2 ^ 31 ∧
    to_int (ex_hash (ex_big.mem (2 ^ 31)).key % 2 ^ 32 &&& hashmask ex_big.hashpower)
      = -2147483648 ∧
    (∀ fuel, migrate_bucket ex_hash (fuel + 1) ex_big = .error .undefined) :=
  ⟨ex_big_inv, rfl, rfl, rfl, rfl, rfl, rfl, rfl, by decide, by decide, by decide, fun _ => rfl⟩

end Assoc
